import Mathlib

/-! # High-Performance Data Loader: LRU cache, worker pool and pipeline engine

A shallow embedding of `cache.h` (class `LRUCache`), of the engine of `data_loader.h`, of
the worker pool of `thread_pool.h` and of the storage selection of `storage.cpp`, followed
by the properties proved about them.

Conventions:

* `std::list<std::pair<Key, Value>>` is a Lean list of nodes, head first (the head is the
  most recently used entry, the last element the least recently used one).  Every node
  carries the address it was allocated at; a list iterator is such an address.
* `std::unordered_map<Key, ListIterator>` is an association list from keys to addresses.
* An operation whose C++ behaviour is undefined (dereferencing a dangling iterator,
  `back()` or `pop_back()` on an empty list) yields `none`.
* The mutex is not modelled: every member function holds `mutex_` for its whole body, so
  the calls of a history are totally ordered and each definition below is one such call.
* The allocation of a single object, list node or queue element succeeds.  A call of
  `std::vector::reserve` whose size is an argument of the program, and the start of the
  threads of a pool, succeed or throw as the `Limits` of the implementation decide.
-/

set_option linter.unusedSectionVars false

namespace LRUCache

/-- One node of `list_`: its address and the stored `std::pair<Key, Value>`. -/
structure Node (K V : Type) where
  addr : Nat
  key : K
  value : V
deriving DecidableEq, Repr

end LRUCache

/-- The data members of `LRUCache<Key, Value>` (without the mutex). -/
structure LRUCache (K V : Type) where
  capacity_ : Nat
  list_ : List (LRUCache.Node K V)
  cache_ : List (K × Nat)
deriving DecidableEq, Repr

namespace LRUCache

variable {K V E : Type} [DecidableEq K]

/-! ### `std::unordered_map` primitives -/

/-- The iterator stored under `k`, as found by `cache_.find(key)`. -/
def mapFind (m : List (K × Nat)) (k : K) : Option Nat :=
  match m with
  | [] => none
  | e :: rest => if e.1 = k then some e.2 else mapFind rest k

/-- The map after `cache_.erase(key)`. -/
def mapErase (m : List (K × Nat)) (k : K) : List (K × Nat) :=
  m.filter (fun e => decide (e.1 ≠ k))

/-- The map after `cache_[key] = it`. -/
def mapAssign (m : List (K × Nat)) (k : K) (it : Nat) : List (K × Nat) :=
  (k, it) :: mapErase m k

/-! ### `std::list` primitives -/

/-- The node an iterator points to, if the iterator is valid for this list. -/
def deref (l : List (Node K V)) (it : Nat) : Option (Node K V) :=
  l.find? (fun n => decide (n.addr = it))

/-- The list without the node at `it`. -/
def unlink (l : List (Node K V)) (it : Nat) : List (Node K V) :=
  l.filter (fun n => decide (n.addr ≠ it))

/-- The list after `list_.splice(list_.begin(), list_, it)`: the node at `it` is moved to the head. -/
def spliceFront (l : List (Node K V)) (it : Nat) : Option (List (Node K V)) :=
  match deref l it with
  | none => none
  | some n => some (n :: unlink l it)

/-- The list after `it->second = value`. -/
def assignValue (l : List (Node K V)) (it : Nat) (v : V) : List (Node K V) :=
  l.map (fun n => if n.addr = it then { n with value := v } else n)

/-- An address no node of the list occupies: where `emplace_front` allocates. -/
def freshAddr (l : List (Node K V)) : Nat :=
  (l.map (fun n => n.addr)).foldr max 0 + 1

/-! ### Member functions -/

/-- The constructor `LRUCache(size_t capacity)`. -/
def new (capacity : Nat) : LRUCache K V :=
  { capacity_ := capacity, list_ := [], cache_ := [] }

/-- The observer `size()`, which is `cache_.size()`. -/
def size (s : LRUCache K V) : Nat := s.cache_.length

/-- The observer `capacity()`. -/
def capacity (s : LRUCache K V) : Nat := s.capacity_

/-- The member `contains(key)`. -/
def contains (s : LRUCache K V) (k : K) : Bool :=
  (mapFind s.cache_ k).isSome

/-- The member `get(key)`: the returned optional and the state afterwards. -/
def get (s : LRUCache K V) (k : K) : Option (Option V × LRUCache K V) :=
  match mapFind s.cache_ k with
  | none => some (none, s)
  | some it =>
    match spliceFront s.list_ it with
    | none => none
    | some l =>
      match deref l it with
      | none => none
      | some n => some (some n.value, { s with list_ := l })

/-- The block `if (cache_.size() >= capacity_) { ... }` shared by `put` and `get_or_load`. -/
def evictIfFull (s : LRUCache K V) : Option (LRUCache K V) :=
  if s.cache_.length ≥ s.capacity_ then
    match s.list_.getLast? with
    | none => none
    | some last =>
      some { s with cache_ := mapErase s.cache_ last.key, list_ := s.list_.dropLast }
  else some s

/-- The tail of `put` and `get_or_load`: `list_.emplace_front(key, value); cache_[key] = list_.begin()`. -/
def insertFront (s : LRUCache K V) (k : K) (v : V) : LRUCache K V :=
  let a := freshAddr s.list_
  { s with list_ := { addr := a, key := k, value := v } :: s.list_,
           cache_ := mapAssign s.cache_ k a }

/-- The member `put(const Key&, const Value&)`. -/
def put (s : LRUCache K V) (k : K) (v : V) : Option (LRUCache K V) :=
  match mapFind s.cache_ k with
  | some it =>
    match spliceFront s.list_ it with
    | none => none
    | some l => some { s with list_ := assignValue l it v }
  | none =>
    match evictIfFull s with
    | none => none
    | some s1 => some (insertFront s1 k v)

/-- The overload `put(const Key&, Value&&)`; its body differs from `put` only in moving the value. -/
def putMove (s : LRUCache K V) (k : K) (v : V) : Option (LRUCache K V) :=
  match mapFind s.cache_ k with
  | some it =>
    match spliceFront s.list_ it with
    | none => none
    | some l => some { s with list_ := assignValue l it v }
  | none =>
    match evictIfFull s with
    | none => none
    | some s1 => some (insertFront s1 k v)

/-- The member `remove(key)`. -/
def remove (s : LRUCache K V) (k : K) : Option (Bool × LRUCache K V) :=
  match mapFind s.cache_ k with
  | none => some (false, s)
  | some it =>
    match deref s.list_ it with
    | none => none
    | some _ => some (true, { s with list_ := unlink s.list_ it, cache_ := mapErase s.cache_ k })

/-- The member `clear()`. -/
def clear (s : LRUCache K V) : LRUCache K V :=
  { s with cache_ := [], list_ := [] }

/-- The loop `while (cache_.size() > capacity_) { ... }` of `set_capacity`.  Every iteration
pops one node, so `list_.length + 1` iterations always suffice. -/
def evictLoop : Nat → LRUCache K V → Option (LRUCache K V)
  | 0, _ => none
  | fuel + 1, s =>
    if s.cache_.length > s.capacity_ then
      match s.list_.getLast? with
      | none => none
      | some last =>
        evictLoop fuel { s with cache_ := mapErase s.cache_ last.key, list_ := s.list_.dropLast }
    else some s

/-- The member `set_capacity(new_capacity)`. -/
def set_capacity (s : LRUCache K V) (n : Nat) : Option (LRUCache K V) :=
  evictLoop (s.list_.length + 1) { s with capacity_ := n }

/-- What one call of `get_or_load` does: the keys the loader was invoked on, the returned
value or the exception that left the call, and the state afterwards. -/
structure Loaded (K V E : Type) where
  calls : List K
  result : Except E V
  state : LRUCache K V

/-- The member `get_or_load(key, loader)`; a loader that throws is `Except.error`. -/
def get_or_load (s : LRUCache K V) (k : K) (loader : K → Except E V) : Option (Loaded K V E) :=
  match mapFind s.cache_ k with
  | some it =>
    match spliceFront s.list_ it with
    | none => none
    | some l =>
      match deref l it with
      | none => none
      | some n => some { calls := [], result := .ok n.value, state := { s with list_ := l } }
  | none =>
    match loader k with
    | .error e => some { calls := [k], result := .error e, state := s }
    | .ok value =>
      match evictIfFull s with
      | none => none
      | some s1 => some { calls := [k], result := .ok value, state := insertFront s1 k value }

/-! ### Observations used in the statements -/

/-- The recency list as key/value pairs, most recently used first. -/
def entries (s : LRUCache K V) : List (K × V) :=
  s.list_.map (fun n => (n.key, n.value))

/-- The keys of the recency list, most recently used first. -/
def keys (s : LRUCache K V) : List K :=
  s.list_.map (fun n => n.key)

/-- The value stored for `k`, read off the recency list. -/
def valueOf (s : LRUCache K V) (k : K) : Option V :=
  (s.list_.find? (fun n => decide (n.key = k))).map (fun n => n.value)

end LRUCache

/-! ## Histories of calls -/

namespace LRUCache

/-- One call of a public member function of `LRUCache`. -/
inductive Op (K V E : Type) where
  | get (k : K)
  | put (k : K) (v : V)
  | putMove (k : K) (v : V)
  | contains (k : K)
  | remove (k : K)
  | clear
  | size
  | capacity
  | set_capacity (n : Nat)
  | get_or_load (k : K) (loader : K → Except E V)

variable {K V E : Type} [DecidableEq K]

/-- The state after one call, `none` if the call has undefined behaviour. -/
def step (s : LRUCache K V) : Op K V E → Option (LRUCache K V)
  | .get k => (get s k).map Prod.snd
  | .put k v => put s k v
  | .putMove k v => putMove s k v
  | .contains _ => some s
  | .remove k => (remove s k).map Prod.snd
  | .clear => some (clear s)
  | .size => some s
  | .capacity => some s
  | .set_capacity n => set_capacity s n
  | .get_or_load k f => (get_or_load s k f).map (fun r => r.state)

/-- The state after a sequence of calls, `none` if one of them has undefined behaviour. -/
def run (s : LRUCache K V) : List (Op K V E) → Option (LRUCache K V)
  | [] => some s
  | op :: ops =>
    match step s op with
    | none => none
    | some s1 => run s1 ops

/-- The key/value pair a call stores into the cache, if it stores one: `put` always does,
`get_or_load` does when the key is absent and the loader returns. -/
def stored (s : LRUCache K V) : Op K V E → Option (K × V)
  | .put k v => some (k, v)
  | .putMove k v => some (k, v)
  | .get_or_load k f =>
    if contains s k then none
    else
      match f k with
      | .ok v => some (k, v)
      | .error _ => none
  | _ => none

/-- The history variable "value most recently stored for each key", updated by one store. -/
def record (g : K → Option V) (st : Option (K × V)) : K → Option V :=
  fun k =>
    match st with
    | some (k', v) => if k' = k then some v else g k
    | none => g k

/-- The run of a sequence of calls together with the history variable. -/
def runLog (s : LRUCache K V) (g : K → Option V) :
    List (Op K V E) → Option (LRUCache K V × (K → Option V))
  | [] => some (s, g)
  | op :: ops =>
    match step s op with
    | none => none
    | some s1 => runLog s1 (record g (stored s op)) ops

/-- The results of `n` successive calls `get_or_load(key, loader)` with no other call in
between, and the final state; `none` if one of them has undefined behaviour. -/
def get_or_load_times (k : K) (loader : K → Except E V) :
    Nat → LRUCache K V → Option (List (Loaded K V E) × LRUCache K V)
  | 0, s => some ([], s)
  | n + 1, s =>
    match get_or_load s k loader with
    | none => none
    | some r =>
      match get_or_load_times k loader n r.state with
      | none => none
      | some (rs, s') => some (r :: rs, s')

/-- The history variable agrees with the cache: every node holds the value most recently
stored for its key. -/
def Tracks (s : LRUCache K V) (g : K → Option V) : Prop :=
  ∀ n ∈ s.list_, g n.key = some n.value

end LRUCache

/-- The three keys of the recency scenario. -/
inductive K3 where
  | A
  | B
  | C
deriving DecidableEq, Repr

/-- A sample history: put(A,1), put(B,2), get(A), put(C,3), set_capacity(1) and
get_or_load(B, loader returning 7). -/
def sampleCalls : List (LRUCache.Op K3 Nat Unit) :=
  [LRUCache.Op.put K3.A 1, LRUCache.Op.put K3.B 2, LRUCache.Op.get K3.A,
   LRUCache.Op.put K3.C 3, LRUCache.Op.set_capacity 1,
   LRUCache.Op.get_or_load K3.B (fun _ => Except.ok 7)]

/-- The cache of capacity 2 after put(A,1), put(B,2), get(A): full, A most recently used. -/
def cacheAB : LRUCache K3 Nat :=
  { capacity_ := 2,
    list_ := [{ addr := 1, key := K3.A, value := 1 }, { addr := 2, key := K3.B, value := 2 }],
    cache_ := [(K3.B, 2), (K3.A, 1)] }

/-! ## The representation invariant -/

namespace LRUCache

variable {K V E : Type} [DecidableEq K]

/-- The map and the recency list describe the same entries: node addresses are distinct,
list keys are distinct, map keys are distinct, and the map holds exactly the pairs
(key of a node, address of that node). -/
structure WF (s : LRUCache K V) : Prop where
  addr_nodup : (s.list_.map (fun n => n.addr)).Nodup
  key_nodup : (s.list_.map (fun n => n.key)).Nodup
  map_nodup : (s.cache_.map Prod.fst).Nodup
  agree : ∀ k a, (k, a) ∈ s.cache_ ↔ ∃ n ∈ s.list_, n.key = k ∧ n.addr = a

end LRUCache

/-! ## Limits of the implementation, and the construction of a worker pool -/

/-- What the implementation and the machine allow: `max_size` is the value of `max_size()`
of the vectors the program reserves (`std::vector<std::unique_ptr<DataItem>>` and
`std::vector<std::thread>`, whose elements have the size of a pointer), `granted n` tells
whether the allocator hands out storage for `n` such elements, `started n` whether the
system starts the `n` threads of a pool. -/
structure Limits where
  max_size : Nat
  granted : Nat → Bool
  started : Nat → Bool

namespace Limits

/-- The call `v.reserve(n)` on an empty vector: `std::length_error` for `n > max_size()`,
nothing to do for `n = 0`, otherwise storage for `n` elements is allocated, which throws
`std::bad_alloc` when it is not granted. -/
def reserve (r : Limits) (n : Nat) : Except String Unit :=
  if n > r.max_size then .error "vector::reserve"
  else if n = 0 then .ok ()
  else if r.granted n then .ok () else .error "std::bad_alloc"

end Limits

/-- An LP64 implementation (`max_size()` is `PTRDIFF_MAX / 8`) on a machine that grants
reservations of up to `2^32` elements and pools of up to 1024 threads. -/
def lp64 : Limits :=
  { max_size := 1152921504606846975,
    granted := fun n => decide (n ≤ 4294967296),
    started := fun n => decide (n ≤ 1024) }

/-- The data members of `ThreadPool`: the number of worker threads, the FIFO task queue
(front first) and the stop flag. -/
structure ThreadPool (Task : Type) where
  workers_ : Nat
  tasks_ : List Task
  stop_ : Bool
deriving DecidableEq, Repr

namespace ThreadPool

variable {Task : Type}

/-- The constructor `ThreadPool(num_threads)`: zero threads are replaced by one,
`workers_.reserve(num_threads)` runs, then the workers are started one by one; a thread
that cannot be started throws `std::system_error`.  An exception leaves the constructor
(and ends the program when workers that were started are destroyed unjoined): no pool
exists. -/
def construct (r : Limits) (num_threads : Nat) : Except String (ThreadPool Task) :=
  let num_threads := if num_threads = 0 then 1 else num_threads
  match r.reserve num_threads with
  | .error what => .error what
  | .ok _ =>
    if r.started num_threads then .ok { workers_ := num_threads, tasks_ := [], stop_ := false }
    else .error "std::system_error"

end ThreadPool

/-! ## The pipeline engine (`data_loader.h`)

The queues and flags of `DataLoader` together with the work its threads hold.  Every block
of the source that runs under one lock is one step function.  A step whose
condition-variable predicate is false does not happen (the thread sleeps): such a step
function yields `none`, or `blocked` for the consumer. -/

/-- The data members of `DataLoader` that the load/preprocess/batch path uses, and the
position of its threads: `load_tasks` are the `loadData(path)` tasks enqueued by
`startLoading` that have not started, `loading` the items held by `loadData` calls that
have reached their push block, `processing` the items held by `processData` iterations
that have reached their push block, `process_loops` the `processData` tasks enqueued by
`startLoading` that have not ended (at most `processor_threads` of them run at a time).
The cache stores items directly where the source stores `std::unique_ptr<DataItem>`. -/
structure DataLoader (Item : Type) where
  data_paths_ : List String
  batch_size_ : Nat
  current_index_ : Nat
  done_loading_ : Bool
  buffer_size_ : Nat
  loader_threads : Nat
  processor_threads : Nat
  loaded_queue_ : List Item
  processed_queue_ : List Item
  load_tasks : List String
  loading : List Item
  processing : List Item
  cache_capacity_ : Nat
  data_cache_ : Option (LRUCache String Item)
  process_loops : Nat
deriving DecidableEq, Repr

namespace DataLoader

variable {Item : Type}

/-- The outcome of `getNextItem`: the thread sleeps on `processed_condition_`, or the call
returns an optional item and leaves a new state. -/
inductive ItemCall (Item : Type) where
  | blocked
  | returned (item : Option Item) (d : DataLoader Item)
deriving DecidableEq, Repr

/-- The outcome of `getNextBatch`: the thread sleeps inside `getNextItem` holding the items
collected so far, or the call returns an optional batch, or it throws. -/
inductive BatchCall (Item : Type) where
  | blocked (held : List Item) (d : DataLoader Item)
  | returned (batch : Option (List Item)) (d : DataLoader Item)
  | threw (what : String) (d : DataLoader Item)
deriving DecidableEq, Repr

/-- The size of a `ThreadPool` constructed with `num_threads`: at least one worker. -/
def poolSize (num_threads : Nat) : Nat :=
  if num_threads = 0 then 1 else num_threads

/-- The engine that the constructor leaves when it is called with `cache_capacity = 0` and
both pools can be built (see `construct`): the members are initialised and `startLoading`
has enqueued one load task per path. -/
def create (data_paths : List String) (batch_size num_loader_threads num_processor_threads
    buffer_size : Nat) : DataLoader Item :=
  { data_paths_ := data_paths, batch_size_ := batch_size, current_index_ := 0,
    done_loading_ := false, buffer_size_ := buffer_size,
    loader_threads := poolSize num_loader_threads,
    processor_threads := poolSize num_processor_threads,
    loaded_queue_ := [], processed_queue_ := [],
    load_tasks := data_paths, loading := [], processing := [],
    cache_capacity_ := 0, data_cache_ := none,
    process_loops := poolSize num_processor_threads }

/-- The member `stop()`. -/
def stop (d : DataLoader Item) : DataLoader Item :=
  { d with done_loading_ := true }

/-- A free loader thread takes the next load task and runs `loadData` up to its push block
(no cache: `data = loader_fn_(path)`, with a loader that returns). -/
def loadStart (loader_fn_ : String → Item) (d : DataLoader Item) : Option (DataLoader Item) :=
  match d.load_tasks with
  | [] => none
  | path :: rest =>
    if d.loading.length < d.loader_threads then
      some { d with load_tasks := rest, loading := d.loading ++ [loader_fn_ path] }
    else none

/-- The push block of `loadData` for the `i`-th waiting call, run while no other thread
writes `done_loading_` between its two reads of the flag: it proceeds when
`loaded_queue_.size() < buffer_size_ || done_loading_` and pushes unless `done_loading_`.
The two halves of the block, between which `stop()` or `reset()` may write the flag, are
`loadWait` and `loadStore`. -/
def loadPush (d : DataLoader Item) (i : Nat) : Option (DataLoader Item) :=
  match d.loading.get? i with
  | none => none
  | some data =>
    if decide (d.loaded_queue_.length < d.buffer_size_) || d.done_loading_ then
      if !d.done_loading_ then
        some { d with loading := d.loading.eraseIdx i, loaded_queue_ := d.loaded_queue_ ++ [data] }
      else some { d with loading := d.loading.eraseIdx i }
    else none

/-- The pop block of `processData` for a running loop that holds no item, followed by
`processor_fn_` (one that returns): it takes the front of the loaded queue.  With an empty
queue the iteration changes nothing. -/
def processPop (processor_fn_ : Item → Item) (d : DataLoader Item) : Option (DataLoader Item) :=
  match d.loaded_queue_ with
  | [] => none
  | data :: rest =>
    if d.processing.length < min d.process_loops d.processor_threads then
      some { d with loaded_queue_ := rest, processing := d.processing ++ [processor_fn_ data] }
    else none

/-- The push block of `processData` for the `i`-th waiting worker, run while no other
thread writes `done_loading_` between its two reads of the flag: it proceeds when
`processed_queue_.size() < buffer_size_ || done_loading_` and pushes unless
`done_loading_`.  Its two halves are `processWait` and `processStore`. -/
def processPush (d : DataLoader Item) (i : Nat) : Option (DataLoader Item) :=
  match d.processing.get? i with
  | none => none
  | some data =>
    if decide (d.processed_queue_.length < d.buffer_size_) || d.done_loading_ then
      if !d.done_loading_ then
        some { d with processing := d.processing.eraseIdx i,
                      processed_queue_ := d.processed_queue_ ++ [data] }
      else some { d with processing := d.processing.eraseIdx i }
    else none

/-- The member `getNextItem()`: it waits for `!processed_queue_.empty() || done_loading_`,
returns `nullopt` on an empty queue and the popped front otherwise. -/
def getNextItem (d : DataLoader Item) : ItemCall Item :=
  if !d.processed_queue_.isEmpty || d.done_loading_ then
    match d.processed_queue_ with
    | [] => .returned none d
    | item :: rest => .returned (some item) { d with processed_queue_ := rest }
  else .blocked

/-- The loop `for (i = 0; i < batch_size_; ++i)` of `getNextBatch` with `n` iterations left,
while no other thread takes a step. -/
def getNextBatchLoop : Nat → List Item → DataLoader Item → BatchCall Item
  | 0, batch, d => .returned (some batch) d
  | n + 1, batch, d =>
    match getNextItem d with
    | .blocked => .blocked batch d
    | .returned none d1 =>
      if !batch.isEmpty then .returned (some batch) d1 else .returned none d1
    | .returned (some item) d1 => getNextBatchLoop n (batch ++ [item]) d1

/-- The member `getNextBatch()`, while no other thread takes a step:
`batch.reserve(batch_size_)` on the new vector, whose exception leaves the call before any
item is taken, then the loop.  After the reservation no `push_back` allocates. -/
def getNextBatch (d : DataLoader Item) (r : Limits) : BatchCall Item :=
  match r.reserve d.batch_size_ with
  | .error what => .threw what d
  | .ok _ => getNextBatchLoop d.batch_size_ [] d

/-- One step of the producer threads under a fixed schedule: the first enabled one of
process-push, process-pop, load-push, load-start. -/
def producerStep (loader_fn_ : String → Item) (processor_fn_ : Item → Item)
    (d : DataLoader Item) : Option (DataLoader Item) :=
  match processPush d 0 with
  | some d1 => some d1
  | none =>
    match processPop processor_fn_ d with
    | some d1 => some d1
    | none =>
      match loadPush d 0 with
      | some d1 => some d1
      | none => loadStart loader_fn_ d

/-- The producer threads run under that schedule until none of them can take a step, for at
most `fuel` steps. -/
def runProducers (loader_fn_ : String → Item) (processor_fn_ : Item → Item) :
    Nat → DataLoader Item → DataLoader Item
  | 0, d => d
  | fuel + 1, d =>
    match producerStep loader_fn_ processor_fn_ d with
    | none => d
    | some d1 => runProducers loader_fn_ processor_fn_ fuel d1

/-- No producer thread holds or can obtain an item: every load task has completed, the
loaded queue is empty and every preprocess worker is idle. -/
def Quiescent (d : DataLoader Item) : Prop :=
  d.load_tasks = [] ∧ d.loading = [] ∧ d.loaded_queue_ = [] ∧ d.processing = []

end DataLoader

/-- Seven locators. -/
def sevenPaths : List String := ["p1", "p2", "p3", "p4", "p5", "p6", "p7"]

/-- The engine over the seven locators with batch size 3, four loader and four preprocess
threads and buffer size 100, after its load and preprocess threads have done all the work
they can (loader and processor are the identity on the locator string). -/
def sevenLoaded : DataLoader String :=
  DataLoader.runProducers id id 100 (DataLoader.create sevenPaths 3 4 4 100)

/-! ## Items, cache use, failures and restart of the pipeline -/

/-- The class hierarchy `DataItem` / `ImageData` / `TextData` as a tagged value.  `base` is
an object whose dynamic type is `DataItem` itself; the image dimensions are taken
non-negative and `data` is the content of the buffer behind `data_`. -/
inductive DataItem where
  | base
  | image (width height channels : Nat) (data : List Nat)
  | text (text : String)
deriving DecidableEq, Repr

namespace DataItem

/-- The object built by `std::make_unique<DataItem>(*p)`: the copy constructor of the base
class, whatever the dynamic type of `*p` is. -/
def copyAsBase (_ : DataItem) : DataItem := .base

/-- The product `width * height * channels` of three `int` values, evaluated from the
left; `none` when a product exceeds `INT_MAX` (signed overflow is undefined). -/
def byteCount (w h c : Nat) : Option Nat :=
  if w * h ≤ 2147483647 ∧ w * h * c ≤ 2147483647 then some (w * h * c) else none

/-- The copy `loadData` puts into the cache after a miss: a new `ImageData` filled by
`memcpy` of `width * height * channels` bytes (`none`: the product overflows or the read
runs past the buffer), a new `TextData`, or for any other dynamic type
`std::make_unique<DataItem>(*data)`. -/
def cacheCopy : DataItem → Option DataItem
  | .image w h c data =>
    match byteCount w h c with
    | none => none
    | some n => if n ≤ data.length then some (.image w h c (data.take n)) else none
  | .text t => some (.text t)
  | .base => some (copyAsBase .base)

end DataItem

namespace DataLoader

variable {Item : Type}

/-- The member `startLoading()`: one load task per path is enqueued into the loader pool
and `processor_pool_.size()` `processData` tasks into the processor pool. -/
def startLoading (d : DataLoader Item) : DataLoader Item :=
  { d with load_tasks := d.load_tasks ++ d.data_paths_,
           process_loops := d.process_loops + d.processor_threads }

/-- The constructor.  The members are initialised in the order of their declaration, so
`loader_pool_` and then `processor_pool_` are constructed first, and an exception of a
pool constructor leaves the constructor (`Except.error`: no engine exists).  There is no
validation of the arguments and no `throw` in the constructor itself.  The cache is
created only for `cache_capacity > 0`; then `startLoading` runs. -/
def construct (r : Limits) (data_paths : List String) (batch_size num_loader_threads
    num_processor_threads buffer_size cache_capacity : Nat) : Except String (DataLoader Item) :=
  match (ThreadPool.construct r num_loader_threads : Except String (ThreadPool Unit)) with
  | .error what => .error what
  | .ok loader_pool_ =>
    match (ThreadPool.construct r num_processor_threads : Except String (ThreadPool Unit)) with
    | .error what => .error what
    | .ok processor_pool_ =>
      .ok (startLoading
        { data_paths_ := data_paths, batch_size_ := batch_size, current_index_ := 0,
          done_loading_ := false, buffer_size_ := buffer_size,
          loader_threads := loader_pool_.workers_,
          processor_threads := processor_pool_.workers_,
          loaded_queue_ := [], processed_queue_ := [],
          load_tasks := [], loading := [], processing := [],
          cache_capacity_ := cache_capacity,
          data_cache_ := if cache_capacity > 0 then some (LRUCache.new cache_capacity) else none,
          process_loops := 0 })

/-- The loop `while (!queue.empty()) queue.pop();` of `reset`. -/
def drain : List Item → List Item
  | [] => []
  | _ :: rest => drain rest

/-- The body of `reset()` up to and including `done_loading_ = false`: `stop()`, both
queues drained under their locks, `current_index_ = 0`, flag cleared. -/
def resetFlags (d : DataLoader Item) : DataLoader Item :=
  let d1 := stop d
  let d2 := { d1 with loaded_queue_ := drain d1.loaded_queue_,
                      processed_queue_ := drain d1.processed_queue_ }
  { d2 with current_index_ := 0, done_loading_ := false }

/-- The member `reset()`, run to its end while no other thread takes a step.  The stages
between which other threads can run (`stop()`, the drain under both locks, the clearing of
the flag outside the locks, `startLoading()`) are steps of `Pipeline`. -/
def reset (d : DataLoader Item) : DataLoader Item :=
  startLoading (resetFlags d)

/-- How a `loadData(path)` call leaves its first part (lines 339-385): by an exception, or
by reaching the push block holding `data`, having invoked the loader on `calls`. -/
inductive LoadOutcome where
  | threw (what : String) (d : DataLoader DataItem)
  | reached (data : DataItem) (calls : List String) (d : DataLoader DataItem)
deriving DecidableEq, Repr

/-- The first part of `loadData(path)`: the loader check, the cache lookup, the loader call
and the insertion of a copy into the cache.  `loader_fn_` is `none` while no loader is
set.  `none` is undefined behaviour.  On a hit `data_cache_->get(path)` is taken to hand
back the stored item and to leave the entry as `LRUCache.get` does for a copyable value;
for the `std::unique_ptr` values of this cache the statement `return it->second->second;`
of `get` copies a `std::unique_ptr`, which is ill-formed, so the source itself fixes no
behaviour for a hit. -/
def loadData (loader_fn_ : Option (String → Except String DataItem)) (path : String)
    (d : DataLoader DataItem) : Option LoadOutcome :=
  match loader_fn_ with
  | none => some (.threw "Loader function not set" d)
  | some loader =>
    match d.data_cache_ with
    | some cache =>
      match cache.get path with
      | none => none
      | some (some cached_data, cache1) =>
        some (.reached (DataItem.copyAsBase cached_data) [] { d with data_cache_ := some cache1 })
      | some (none, cache1) =>
        match loader path with
        | .error what => some (.threw what { d with data_cache_ := some cache1 })
        | .ok data =>
          match DataItem.cacheCopy data with
          | none => none
          | some copy =>
            match cache1.putMove path copy with
            | none => none
            | some cache2 => some (.reached data [path] { d with data_cache_ := some cache2 })
    | none =>
      match loader path with
      | .error what => some (.threw what d)
      | .ok data => some (.reached data [path] d)

/-- A free loader thread takes the next load task and runs the first part of `loadData`: an
exception ends the task (it is stored in the task's future), otherwise the call waits at
its push block. -/
def loadTask (loader_fn_ : Option (String → Except String DataItem))
    (d : DataLoader DataItem) : Option (DataLoader DataItem) :=
  match d.load_tasks with
  | [] => none
  | path :: rest =>
    if d.loading.length < d.loader_threads then
      match loadData loader_fn_ path { d with load_tasks := rest } with
      | none => none
      | some (.threw _ d1) => some d1
      | some (.reached data _ d1) => some { d1 with loading := d1.loading ++ [data] }
    else none

/-- The pop block of `processData` for a running loop that holds no item, followed by the
call of `processor_fn_` if one is set.  An exception thrown by the processor leaves
`processData`: the popped item is lost and that loop has ended. -/
def processStep {E : Type} (processor_fn_ : Option (Item → Except E Item))
    (d : DataLoader Item) : Option (DataLoader Item) :=
  match d.loaded_queue_ with
  | [] => none
  | data :: rest =>
    if d.processing.length < min d.process_loops d.processor_threads then
      match processor_fn_ with
      | none => some { d with loaded_queue_ := rest, processing := d.processing ++ [data] }
      | some processor =>
        match processor data with
        | .ok out => some { d with loaded_queue_ := rest, processing := d.processing ++ [out] }
        | .error _ => some { d with loaded_queue_ := rest, process_loops := d.process_loops - 1 }
    else none

/-- One step of one thread of the engine; each carries the loader or processor set at
that moment.  The steps are coarse: a push block is one step and so is a whole `reset()`
call; `Pipeline.Step` has the finer steps. -/
inductive Action where
  | loadTask (loader_fn_ : Option (String → Except String DataItem))
  | loadPush (i : Nat)
  | processStep (processor_fn_ : Option (DataItem → Except String DataItem))
  | processPush (i : Nat)
  | getNextItem
  | stop
  | reset

/-- The state after an action; an action that cannot happen in `d` leaves `d` as it is. -/
def act (d : DataLoader DataItem) : Action → DataLoader DataItem
  | .loadTask loader_fn_ => (loadTask loader_fn_ d).getD d
  | .loadPush i => (loadPush d i).getD d
  | .processStep processor_fn_ => (processStep processor_fn_ d).getD d
  | .processPush i => (processPush d i).getD d
  | .getNextItem =>
    match getNextItem d with
    | .blocked => d
    | .returned _ d1 => d1
  | .stop => stop d
  | .reset => reset d

/-- No preprocess loop is left and none holds an item, and the processed queue is empty. -/
def Stalled (d : DataLoader Item) : Prop :=
  d.process_loops = 0 ∧ d.processing = [] ∧ d.processed_queue_ = []

/-- The state after a sequence of actions, in any interleaving of the threads. -/
def runActions (d : DataLoader DataItem) (acts : List Action) : DataLoader DataItem :=
  acts.foldl act d

end DataLoader

/-! ## The pipeline at the grain of the source

A push block reads `done_loading_` twice under its queue lock, once in the predicate of the
wait and once in `if (!done_loading_)`, and `stop()` and `reset()` write the flag without
taking a lock.  `reset()` itself runs in four stages.  Here each of these pieces is a step
of its own, and a step that needs a queue lock is enabled only while no other thread holds
it. -/

namespace DataLoader

variable {Item : Type}

/-- The wait of the push block of `loadData` for the `i`-th call waiting there: the
predicate `loaded_queue_.size() < buffer_size_ || done_loading_` is evaluated under
`loaded_mutex_`; when it holds the call goes on with its item, keeping the lock. -/
def loadWait (d : DataLoader Item) (i : Nat) : Option (Item × DataLoader Item) :=
  match d.loading.get? i with
  | none => none
  | some data =>
    if decide (d.loaded_queue_.length < d.buffer_size_) || d.done_loading_ then
      some (data, { d with loading := d.loading.eraseIdx i })
    else none

/-- The rest of the push block of `loadData`, still under `loaded_mutex_`: `done_loading_`
is read again and the item is pushed unless the flag is set. -/
def loadStore (d : DataLoader Item) (data : Item) : DataLoader Item :=
  if !d.done_loading_ then { d with loaded_queue_ := d.loaded_queue_ ++ [data] } else d

/-- The wait of the push block of `processData` for the `i`-th iteration waiting there,
under `processed_mutex_`. -/
def processWait (d : DataLoader Item) (i : Nat) : Option (Item × DataLoader Item) :=
  match d.processing.get? i with
  | none => none
  | some data =>
    if decide (d.processed_queue_.length < d.buffer_size_) || d.done_loading_ then
      some (data, { d with processing := d.processing.eraseIdx i })
    else none

/-- The rest of the push block of `processData`, still under `processed_mutex_`. -/
def processStore (d : DataLoader Item) (data : Item) : DataLoader Item :=
  if !d.done_loading_ then { d with processed_queue_ := d.processed_queue_ ++ [data] } else d

end DataLoader

/-- The engine together with the threads that are in the middle of a block:
`loaded_holder` is the item of the `loadData` call that has passed the wait of its push
block and holds `loaded_mutex_`, `processed_holder` that of the `processData` iteration
past the wait of its push block, holding `processed_mutex_`; `reset_stopped`,
`reset_drained` and `reset_cleared` count the `reset()` calls that have returned from
`stop()`, that have drained the queues, and that have cleared the flag, and have not gone
further. -/
structure Pipeline where
  engine : DataLoader DataItem
  loaded_holder : Option DataItem
  processed_holder : Option DataItem
  reset_stopped : Nat
  reset_drained : Nat
  reset_cleared : Nat
deriving DecidableEq, Repr

namespace Pipeline

/-- The pipeline of an engine in which no thread is inside a push block or `reset()`. -/
def start (d : DataLoader DataItem) : Pipeline :=
  { engine := d, loaded_holder := none, processed_holder := none,
    reset_stopped := 0, reset_drained := 0, reset_cleared := 0 }

/-- One step of one thread. -/
inductive Step where
  | loadTask (loader_fn_ : Option (String → Except String DataItem))
  | loadWait (i : Nat)
  | loadStore
  | processStep (processor_fn_ : Option (DataItem → Except String DataItem))
  | processWait (i : Nat)
  | processStore
  | getNextItem
  | stop
  | resetStop
  | resetDrain
  | resetClear
  | resetStart

/-- The state after a step, `none` when the step is not enabled: a thread that needs a
queue lock waits while another thread holds it, a wait whose predicate is false sleeps, a
loader or preprocess thread that still holds an item is not free, and a stage of `reset()`
needs a call that has completed the stage before. -/
def step (e : Pipeline) : Step → Option Pipeline
  | .loadTask loader_fn_ =>
    if e.engine.loading.length + e.loaded_holder.toList.length < e.engine.loader_threads then
      (DataLoader.loadTask loader_fn_ e.engine).map (fun d => { e with engine := d })
    else none
  | .loadWait i =>
    match e.loaded_holder with
    | some _ => none
    | none =>
      match DataLoader.loadWait e.engine i with
      | none => none
      | some (data, d) => some { e with engine := d, loaded_holder := some data }
  | .loadStore =>
    match e.loaded_holder with
    | none => none
    | some data =>
      some { e with engine := DataLoader.loadStore e.engine data, loaded_holder := none }
  | .processStep processor_fn_ =>
    match e.loaded_holder with
    | some _ => none
    | none =>
      if e.engine.processing.length + e.processed_holder.toList.length
          < min e.engine.process_loops e.engine.processor_threads then
        (DataLoader.processStep processor_fn_ e.engine).map (fun d => { e with engine := d })
      else none
  | .processWait i =>
    match e.processed_holder with
    | some _ => none
    | none =>
      match DataLoader.processWait e.engine i with
      | none => none
      | some (data, d) => some { e with engine := d, processed_holder := some data }
  | .processStore =>
    match e.processed_holder with
    | none => none
    | some data =>
      some { e with engine := DataLoader.processStore e.engine data, processed_holder := none }
  | .getNextItem =>
    match e.processed_holder with
    | some _ => none
    | none =>
      match DataLoader.getNextItem e.engine with
      | .blocked => none
      | .returned _ d => some { e with engine := d }
  | .stop => some { e with engine := DataLoader.stop e.engine }
  | .resetStop =>
    some { e with engine := DataLoader.stop e.engine, reset_stopped := e.reset_stopped + 1 }
  | .resetDrain =>
    match e.loaded_holder, e.processed_holder with
    | none, none =>
      if 0 < e.reset_stopped then
        some { e with
          engine := { e.engine with
            loaded_queue_ := DataLoader.drain e.engine.loaded_queue_,
            processed_queue_ := DataLoader.drain e.engine.processed_queue_ },
          reset_stopped := e.reset_stopped - 1, reset_drained := e.reset_drained + 1 }
      else none
    | _, _ => none
  | .resetClear =>
    if 0 < e.reset_drained then
      some { e with
        engine := { e.engine with current_index_ := 0, done_loading_ := false },
        reset_drained := e.reset_drained - 1, reset_cleared := e.reset_cleared + 1 }
    else none
  | .resetStart =>
    if 0 < e.reset_cleared then
      some { e with engine := DataLoader.startLoading e.engine,
                    reset_cleared := e.reset_cleared - 1 }
    else none

/-- The state after a sequence of steps, `none` if one of them is not enabled when its
turn comes. -/
def runSteps (e : Pipeline) : List Step → Option Pipeline
  | [] => some e
  | s :: rest =>
    match e.step s with
    | none => none
    | some e1 => runSteps e1 rest

/-- The facts that keep both queues within a buffer size of at least 1 as long as at most
one `reset()` call is between its `stop()` and its clearing of the flag: a thread past the
wait of a push block has found room or the flag set, the flag stays set while such a
`reset()` call is under way, and the queues stay empty between its drain and its clearing
of the flag. -/
structure Safe (e : Pipeline) : Prop where
  buffer : 1 ≤ e.engine.buffer_size_
  loaded : e.engine.loaded_queue_.length ≤ e.engine.buffer_size_
  processed : e.engine.processed_queue_.length ≤ e.engine.buffer_size_
  loaded_room : e.loaded_holder.isSome = true →
    e.engine.loaded_queue_.length < e.engine.buffer_size_ ∨ e.engine.done_loading_ = true
  processed_room : e.processed_holder.isSome = true →
    e.engine.processed_queue_.length < e.engine.buffer_size_ ∨ e.engine.done_loading_ = true
  flag : 0 < e.reset_stopped + e.reset_drained → e.engine.done_loading_ = true
  drained : 0 < e.reset_drained →
    e.engine.loaded_queue_ = [] ∧ e.engine.processed_queue_ = []
  one : e.reset_stopped + e.reset_drained ≤ 1

end Pipeline

/-! ## The worker pool (`thread_pool.h`) -/

namespace ThreadPool

variable {Task : Type}

/-- The member `enqueue`: under `queue_mutex_` it throws
`std::runtime_error("Cannot enqueue task into stopped ThreadPool")` if `stop_` is set and
otherwise emplaces the task at the back of `tasks_`.  The result is the exception or the
normal return (the future is not modelled) and the pool afterwards. -/
def enqueue (p : ThreadPool Task) (task : Task) : Except String Unit × ThreadPool Task :=
  if p.stop_ then (.error "Cannot enqueue task into stopped ThreadPool", p)
  else (.ok (), { p with tasks_ := p.tasks_ ++ [task] })

end ThreadPool

namespace ThreadPool

variable {Task : Type}

/-- What a worker does in one iteration of its loop `while (true) { ... }`. -/
inductive WorkerStep (Task : Type) where
  | sleeps
  | exits
  | undefined
  | runs (task : Task) (p : ThreadPool Task)
deriving DecidableEq, Repr

/-- One iteration of the worker loop: the wait on `stop_ || !tasks_.empty()` (`sleeps` when
the predicate is false), the test `stop_ && tasks_.empty()` that makes the thread return,
and otherwise `tasks_.front()` / `tasks_.pop()` followed by the call of the task
(`undefined` if the queue were empty there). -/
def workerStep (p : ThreadPool Task) : WorkerStep Task :=
  if p.stop_ || !p.tasks_.isEmpty then
    if p.stop_ && p.tasks_.isEmpty then .exits
    else
      match p.tasks_ with
      | [] => .undefined
      | task :: rest => .runs task { p with tasks_ := rest }
  else .sleeps

/-- How a run of the worker loop ends. -/
inductive WorkerEnd where
  | exited
  | sleeping
  | undefined
  | running
deriving DecidableEq, Repr

/-- The worker loop of a single worker, for at most `fuel` iterations, with no other thread
touching the pool: how it ends (`running` if the iterations are used up), the tasks it has
run in the order it ran them (after `ran`), and the pool afterwards.  A task is taken as
an opaque call that does not touch this pool. -/
def workerLoop : Nat → ThreadPool Task → List Task → WorkerEnd × List Task × ThreadPool Task
  | 0, p, ran => (.running, ran, p)
  | fuel + 1, p, ran =>
    match workerStep p with
    | .sleeps => (.sleeping, ran, p)
    | .exits => (.exited, ran, p)
    | .undefined => (.undefined, ran, p)
    | .runs task p1 => workerLoop fuel p1 (ran ++ [task])

/-- The first block of the destructor: `stop_ = true` under the lock (then all workers are
notified and joined). -/
def shutdown (p : ThreadPool Task) : ThreadPool Task :=
  { p with stop_ := true }

end ThreadPool

/-! ## Storage selection (`storage.cpp`)

A `std::string` is the list of its characters; `npos` and a thrown `std::out_of_range` or
`std::invalid_argument` are `none`. -/

/-- The storage objects the factory creates, with the members their constructors set. -/
inductive Storage where
  | localStorage
  | s3 (bucket_ access_key_ secret_key_ region_ : List Char) (connected_ : Bool)
  | hdfs (namenode_ : List Char) (port_ : Int) (connected_ : Bool)
deriving DecidableEq, Repr

namespace StorageFactory

/-- The call `s.substr(pos, len)`: it throws `std::out_of_range` when `pos > s.size()`. -/
def substr (s : List Char) (pos len : Nat) : Option (List Char) :=
  if pos ≤ s.length then some ((s.drop pos).take len) else none

/-- The call `s.substr(pos)`. -/
def substrFrom (s : List Char) (pos : Nat) : Option (List Char) :=
  if pos ≤ s.length then some (s.drop pos) else none

/-- The index of the first `c` in `s`, where the head of `s` has index `i`. -/
def findIdx (c : Char) : List Char → Nat → Option Nat
  | [], _ => none
  | x :: xs, i => if x = c then some i else findIdx c xs (i + 1)

/-- The call `s.find(c, start)`; `none` is `npos`. -/
def find (s : List Char) (c : Char) (start : Nat) : Option Nat :=
  findIdx c (s.drop start) start

/-- The characters `std::isspace` accepts in the "C" locale. -/
def isSpace (c : Char) : Bool :=
  c = ' ' || c = '\t' || c = '\n' || c = '\x0b' || c = '\x0c' || c = '\r'

/-- The value of the longest run of decimal digits at the head of `s`, continuing from
`acc`. -/
def scanDigits (acc : Nat) : List Char → Nat
  | [] => acc
  | c :: cs => if c.isDigit then scanDigits (acc * 10 + (c.toNat - 48)) cs else acc

/-- The call `std::stoi(s)`: leading white space is skipped, an optional sign is read, then
the longest run of decimal digits; `none` stands for `std::invalid_argument` (no digit)
and `std::out_of_range` (value outside `int`). -/
def stoi (s : List Char) : Option Int :=
  match s.dropWhile isSpace with
  | [] => none
  | c :: t =>
    let digits := if c = '-' ∨ c = '+' then t else c :: t
    match digits with
    | [] => none
    | d :: ds =>
      if d.isDigit then
        let v : Int := if c = '-' then -(scanDigits 0 (d :: ds) : Int) else scanDigits 0 (d :: ds)
        if -2147483648 ≤ v ∧ v ≤ 2147483647 then some v else none
      else none

/-- The text "s3://". -/
def s3Scheme : List Char := ['s', '3', ':', '/', '/']

/-- The text "hdfs://". -/
def hdfsScheme : List Char := ['h', 'd', 'f', 's', ':', '/', '/']

/-- The factory call `createLocalStorage()`. -/
def createLocalStorage : Storage := .localStorage

/-- The factory call `createS3Storage(bucket)` with its default arguments: empty keys,
region "us-east-1"; the constructor sets `connected_` to false. -/
def createS3Storage (bucket : List Char) : Storage :=
  .s3 bucket [] [] ['u', 's', '-', 'e', 'a', 's', 't', '-', '1'] false

/-- The factory call `createHDFSStorage(namenode, port)`; the constructor sets `connected_`
to false. -/
def createHDFSStorage (namenode : List Char) (port : Int) : Storage :=
  .hdfs namenode port false

/-- The factory function `createStorageForPath(path)`.  An exception thrown by a `substr`
outside the `try` block would leave the function: that is `Except.error`. -/
def createStorageForPath (path : List Char) : Except String Storage :=
  match substr path 0 5 with
  | none => .error "out_of_range"
  | some head5 =>
    if head5 = s3Scheme then
      let bucket_start := 5
      let bucket_end :=
        match find path '/' bucket_start with
        | some i => i
        | none => path.length
      match substr path bucket_start (bucket_end - bucket_start) with
      | none => .error "out_of_range"
      | some bucket => .ok (createS3Storage bucket)
    else
      match substr path 0 7 with
      | none => .error "out_of_range"
      | some head7 =>
        if head7 = hdfsScheme then
          let nn_start := 7
          let nn_end :=
            match find path '/' nn_start with
            | some i => i
            | none => path.length
          match substr path nn_start (nn_end - nn_start) with
          | none => .error "out_of_range"
          | some nn_part =>
            match find nn_part ':' 0 with
            | some port_pos =>
              match substr nn_part 0 port_pos with
              | none => .error "out_of_range"
              | some namenode =>
                let port : Int :=
                  match substrFrom nn_part (port_pos + 1) with
                  | none => 9000
                  | some port_str =>
                    match stoi port_str with
                    | some v => v
                    | none => 9000
                .ok (createHDFSStorage namenode port)
            | none => .ok (createHDFSStorage nn_part 9000)
        else .ok createLocalStorage

/-- The member initialiser of the `DataLoader` constructor,
`storage_(createStorageForPath(data_paths.empty() ? "" : data_paths[0]))`. -/
def storageForPaths (data_paths : List String) : Except String Storage :=
  createStorageForPath
    (match data_paths with
     | [] => []
     | first :: _ => first.toList)

end StorageFactory

namespace DataLoader

variable {Item : Type}

/-- The member `setCacheCapacity(capacity)`; `none` if the call of
`LRUCache::set_capacity` has undefined behaviour. -/
def setCacheCapacity (d : DataLoader Item) (capacity : Nat) : Option (DataLoader Item) :=
  let d1 := { d with cache_capacity_ := capacity }
  if capacity > 0 then
    match d1.data_cache_ with
    | none => some { d1 with data_cache_ := some (LRUCache.new capacity) }
    | some cache =>
      match cache.set_capacity capacity with
      | none => none
      | some cache1 => some { d1 with data_cache_ := some cache1 }
  else some { d1 with data_cache_ := none }

/-- The member `getCacheSize()`. -/
def getCacheSize (d : DataLoader Item) : Nat :=
  match d.data_cache_ with
  | none => 0
  | some cache => cache.size

/-- The member `clearCache()`. -/
def clearCache (d : DataLoader Item) : DataLoader Item :=
  match d.data_cache_ with
  | some cache => { d with data_cache_ := some cache.clear }
  | none => d

end DataLoader

/-- A text item cached under the locator "a.txt" in a cache of capacity 2. -/
def cachedText : LRUCache String DataItem :=
  { capacity_ := 2, list_ := [{ addr := 1, key := "a.txt", value := DataItem.text "hello" }],
    cache_ := [("a.txt", 1)] }

/-- An engine with cache enabled whose cache holds `cachedText`, before any load task ran. -/
def engineCached : DataLoader DataItem :=
  { data_paths_ := ["a.txt"], batch_size_ := 1, current_index_ := 0, done_loading_ := false,
    buffer_size_ := 4, loader_threads := 1, processor_threads := 1,
    loaded_queue_ := [], processed_queue_ := [], load_tasks := ["a.txt"], loading := [],
    processing := [], cache_capacity_ := 2, data_cache_ := some cachedText,
    process_loops := 1 }

/-- A loader that returns a text item holding the locator. -/
def textLoader : String → Except String DataItem :=
  fun path => .ok (DataItem.text path)

/-- A processor that fails on the text "bad" and returns every other item unchanged. -/
def pickyProcessor : DataItem → Except String DataItem :=
  fun item => if item = DataItem.text "bad" then .error "bad item" else .ok item

/-- An engine with a single preprocess loop and the loaded queue "bad", "good". -/
def engineBadGood : DataLoader DataItem :=
  { data_paths_ := ["bad", "good"], batch_size_ := 1, current_index_ := 0,
    done_loading_ := false, buffer_size_ := 4, loader_threads := 1, processor_threads := 1,
    loaded_queue_ := [DataItem.text "bad", DataItem.text "good"], processed_queue_ := [],
    load_tasks := [], loading := [], processing := [], cache_capacity_ := 0,
    data_cache_ := none, process_loops := 1 }

/-! # Theorems -/

namespace LRUCache

variable {K V E : Type} [DecidableEq K]

/-! ### Facts about the map primitives -/

theorem mapFind_mem {m : List (K × Nat)} {k : K} {a : Nat} (h : mapFind m k = some a) :
    (k, a) ∈ m := by
  induction m with
  | nil => simp [mapFind] at h
  | cons e rest ih =>
    unfold mapFind at h
    by_cases hk : e.1 = k
    · simp only [hk, if_true, Option.some.injEq] at h
      subst hk; subst h
      exact List.mem_cons_self _ _
    · simp only [hk, if_false] at h
      exact List.mem_cons_of_mem _ (ih h)

theorem mapFind_eq_none_iff {m : List (K × Nat)} {k : K} :
    mapFind m k = none ↔ ∀ a, (k, a) ∉ m := by
  induction m with
  | nil => simp [mapFind]
  | cons e rest ih =>
    unfold mapFind
    by_cases hk : e.1 = k
    · simp only [hk, if_true]
      constructor
      · intro h; cases h
      · intro h
        exact absurd (List.mem_cons_self _ _) (by
          have := h e.2
          rwa [← hk] at this)
    · simp only [hk, if_false, ih, List.mem_cons, not_or]
      constructor
      · intro h a
        refine ⟨?_, h a⟩
        intro he
        exact hk (by rw [← he])
      · intro h a
        exact (h a).2

theorem mapFind_of_mem {m : List (K × Nat)} {k : K} {a : Nat}
    (hnd : (m.map Prod.fst).Nodup) (h : (k, a) ∈ m) : mapFind m k = some a := by
  induction m with
  | nil => cases h
  | cons e rest ih =>
    unfold mapFind
    rw [List.map_cons, List.nodup_cons] at hnd
    rcases List.mem_cons.mp h with he | hr
    · subst he; simp
    · have hne : e.1 ≠ k := by
        intro hek
        apply hnd.1
        rw [hek]
        exact List.mem_map.mpr ⟨(k, a), hr, rfl⟩
      simp only [hne, if_false]
      exact ih hnd.2 hr

theorem mem_mapErase {m : List (K × Nat)} {k : K} {e : K × Nat} :
    e ∈ mapErase m k ↔ e ∈ m ∧ e.1 ≠ k := by
  simp [mapErase]

theorem mapErase_nodup {m : List (K × Nat)} (k : K) (hnd : (m.map Prod.fst).Nodup) :
    ((mapErase m k).map Prod.fst).Nodup := by
  unfold mapErase
  exact (List.Nodup.sublist ((List.filter_sublist m).map Prod.fst) hnd)

theorem mapErase_of_not_mem {m : List (K × Nat)} {k : K} (h : ∀ a, (k, a) ∉ m) :
    mapErase m k = m := by
  unfold mapErase
  rw [List.filter_eq_self]
  intro e he
  simp only [ne_eq, decide_eq_true_eq]
  intro hk
  apply h e.2
  rw [← hk]
  exact he

/-! ### Facts about the list primitives -/

theorem deref_of_mem {l : List (Node K V)} {n : Node K V}
    (hnd : (l.map (fun n => n.addr)).Nodup) (h : n ∈ l) : deref l n.addr = some n := by
  induction l with
  | nil => cases h
  | cons x rest ih =>
    rw [List.map_cons, List.nodup_cons] at hnd
    unfold deref
    rw [List.find?_cons]
    rcases List.mem_cons.mp h with hx | hr
    · subst hx; simp
    · have hne : x.addr ≠ n.addr := by
        intro hxa
        apply hnd.1
        rw [hxa]
        exact List.mem_map.mpr ⟨n, hr, rfl⟩
      simp only [hne, decide_False]
      exact ih hnd.2 hr

theorem deref_some {l : List (Node K V)} {it : Nat} {n : Node K V} (h : deref l it = some n) :
    n ∈ l ∧ n.addr = it := by
  unfold deref at h
  refine ⟨List.mem_of_find?_eq_some h, ?_⟩
  simpa using List.find?_some h

theorem assignValue_unlink (l : List (Node K V)) (it : Nat) (v : V) :
    assignValue (unlink l it) it v = unlink l it := by
  unfold assignValue
  conv_rhs => rw [← List.map_id (unlink l it)]
  apply List.map_congr_left
  intro m hm
  have hne : m.addr ≠ it := by
    have := (List.mem_filter.mp hm).2
    simpa using this
  simp [hne]

theorem addr_lt_freshAddr {l : List (Node K V)} {n : Node K V} (h : n ∈ l) :
    n.addr < freshAddr l := by
  unfold freshAddr
  induction l with
  | nil => cases h
  | cons x rest ih =>
    simp only [List.map_cons, List.foldr_cons]
    rcases List.mem_cons.mp h with hx | hr
    · subst hx
      exact Nat.lt_succ_of_le (Nat.le_max_left _ _)
    · have := ih hr
      exact Nat.lt_succ_of_le (Nat.le_trans (Nat.le_of_lt_succ this) (Nat.le_max_right _ _))

/-! ### Consequences of the invariant -/

theorem WF.key_inj {s : LRUCache K V} (h : WF s) {n m : Node K V}
    (hn : n ∈ s.list_) (hm : m ∈ s.list_) (e : n.key = m.key) : n = m :=
  List.inj_on_of_nodup_map h.key_nodup hn hm e

theorem WF.addr_inj {s : LRUCache K V} (h : WF s) {n m : Node K V}
    (hn : n ∈ s.list_) (hm : m ∈ s.list_) (e : n.addr = m.addr) : n = m :=
  List.inj_on_of_nodup_map h.addr_nodup hn hm e

theorem WF.find_of_mem {s : LRUCache K V} (h : WF s) {n : Node K V} (hn : n ∈ s.list_) :
    mapFind s.cache_ n.key = some n.addr :=
  mapFind_of_mem h.map_nodup ((h.agree _ _).mpr ⟨n, hn, rfl, rfl⟩)

theorem WF.find_none {s : LRUCache K V} (h : WF s) {k : K} (hk : k ∉ keys s) :
    mapFind s.cache_ k = none := by
  rw [mapFind_eq_none_iff]
  intro a ha
  obtain ⟨n, hn, hk', _⟩ := (h.agree _ _).mp ha
  exact hk (List.mem_map.mpr ⟨n, hn, hk'⟩)

theorem WF.not_mem_map {s : LRUCache K V} (h : WF s) {k : K} (hk : k ∉ keys s) :
    ∀ a, (k, a) ∉ s.cache_ :=
  mapFind_eq_none_iff.mp (h.find_none hk)

theorem WF.unlink_eq {s : LRUCache K V} (h : WF s) {n : Node K V} (hn : n ∈ s.list_) :
    unlink s.list_ n.addr = s.list_.filter (fun m => decide (m.key ≠ n.key)) := by
  unfold unlink
  apply List.filter_congr
  intro m hm
  by_cases hk : m.key = n.key
  · have := h.key_inj hm hn hk
    subst this
    simp
  · have : m.addr ≠ n.addr := fun ha => hk (by rw [h.addr_inj hm hn ha])
    simp [hk, this]

theorem WF.length_eq {s : LRUCache K V} (h : WF s) : s.cache_.length = s.list_.length := by
  have h1 : s.cache_.Nodup := List.Nodup.of_map _ h.map_nodup
  have h2 : (s.list_.map (fun n => (n.key, n.addr))).Nodup := by
    apply List.Nodup.of_map Prod.fst
    rw [List.map_map]
    exact h.key_nodup
  have hp : s.cache_.Perm (s.list_.map (fun n => (n.key, n.addr))) := by
    rw [List.perm_ext_iff_of_nodup h1 h2]
    rintro ⟨k, a⟩
    rw [h.agree, List.mem_map]
    constructor
    · rintro ⟨n, hn, hk, ha⟩
      exact ⟨n, hn, by rw [hk, ha]⟩
    · rintro ⟨n, hn, he⟩
      cases he
      exact ⟨n, hn, rfl, rfl⟩
  rw [hp.length_eq, List.length_map]

theorem WF.size_eq {s : LRUCache K V} (h : WF s) : size s = (entries s).length := by
  unfold size entries
  rw [h.length_eq, List.length_map]

/-- The empty cache satisfies the invariant. -/
theorem WF.new (c : Nat) : WF (LRUCache.new c : LRUCache K V) :=
  ⟨List.nodup_nil, List.nodup_nil, List.nodup_nil, by intro k a; simp [LRUCache.new]⟩

/-- Moving a node to the head (and possibly changing its value) keeps the invariant. -/
theorem WF.promote {s : LRUCache K V} (h : WF s) {n n' : Node K V} (hn : n ∈ s.list_)
    (hk : n'.key = n.key) (ha : n'.addr = n.addr) :
    WF { s with list_ := n' :: s.list_.filter (fun m => decide (m.key ≠ n.key)) } := by
  have hsub : (s.list_.filter (fun m => decide (m.key ≠ n.key))).Sublist s.list_ :=
    List.filter_sublist _
  refine ⟨?_, ?_, h.map_nodup, ?_⟩
  · simp only [List.map_cons, List.nodup_cons]
    refine ⟨?_, h.addr_nodup.sublist (hsub.map _)⟩
    intro hmem
    obtain ⟨m, hm, hma⟩ := List.mem_map.mp hmem
    have hm' := List.mem_filter.mp hm
    have : m = n := h.addr_inj hm'.1 hn (by rw [hma, ha])
    subst this
    simpa using hm'.2
  · simp only [List.map_cons, List.nodup_cons]
    refine ⟨?_, h.key_nodup.sublist (hsub.map _)⟩
    intro hmem
    obtain ⟨m, hm, hmk⟩ := List.mem_map.mp hmem
    have hm' := List.mem_filter.mp hm
    have : m.key = n.key := by rw [hmk, hk]
    simp [this] at hm'
  · intro k a
    rw [h.agree]
    constructor
    · rintro ⟨m, hm, hmk, hma⟩
      by_cases hkn : m.key = n.key
      · have : m = n := h.key_inj hm hn hkn
        subst this
        exact ⟨n', List.mem_cons_self _ _, by rw [hk, hmk], by rw [ha, hma]⟩
      · exact ⟨m, List.mem_cons_of_mem _ (List.mem_filter.mpr ⟨hm, by simpa using hkn⟩), hmk, hma⟩
    · rintro ⟨m, hm, hmk, hma⟩
      rcases List.mem_cons.mp hm with he | hf
      · subst he
        exact ⟨n, hn, by rw [← hk, hmk], by rw [← ha, hma]⟩
      · exact ⟨m, (List.mem_filter.mp hf).1, hmk, hma⟩

/-- Popping the tail node and erasing its key from the map keeps the invariant. -/
theorem WF.popBack {s : LRUCache K V} (h : WF s) {init : List (Node K V)} {last : Node K V}
    (hl : s.list_ = init ++ [last]) :
    WF { s with cache_ := mapErase s.cache_ last.key, list_ := init } := by
  have hlast : last ∈ s.list_ := by rw [hl]; simp
  have hinit : ∀ m, m ∈ init → m ∈ s.list_ := by
    intro m hm; rw [hl]; exact List.mem_append_left _ hm
  have hkn := h.key_nodup
  have han := h.addr_nodup
  rw [hl, List.map_append] at hkn han
  refine ⟨(List.nodup_append.mp han).1, (List.nodup_append.mp hkn).1, mapErase_nodup _ h.map_nodup, ?_⟩
  intro k a
  simp only [mem_mapErase, h.agree]
  constructor
  · rintro ⟨⟨m, hm, hmk, hma⟩, hne⟩
    rw [hl] at hm
    rcases List.mem_append.mp hm with hi | hs
    · exact ⟨m, hi, hmk, hma⟩
    · simp only [List.mem_singleton] at hs
      subst hs
      exact absurd hmk.symm hne
  · rintro ⟨m, hm, hmk, hma⟩
    refine ⟨⟨m, hinit m hm, hmk, hma⟩, ?_⟩
    intro hkl
    have hdisj := (List.nodup_append.mp hkn).2.2
    apply hdisj (List.mem_map.mpr ⟨m, hm, rfl⟩) (a := m.key)
    simp only [List.map_cons, List.map_nil, List.mem_singleton]
    show m.key = last.key
    rw [hmk]; exact hkl

/-- Unlinking a node and erasing its key from the map keeps the invariant. -/
theorem WF.erase {s : LRUCache K V} (h : WF s) (n : Node K V) :
    WF { s with cache_ := mapErase s.cache_ n.key,
                list_ := s.list_.filter (fun m => decide (m.key ≠ n.key)) } := by
  have hsub : (s.list_.filter (fun m => decide (m.key ≠ n.key))).Sublist s.list_ :=
    List.filter_sublist _
  refine ⟨h.addr_nodup.sublist (hsub.map _), h.key_nodup.sublist (hsub.map _),
    mapErase_nodup _ h.map_nodup, ?_⟩
  intro k a
  simp only [mem_mapErase, h.agree, List.mem_filter]
  constructor
  · rintro ⟨⟨m, hm, hmk, hma⟩, hne⟩
    exact ⟨m, ⟨hm, by simpa [hmk] using hne⟩, hmk, hma⟩
  · rintro ⟨m, ⟨hm, hf⟩, hmk, hma⟩
    refine ⟨⟨m, hm, hmk, hma⟩, ?_⟩
    rw [← hmk]
    simpa using hf

/-- For an absent key, `insertFront` conses a fresh node and a fresh map entry. -/
theorem WF.insertFront_eq {s : LRUCache K V} (h : WF s) {k : K} (hk : k ∉ keys s) (v : V) :
    insertFront s k v =
      { s with list_ := { addr := freshAddr s.list_, key := k, value := v } :: s.list_,
               cache_ := (k, freshAddr s.list_) :: s.cache_ } := by
  unfold insertFront mapAssign
  rw [mapErase_of_not_mem (h.not_mem_map hk)]

/-- Inserting an absent key at the head keeps the invariant. -/
theorem WF.insertFront {s : LRUCache K V} (h : WF s) {k : K} (hk : k ∉ keys s) (v : V) :
    WF (insertFront s k v) := by
  rw [h.insertFront_eq hk]
  refine ⟨?_, ?_, ?_, ?_⟩
  · simp only [List.map_cons, List.nodup_cons]
    refine ⟨?_, h.addr_nodup⟩
    intro hmem
    obtain ⟨m, hm, hma⟩ := List.mem_map.mp hmem
    have := addr_lt_freshAddr hm
    rw [hma] at this
    exact Nat.lt_irrefl _ this
  · simp only [List.map_cons, List.nodup_cons]
    exact ⟨hk, h.key_nodup⟩
  · simp only [List.map_cons, List.nodup_cons]
    refine ⟨?_, h.map_nodup⟩
    intro hmem
    obtain ⟨e, he, hek⟩ := List.mem_map.mp hmem
    apply h.not_mem_map hk e.2
    rw [← hek]
    exact he
  · intro k' a
    simp only [List.mem_cons, Prod.mk.injEq, h.agree]
    constructor
    · rintro (⟨rfl, rfl⟩ | ⟨m, hm, hmk, hma⟩)
      · exact ⟨_, Or.inl rfl, rfl, rfl⟩
      · exact ⟨m, Or.inr hm, hmk, hma⟩
    · rintro ⟨m, (rfl | hm), hmk, hma⟩
      · exact Or.inl ⟨hmk.symm, hma.symm⟩
      · exact Or.inr ⟨m, hm, hmk, hma⟩

/-! ### What each member function does on a state satisfying the invariant -/

theorem mem_of_mem_keys {s : LRUCache K V} {k : K} (hk : k ∈ keys s) :
    ∃ n ∈ s.list_, n.key = k := by
  obtain ⟨n, hn, hnk⟩ := List.mem_map.mp hk
  exact ⟨n, hn, hnk⟩

theorem WF.spliceFront_eq {s : LRUCache K V} (h : WF s) {n : Node K V} (hn : n ∈ s.list_) :
    spliceFront s.list_ n.addr = some (n :: s.list_.filter (fun m => decide (m.key ≠ n.key))) := by
  unfold spliceFront
  rw [deref_of_mem h.addr_nodup hn, h.unlink_eq hn]

theorem deref_head (n : Node K V) (l : List (Node K V)) : deref (n :: l) n.addr = some n := by
  simp [deref]

theorem WF.get_hit {s : LRUCache K V} (h : WF s) {n : Node K V} (hn : n ∈ s.list_) :
    get s n.key = some (some n.value,
      { s with list_ := n :: s.list_.filter (fun m => decide (m.key ≠ n.key)) }) := by
  unfold get
  rw [h.find_of_mem hn]
  simp only [h.spliceFront_eq hn, deref_head]

theorem WF.get_miss {s : LRUCache K V} (h : WF s) {k : K} (hk : k ∉ keys s) :
    get s k = some (none, s) := by
  unfold get
  rw [h.find_none hk]

theorem WF.put_hit {s : LRUCache K V} (h : WF s) {n : Node K V} (hn : n ∈ s.list_) (v : V) :
    put s n.key v = some
      { s with list_ := { n with value := v } ::
                 s.list_.filter (fun m => decide (m.key ≠ n.key)) } := by
  unfold put
  rw [h.find_of_mem hn]
  simp only [h.spliceFront_eq hn]
  have : assignValue (n :: s.list_.filter (fun m => decide (m.key ≠ n.key))) n.addr v
      = { n with value := v } :: s.list_.filter (fun m => decide (m.key ≠ n.key)) := by
    rw [← h.unlink_eq hn]
    show assignValue (n :: unlink s.list_ n.addr) n.addr v = _
    have h2 := assignValue_unlink s.list_ n.addr v
    unfold assignValue at h2 ⊢
    rw [List.map_cons, h2]
    simp
  rw [this]

theorem WF.put_miss {s : LRUCache K V} (h : WF s) {k : K} (hk : k ∉ keys s) (v : V) :
    put s k v = (evictIfFull s).map (fun s1 => LRUCache.insertFront s1 k v) := by
  unfold put
  rw [h.find_none hk]
  cases evictIfFull s <;> rfl

theorem WF.evictIfFull_room {s : LRUCache K V} (hlt : size s < capacity s) :
    evictIfFull s = some s := by
  unfold evictIfFull
  unfold size capacity at hlt
  rw [if_neg (by omega)]

theorem WF.evictIfFull_full {s : LRUCache K V} {init : List (Node K V)} {last : Node K V}
    (hge : capacity s ≤ size s) (hl : s.list_ = init ++ [last]) :
    evictIfFull s = some { s with cache_ := mapErase s.cache_ last.key, list_ := init } := by
  unfold evictIfFull
  unfold size capacity at hge
  rw [if_pos hge, hl, List.getLast?_concat, List.dropLast_concat]

theorem WF.remove_hit {s : LRUCache K V} (h : WF s) {n : Node K V} (hn : n ∈ s.list_) :
    remove s n.key = some (true,
      { s with cache_ := mapErase s.cache_ n.key,
               list_ := s.list_.filter (fun m => decide (m.key ≠ n.key)) }) := by
  unfold remove
  rw [h.find_of_mem hn]
  simp only [deref_of_mem h.addr_nodup hn, h.unlink_eq hn]

theorem WF.remove_miss {s : LRUCache K V} (h : WF s) {k : K} (hk : k ∉ keys s) :
    remove s k = some (false, s) := by
  unfold remove
  rw [h.find_none hk]

/-- The eviction loop of `set_capacity` terminates without undefined behaviour and keeps
exactly the `capacity_` most recently used nodes. -/
theorem WF.evictLoop_eq : ∀ (fuel : Nat) {s : LRUCache K V}, WF s → s.list_.length < fuel →
    ∃ s', evictLoop fuel s = some s' ∧ WF s' ∧ s'.capacity_ = s.capacity_ ∧
      s'.list_ = s.list_.take s.capacity_ ∧ (s.list_.length ≤ s.capacity_ → s' = s)
  | 0, _, _, hf => absurd hf (Nat.not_lt_zero _)
  | fuel + 1, s, h, hf => by
    unfold evictLoop
    by_cases hgt : s.cache_.length > s.capacity_
    · rw [if_pos hgt]
      rw [h.length_eq] at hgt
      rcases List.eq_nil_or_concat s.list_ with hnil | ⟨init, last, hl⟩
      · rw [hnil] at hgt
        exact absurd hgt (Nat.not_lt_zero _)
      · rw [List.concat_eq_append] at hl
        have hlen : s.list_.length = init.length + 1 := by rw [hl]; simp
        rw [hl, List.getLast?_concat, List.dropLast_concat]
        obtain ⟨s', hs', hwf, hcap, hlist, _⟩ :=
          WF.evictLoop_eq fuel (h.popBack hl) (by show init.length < fuel; omega)
        refine ⟨s', hs', hwf, hcap, ?_, ?_⟩
        · rw [hlist]
          show init.take s.capacity_ = (init ++ [last]).take s.capacity_
          rw [List.take_append_of_le_length (by omega)]
        · intro hle
          simp only [List.length_append, List.length_singleton] at hle
          omega
    · rw [if_neg hgt]
      rw [h.length_eq] at hgt
      exact ⟨s, rfl, h, rfl, (List.take_of_length_le (by omega)).symm, fun _ => rfl⟩

theorem WF.set_capacity_eq {s : LRUCache K V} (h : WF s) (n : Nat) :
    ∃ s', set_capacity s n = some s' ∧ WF s' ∧ s'.capacity_ = n ∧
      s'.list_ = s.list_.take n ∧ (s.list_.length ≤ n → s' = { s with capacity_ := n }) := by
  have hwf : WF { s with capacity_ := n } := ⟨h.addr_nodup, h.key_nodup, h.map_nodup, h.agree⟩
  exact WF.evictLoop_eq (s.list_.length + 1) hwf (Nat.lt_succ_self _)

theorem WF.get_or_load_hit {s : LRUCache K V} (h : WF s) {n : Node K V} (hn : n ∈ s.list_)
    (f : K → Except E V) :
    get_or_load s n.key f = some
      { calls := [], result := .ok n.value,
        state := { s with list_ := n :: s.list_.filter (fun m => decide (m.key ≠ n.key)) } } := by
  unfold get_or_load
  rw [h.find_of_mem hn]
  simp only [h.spliceFront_eq hn, deref_head]

theorem WF.get_or_load_miss_ok {s : LRUCache K V} (h : WF s) {k : K} (hk : k ∉ keys s)
    {f : K → Except E V} {v : V} (hf : f k = .ok v) :
    get_or_load s k f =
      (put s k v).map (fun s' => { calls := [k], result := .ok v, state := s' }) := by
  unfold get_or_load put
  rw [h.find_none hk]
  simp only [hf]
  cases evictIfFull s <;> rfl

theorem WF.get_or_load_miss_error {s : LRUCache K V} (h : WF s) {k : K} (hk : k ∉ keys s)
    {f : K → Except E V} {e : E} (hf : f k = .error e) :
    get_or_load s k f = some { calls := [k], result := .error e, state := s } := by
  unfold get_or_load
  rw [h.find_none hk]
  simp only [hf]

/-- What `put` of an absent key returns, by cases on whether the cache is full. -/
theorem WF.put_miss_cases {s : LRUCache K V} (h : WF s) {k : K} (hk : k ∉ keys s) (v : V) :
    (size s < capacity s ∧ put s k v = some (LRUCache.insertFront s k v)) ∨
    (capacity s ≤ size s ∧ s.list_ = [] ∧ put s k v = none) ∨
    (capacity s ≤ size s ∧ ∃ init last, s.list_ = init ++ [last] ∧
      put s k v = some (LRUCache.insertFront
        { s with cache_ := mapErase s.cache_ last.key, list_ := init } k v)) := by
  rw [h.put_miss hk]
  by_cases hlt : size s < capacity s
  · left
    rw [WF.evictIfFull_room hlt]
    exact ⟨hlt, rfl⟩
  · right
    have hge : capacity s ≤ size s := Nat.le_of_not_lt hlt
    rcases List.eq_nil_or_concat s.list_ with hnil | ⟨init, last, hl⟩
    · left
      refine ⟨hge, hnil, ?_⟩
      unfold evictIfFull
      unfold size capacity at hge
      rw [if_pos hge, hnil]
      rfl
    · right
      rw [List.concat_eq_append] at hl
      refine ⟨hge, init, last, hl, ?_⟩
      rw [WF.evictIfFull_full hge hl]
      rfl

theorem not_mem_keys_init {s : LRUCache K V} {k : K} {init : List (Node K V)} {last : Node K V}
    (hk : k ∉ keys s) (hl : s.list_ = init ++ [last]) (c : List (K × Nat)) :
    k ∉ keys ({ s with cache_ := c, list_ := init } : LRUCache K V) := by
  intro hmem
  apply hk
  unfold keys at hmem ⊢
  rw [hl, List.map_append]
  exact List.mem_append_left _ hmem

/-- A `put` that returns keeps the invariant and the capacity. -/
theorem WF.put_inv {s s' : LRUCache K V} (h : WF s) {k : K} {v : V} (hp : put s k v = some s') :
    WF s' ∧ s'.capacity_ = s.capacity_ := by
  by_cases hk : k ∈ keys s
  · obtain ⟨n, hn, rfl⟩ := mem_of_mem_keys hk
    rw [h.put_hit hn v] at hp
    cases hp
    exact ⟨h.promote hn rfl rfl, rfl⟩
  · rcases h.put_miss_cases hk v with ⟨_, he⟩ | ⟨_, _, he⟩ | ⟨_, init, last, hl, he⟩
    · rw [he] at hp
      cases hp
      exact ⟨h.insertFront hk v, rfl⟩
    · rw [he] at hp
      cases hp
    · rw [he] at hp
      cases hp
      exact ⟨(h.popBack hl).insertFront (not_mem_keys_init hk hl _) v, rfl⟩

/-- A `get` that returns keeps the invariant, the capacity and the map. -/
theorem WF.get_inv {s s' : LRUCache K V} (h : WF s) {k : K} {r : Option V}
    (hg : get s k = some (r, s')) :
    WF s' ∧ s'.capacity_ = s.capacity_ ∧ s'.cache_ = s.cache_ := by
  by_cases hk : k ∈ keys s
  · obtain ⟨n, hn, rfl⟩ := mem_of_mem_keys hk
    rw [h.get_hit hn] at hg
    cases hg
    exact ⟨h.promote hn rfl rfl, rfl, rfl⟩
  · rw [h.get_miss hk] at hg
    cases hg
    exact ⟨h, rfl, rfl⟩

/-- A `remove` that returns keeps the invariant and the capacity. -/
theorem WF.remove_inv {s s' : LRUCache K V} (h : WF s) {k : K} {b : Bool}
    (hr : remove s k = some (b, s')) :
    WF s' ∧ s'.capacity_ = s.capacity_ ∧ s'.list_.Sublist s.list_ := by
  by_cases hk : k ∈ keys s
  · obtain ⟨n, hn, rfl⟩ := mem_of_mem_keys hk
    rw [h.remove_hit hn] at hr
    cases hr
    exact ⟨h.erase n, rfl, List.filter_sublist _⟩
  · rw [h.remove_miss hk] at hr
    cases hr
    exact ⟨h, rfl, List.Sublist.refl _⟩

/-- A `get_or_load` that returns keeps the invariant and the capacity. -/
theorem WF.get_or_load_inv {s : LRUCache K V} (h : WF s) {k : K} {f : K → Except E V}
    {r : Loaded K V E} (hg : get_or_load s k f = some r) :
    WF r.state ∧ r.state.capacity_ = s.capacity_ := by
  by_cases hk : k ∈ keys s
  · obtain ⟨n, hn, rfl⟩ := mem_of_mem_keys hk
    rw [h.get_or_load_hit hn] at hg
    cases hg
    exact ⟨h.promote hn rfl rfl, rfl⟩
  · cases hf : f k with
    | error e =>
      rw [h.get_or_load_miss_error hk hf] at hg
      cases hg
      exact ⟨h, rfl⟩
    | ok v =>
      rw [h.get_or_load_miss_ok hk hf] at hg
      cases hp : put s k v with
      | none => rw [hp] at hg; cases hg
      | some s1 =>
        rw [hp] at hg
        cases hg
        exact h.put_inv hp

theorem WF.put_size {s s' : LRUCache K V} (h : WF s) {k : K} {v : V}
    (hp : put s k v = some s') (hs : size s ≤ capacity s) : size s' ≤ capacity s' := by
  have hwf := (h.put_inv hp).1
  by_cases hk : k ∈ keys s
  · obtain ⟨n, hn, rfl⟩ := mem_of_mem_keys hk
    rw [h.put_hit hn v] at hp
    cases hp
    exact hs
  · have hsz : size s = s.list_.length := h.length_eq
    have hsz' : size s' = s'.list_.length := hwf.length_eq
    rcases h.put_miss_cases hk v with ⟨hlt, he⟩ | ⟨_, _, he⟩ | ⟨_, init, last, hl, he⟩
    · rw [he] at hp
      cases hp
      rw [hsz']
      show (s.list_.length + 1) ≤ capacity s
      omega
    · rw [he] at hp
      cases hp
    · rw [he] at hp
      cases hp
      rw [hsz']
      show (init.length + 1) ≤ capacity s
      have : s.list_.length = init.length + 1 := by rw [hl]; simp
      omega

theorem WF.put_defined {s : LRUCache K V} (h : WF s) (k : K) (v : V) (hc : 0 < capacity s) :
    ∃ s', put s k v = some s' := by
  by_cases hk : k ∈ keys s
  · obtain ⟨n, hn, rfl⟩ := mem_of_mem_keys hk
    exact ⟨_, h.put_hit hn v⟩
  · rcases h.put_miss_cases hk v with ⟨_, he⟩ | ⟨hge, hnil, _⟩ | ⟨_, init, last, _, he⟩
    · exact ⟨_, he⟩
    · have : size s = 0 := by rw [show size s = s.list_.length from h.length_eq, hnil]; rfl
      omega
    · exact ⟨_, he⟩

theorem putMove_eq_put (s : LRUCache K V) (k : K) (v : V) : putMove s k v = put s k v := rfl

/-- Every call that returns keeps the invariant and the bound `size ≤ capacity`. -/
theorem WF.step_inv {s s' : LRUCache K V} (h : WF s)
    {op : Op K V E} (hstep : step s op = some s') :
    WF s' ∧ (size s ≤ capacity s → size s' ≤ capacity s') := by
  cases op with
  | get k =>
    simp only [step, Option.map_eq_some', Prod.exists, exists_eq_right] at hstep
    obtain ⟨r, hg⟩ := hstep
    obtain ⟨hwf, hcap, hmap⟩ := h.get_inv hg
    refine ⟨hwf, fun hs => ?_⟩
    unfold size capacity at hs ⊢
    rw [hcap, hmap]
    exact hs
  | put k v => exact ⟨(h.put_inv hstep).1, h.put_size hstep⟩
  | putMove k v => exact ⟨(h.put_inv hstep).1, h.put_size hstep⟩
  | contains k => cases hstep; exact ⟨h, id⟩
  | remove k =>
    simp only [step, Option.map_eq_some', Prod.exists, exists_eq_right] at hstep
    obtain ⟨b, hr⟩ := hstep
    obtain ⟨hwf, hcap, hsub⟩ := h.remove_inv hr
    refine ⟨hwf, fun hs => ?_⟩
    have h1 : size s' = s'.list_.length := hwf.length_eq
    have h2 : size s = s.list_.length := h.length_eq
    have h3 := hsub.length_le
    unfold capacity at hs ⊢
    omega
  | clear =>
    cases hstep
    exact ⟨⟨List.nodup_nil, List.nodup_nil, List.nodup_nil, by intro k a; simp [clear]⟩,
      fun _ => Nat.zero_le _⟩
  | size => cases hstep; exact ⟨h, id⟩
  | capacity => cases hstep; exact ⟨h, id⟩
  | set_capacity n =>
    obtain ⟨s1, he, hwf, hcap, hlist, _⟩ := h.set_capacity_eq n
    simp only [step, he, Option.some.injEq] at hstep
    subst hstep
    refine ⟨hwf, fun _ => ?_⟩
    rw [show size s1 = s1.list_.length from hwf.length_eq, hlist, List.length_take]
    unfold capacity
    omega
  | get_or_load k f =>
    simp only [step, Option.map_eq_some'] at hstep
    obtain ⟨r, hg, rfl⟩ := hstep
    refine ⟨(h.get_or_load_inv hg).1, fun hs => ?_⟩
    by_cases hk : k ∈ keys s
    · obtain ⟨n, hn, rfl⟩ := mem_of_mem_keys hk
      rw [h.get_or_load_hit hn] at hg
      cases hg
      exact hs
    · cases hf : f k with
      | error e =>
        rw [h.get_or_load_miss_error hk hf] at hg
        cases hg
        exact hs
      | ok v =>
        rw [h.get_or_load_miss_ok hk hf] at hg
        cases hp : put s k v with
        | none => rw [hp] at hg; cases hg
        | some s1 =>
          rw [hp] at hg
          cases hg
          exact h.put_size hp hs

theorem step_get {s s' : LRUCache K V} {k : K} {r : Option V} (hg : get s k = some (r, s')) :
    step s (Op.get k : Op K V E) = some s' := by
  simp only [step, hg, Option.map_some']

theorem step_remove {s s' : LRUCache K V} {k : K} {b : Bool} (hr : remove s k = some (b, s')) :
    step s (Op.remove k : Op K V E) = some s' := by
  simp only [step, hr, Option.map_some']

theorem step_get_or_load {s : LRUCache K V} {k : K} {f : K → Except E V} {r : Loaded K V E}
    (hg : get_or_load s k f = some r) : step s (Op.get_or_load k f) = some r.state := by
  simp only [step, hg, Option.map_some']

/-- With a positive capacity every call other than `set_capacity(0)` returns, and the
capacity stays positive. -/
theorem WF.step_defined {s : LRUCache K V} (h : WF s) (hc : 0 < capacity s)
    (op : Op K V E) (hop : ∀ n, op = Op.set_capacity n → 0 < n) :
    ∃ s', step s op = some s' ∧ 0 < capacity s' := by
  cases op with
  | get k =>
    by_cases hk : k ∈ keys s
    · obtain ⟨n, hn, rfl⟩ := mem_of_mem_keys hk
      exact ⟨_, step_get (h.get_hit hn), hc⟩
    · exact ⟨_, step_get (h.get_miss hk), hc⟩
  | put k v =>
    obtain ⟨s', hp⟩ := h.put_defined k v hc
    exact ⟨s', hp, by unfold capacity at hc ⊢; rw [(h.put_inv hp).2]; exact hc⟩
  | putMove k v =>
    obtain ⟨s', hp⟩ := h.put_defined k v hc
    exact ⟨s', hp, by unfold capacity at hc ⊢; rw [(h.put_inv hp).2]; exact hc⟩
  | contains k => exact ⟨s, rfl, hc⟩
  | remove k =>
    by_cases hk : k ∈ keys s
    · obtain ⟨n, hn, rfl⟩ := mem_of_mem_keys hk
      exact ⟨_, step_remove (h.remove_hit hn), hc⟩
    · exact ⟨_, step_remove (h.remove_miss hk), hc⟩
  | clear => exact ⟨_, rfl, hc⟩
  | size => exact ⟨s, rfl, hc⟩
  | capacity => exact ⟨s, rfl, hc⟩
  | set_capacity n =>
    obtain ⟨s1, he, _, hcap, _, _⟩ := h.set_capacity_eq n
    exact ⟨s1, he, by unfold capacity; rw [hcap]; exact hop n rfl⟩
  | get_or_load k f =>
    by_cases hk : k ∈ keys s
    · obtain ⟨n, hn, rfl⟩ := mem_of_mem_keys hk
      exact ⟨_, step_get_or_load (h.get_or_load_hit hn f), hc⟩
    · cases hf : f k with
      | error e =>
        exact ⟨_, step_get_or_load (h.get_or_load_miss_error hk hf), hc⟩
      | ok v =>
        obtain ⟨s', hp⟩ := h.put_defined k v hc
        refine ⟨s', by simp only [step, h.get_or_load_miss_ok hk hf, hp, Option.map_some'], ?_⟩
        unfold capacity at hc ⊢
        rw [(h.put_inv hp).2]
        exact hc

theorem WF.run_inv : ∀ (ops : List (Op K V E)) {s s' : LRUCache K V}, WF s →
    size s ≤ capacity s → run s ops = some s' → WF s' ∧ size s' ≤ capacity s'
  | [], s, s', h, hs, hr => by
    simp only [run, Option.some.injEq] at hr
    subst hr
    exact ⟨h, hs⟩
  | op :: ops, s, s', h, hs, hr => by
    unfold run at hr
    cases hst : step s op with
    | none => rw [hst] at hr; cases hr
    | some s1 =>
      rw [hst] at hr
      obtain ⟨h1, hs1⟩ := h.step_inv hst
      exact WF.run_inv ops h1 (hs1 hs) hr

theorem WF.run_defined : ∀ (ops : List (Op K V E)) {s : LRUCache K V}, WF s →
    0 < capacity s → (∀ n, Op.set_capacity n ∈ ops → 0 < n) → ∃ s', run s ops = some s'
  | [], s, _, _, _ => ⟨s, rfl⟩
  | op :: ops, s, h, hc, hops => by
    obtain ⟨s1, hst, hc1⟩ := h.step_defined hc op
      (fun n hn => hops n (by rw [hn]; exact List.mem_cons_self _ _))
    have hwf1 : WF s1 := (h.step_inv hst).1
    obtain ⟨s', hr⟩ := WF.run_defined ops hwf1 hc1
      (fun n hn => hops n (List.mem_cons_of_mem _ hn))
    exact ⟨s', by unfold run; rw [hst]; exact hr⟩

theorem WF.contains_eq_true_iff {s : LRUCache K V} (h : WF s) (k : K) :
    contains s k = true ↔ k ∈ keys s := by
  unfold contains
  by_cases hk : k ∈ keys s
  · obtain ⟨n, hn, rfl⟩ := mem_of_mem_keys hk
    simp [h.find_of_mem hn, hk]
  · simp [h.find_none hk, hk]

theorem WF.contains_eq_false_iff {s : LRUCache K V} (h : WF s) (k : K) :
    contains s k = false ↔ k ∉ keys s := by
  rw [← h.contains_eq_true_iff k]
  simp

theorem entries_insertFront (s : LRUCache K V) (k : K) (v : V) :
    entries (insertFront s k v) = (k, v) :: entries s := rfl

theorem keys_eq_map_entries (s : LRUCache K V) : keys s = (entries s).map Prod.fst := by
  unfold keys entries
  rw [List.map_map]
  rfl

/-! ### Stored values and the history variable -/

theorem WF.valueOf_of_mem {s : LRUCache K V} (h : WF s) {n : Node K V} (hn : n ∈ s.list_) :
    valueOf s n.key = some n.value := by
  unfold valueOf
  cases hf : s.list_.find? (fun m => decide (m.key = n.key)) with
  | none =>
    have := List.find?_eq_none.mp hf n hn
    simp at this
  | some m =>
    have hm : m ∈ s.list_ := List.mem_of_find?_eq_some hf
    have hk : m.key = n.key := by simpa using List.find?_some hf
    rw [h.key_inj hm hn hk]
    rfl

theorem valueOf_of_not_mem {s : LRUCache K V} {k : K} (hk : k ∉ keys s) :
    valueOf s k = none := by
  unfold valueOf
  rw [Option.map_eq_none', List.find?_eq_none]
  intro m hm
  simp only [decide_eq_true_eq]
  intro hmk
  exact hk (List.mem_map.mpr ⟨m, hm, hmk⟩)

theorem WF.valueOf_eq_some_iff {s : LRUCache K V} (h : WF s) (k : K) (v : V) :
    valueOf s k = some v ↔ ∃ n ∈ s.list_, n.key = k ∧ n.value = v := by
  constructor
  · intro hv
    by_cases hk : k ∈ keys s
    · obtain ⟨n, hn, rfl⟩ := mem_of_mem_keys hk
      rw [h.valueOf_of_mem hn, Option.some.injEq] at hv
      exact ⟨n, hn, rfl, hv⟩
    · rw [valueOf_of_not_mem hk] at hv
      cases hv
  · rintro ⟨n, hn, rfl, rfl⟩
    exact h.valueOf_of_mem hn

/-- Two states satisfying the invariant whose recency lists hold the same nodes store the
same value for every key. -/
theorem WF.valueOf_congr {s s' : LRUCache K V} (h : WF s) (h' : WF s')
    (hmem : ∀ m, m ∈ s'.list_ ↔ m ∈ s.list_) (k : K) : valueOf s' k = valueOf s k := by
  apply Option.ext
  intro v
  simp only [Option.mem_def, h.valueOf_eq_some_iff, h'.valueOf_eq_some_iff, hmem]

/-- Moving a node to the head permutes the recency list. -/
theorem WF.perm_promote {s : LRUCache K V} (h : WF s) {n : Node K V} (hn : n ∈ s.list_) :
    (n :: s.list_.filter (fun m => decide (m.key ≠ n.key))).Perm s.list_ := by
  have h1 : s.list_.Nodup := List.Nodup.of_map _ h.key_nodup
  have h2 : (n :: s.list_.filter (fun m => decide (m.key ≠ n.key))).Nodup :=
    List.Nodup.of_map _ (h.promote hn rfl rfl).key_nodup
  rw [List.perm_ext_iff_of_nodup h2 h1]
  intro m
  simp only [List.mem_cons, List.mem_filter, ne_eq, decide_not, Bool.not_eq_true',
    decide_eq_false_iff_not]
  constructor
  · rintro (rfl | ⟨hm, _⟩)
    · exact hn
    · exact hm
  · intro hm
    by_cases hk : m.key = n.key
    · exact Or.inl (h.key_inj hm hn hk)
    · exact Or.inr ⟨hm, hk⟩

/-- A `get` that returns permutes the recency list. -/
theorem WF.get_perm {s s' : LRUCache K V} (h : WF s) {k : K} {r : Option V}
    (hg : get s k = some (r, s')) : s'.list_.Perm s.list_ := by
  by_cases hk : k ∈ keys s
  · obtain ⟨n, hn, rfl⟩ := mem_of_mem_keys hk
    rw [h.get_hit hn] at hg
    cases hg
    exact h.perm_promote hn
  · rw [h.get_miss hk] at hg
    cases hg
    exact List.Perm.refl _

/-- The nodes after a `put`: the node written, or an old node with another key. -/
theorem WF.put_nodes {s s' : LRUCache K V} (h : WF s) {k : K} {v : V}
    (hp : put s k v = some s') :
    ∀ m ∈ s'.list_, (m.key = k ∧ m.value = v) ∨ (m ∈ s.list_ ∧ m.key ≠ k) := by
  intro m hm
  by_cases hk : k ∈ keys s
  · obtain ⟨n, hn, rfl⟩ := mem_of_mem_keys hk
    rw [h.put_hit hn v] at hp
    cases hp
    rcases List.mem_cons.mp hm with rfl | hf
    · exact Or.inl ⟨rfl, rfl⟩
    · have := List.mem_filter.mp hf
      exact Or.inr ⟨this.1, by simpa using this.2⟩
  · have hne : ∀ x ∈ s.list_, x.key ≠ k := fun x hx hxk => hk (List.mem_map.mpr ⟨x, hx, hxk⟩)
    rcases h.put_miss_cases hk v with ⟨_, he⟩ | ⟨_, _, he⟩ | ⟨_, init, last, hl, he⟩
    · rw [he] at hp
      cases hp
      rcases List.mem_cons.mp hm with rfl | hf
      · exact Or.inl ⟨rfl, rfl⟩
      · exact Or.inr ⟨hf, hne m hf⟩
    · rw [he] at hp
      cases hp
    · rw [he] at hp
      cases hp
      rcases List.mem_cons.mp hm with rfl | hf
      · exact Or.inl ⟨rfl, rfl⟩
      · have hin : m ∈ s.list_ := by rw [hl]; exact List.mem_append_left _ hf
        exact Or.inr ⟨hin, hne m hin⟩

theorem Tracks.of_subset {s s' : LRUCache K V} {g : K → Option V} (ht : Tracks s g)
    (hsub : ∀ m ∈ s'.list_, m ∈ s.list_) : Tracks s' (record g none) :=
  fun m hm => ht m (hsub m hm)

theorem Tracks.of_put {s s' : LRUCache K V} {g : K → Option V} (h : WF s) (ht : Tracks s g)
    {k : K} {v : V} (hp : put s k v = some s') : Tracks s' (record g (some (k, v))) := by
  intro m hm
  rcases h.put_nodes hp m hm with ⟨hk, hv⟩ | ⟨hin, hne⟩
  · simp [record, hk, hv]
  · simp only [record, Ne.symm hne, if_false]
    exact ht m hin

/-- One call keeps the history variable in agreement with the cache. -/
theorem WF.step_tracks {s s' : LRUCache K V} {g : K → Option V} (h : WF s) (ht : Tracks s g)
    {op : Op K V E} (hstep : step s op = some s') : Tracks s' (record g (stored s op)) := by
  cases op with
  | get k =>
    simp only [step, Option.map_eq_some', Prod.exists, exists_eq_right] at hstep
    obtain ⟨r, hg⟩ := hstep
    exact ht.of_subset (fun m hm => (h.get_perm hg).mem_iff.mp hm)
  | put k v => exact ht.of_put h hstep
  | putMove k v => exact ht.of_put h hstep
  | contains k => cases hstep; exact ht
  | remove k =>
    simp only [step, Option.map_eq_some', Prod.exists, exists_eq_right] at hstep
    obtain ⟨b, hr⟩ := hstep
    exact ht.of_subset (fun m hm => (h.remove_inv hr).2.2.subset hm)
  | clear => cases hstep; exact ht.of_subset (fun m hm => by cases hm)
  | size => cases hstep; exact ht
  | capacity => cases hstep; exact ht
  | set_capacity n =>
    obtain ⟨s1, he, _, _, hlist, _⟩ := h.set_capacity_eq n
    simp only [step, he, Option.some.injEq] at hstep
    subst hstep
    exact ht.of_subset (fun m hm => by rw [hlist] at hm; exact List.mem_of_mem_take hm)
  | get_or_load k f =>
    simp only [step, Option.map_eq_some'] at hstep
    obtain ⟨r, hg, rfl⟩ := hstep
    by_cases hk : k ∈ keys s
    · have hc : contains s k = true := (h.contains_eq_true_iff k).mpr hk
      obtain ⟨n, hn, rfl⟩ := mem_of_mem_keys hk
      rw [h.get_or_load_hit hn] at hg
      cases hg
      simp only [stored, hc, if_true]
      exact ht.of_subset (fun m hm => (h.perm_promote hn).mem_iff.mp hm)
    · have hc : contains s k = false := (h.contains_eq_false_iff k).mpr hk
      cases hf : f k with
      | error e =>
        rw [h.get_or_load_miss_error hk hf] at hg
        cases hg
        simp only [stored, hc, hf]
        exact ht
      | ok v =>
        rw [h.get_or_load_miss_ok hk hf] at hg
        cases hp : put s k v with
        | none => rw [hp] at hg; cases hg
        | some s1 =>
          rw [hp] at hg
          cases hg
          simp only [stored, hc, hf]
          exact ht.of_put h hp

/-- Along every history the invariant holds and the history variable agrees with the cache. -/
theorem WF.runLog_tracks : ∀ (ops : List (Op K V E)) {s s' : LRUCache K V}
    {g g' : K → Option V}, WF s → Tracks s g → runLog s g ops = some (s', g') →
    WF s' ∧ Tracks s' g'
  | [], s, s', g, g', h, ht, hr => by
    simp only [runLog, Option.some.injEq, Prod.mk.injEq] at hr
    obtain ⟨rfl, rfl⟩ := hr
    exact ⟨h, ht⟩
  | op :: ops, s, s', g, g', h, ht, hr => by
    unfold runLog at hr
    cases hst : step s op with
    | none => rw [hst] at hr; cases hr
    | some s1 =>
      rw [hst] at hr
      exact WF.runLog_tracks ops (h.step_inv hst).1 (h.step_tracks ht hst) hr

/-! ### The recency list after a promotion -/

theorem entries_promote (l : List (Node K V)) (k : K) :
    (l.filter (fun m => decide (m.key ≠ k))).map (fun n => (n.key, n.value))
      = (l.map (fun n => (n.key, n.value))).filter (fun e => decide (e.1 ≠ k)) := by
  rw [List.filter_map]
  rfl

/-- What `put` does to the recency list, for a present and for an absent key. -/
theorem WF.put_entries {s s' : LRUCache K V} (h : WF s) {k : K} {v : V}
    (hp : put s k v = some s') :
    (k ∈ keys s → entries s' = (k, v) :: (entries s).filter (fun e => decide (e.1 ≠ k))) ∧
    (k ∉ keys s → size s < capacity s → entries s' = (k, v) :: entries s) ∧
    (k ∉ keys s → capacity s ≤ size s → entries s' = (k, v) :: (entries s).dropLast) := by
  refine ⟨fun hk => ?_, fun hk hlt => ?_, fun hk hge => ?_⟩
  · obtain ⟨n, hn, rfl⟩ := mem_of_mem_keys hk
    rw [h.put_hit hn v] at hp
    cases hp
    show (n.key, v) :: _ = _
    rw [entries_promote]
    rfl
  · rcases h.put_miss_cases hk v with ⟨_, he⟩ | ⟨hge, _, _⟩ | ⟨hge, _⟩
    · rw [he] at hp
      cases hp
      rfl
    · omega
    · omega
  · rcases h.put_miss_cases hk v with ⟨hlt, _⟩ | ⟨_, _, he⟩ | ⟨_, init, last, hl, he⟩
    · omega
    · rw [he] at hp
      cases hp
    · rw [he] at hp
      cases hp
      rw [entries_insertFront]
      unfold entries
      rw [hl, List.map_append, List.map_singleton, List.dropLast_concat]

/-- Once the key is present with value `v`, any number of further `get_or_load` calls for
it return `v` without invoking the loader. -/
theorem WF.get_or_load_times_hit (f : K → Except E V) : ∀ (N : Nat) {s : LRUCache K V}
    {n : Node K V}, WF s → n ∈ s.list_ →
    ∃ rs s', get_or_load_times n.key f N s = some (rs, s') ∧ rs.length = N ∧
      ∀ r ∈ rs, r.result = .ok n.value ∧ r.calls = []
  | 0, s, _, _, _ => ⟨[], s, rfl, rfl, fun r hr => by cases hr⟩
  | N + 1, s, n, h, hn => by
    have hg := h.get_or_load_hit hn f
    have hwf := (h.get_or_load_inv hg).1
    obtain ⟨rs, s', hrs, hlen, hall⟩ :=
      WF.get_or_load_times_hit f N hwf (n := n) (List.mem_cons_self _ _)
    refine ⟨Loaded.mk [] (.ok n.value)
        { s with list_ := n :: s.list_.filter (fun m => decide (m.key ≠ n.key)) } :: rs,
      s', ?_, by rw [List.length_cons, hlen], ?_⟩
    · unfold get_or_load_times
      simp only [hg, hrs]
    · intro r hr
      rcases List.mem_cons.mp hr with rfl | hr'
      · exact ⟨rfl, rfl⟩
      · exact hall r hr'

end LRUCache

namespace DataLoader

variable {Item : Type}

/-- With `done_loading_` clear and fewer queued items than iterations left, the batch loop
pops every queued item and then sleeps in `getNextItem`. -/
theorem getNextBatchLoop_blocked (d : DataLoader Item) (hd : d.done_loading_ = false) :
    ∀ (q : List Item) (n : Nat) (batch : List Item), q.length < n →
      getNextBatchLoop n batch { d with processed_queue_ := q }
        = .blocked (batch ++ q) { d with processed_queue_ := [] }
  | [], n, batch, hn => by
    obtain ⟨m, rfl⟩ : ∃ m, n = m + 1 := ⟨n - 1, by simp only [List.length_nil] at hn; omega⟩
    simp [getNextBatchLoop, getNextItem, hd]
  | x :: q, n, batch, hn => by
    obtain ⟨m, rfl⟩ : ∃ m, n = m + 1 := ⟨n - 1, by omega⟩
    have ih := getNextBatchLoop_blocked d hd q m (batch ++ [x])
      (by simp only [List.length_cons] at hn; omega)
    simp only [getNextBatchLoop, getNextItem, List.isEmpty_cons, Bool.not_false, Bool.true_or,
      if_true]
    rw [ih, List.append_assoc]
    rfl

/-- With at least as many queued items as iterations left, the batch loop returns the first
of them in queue order. -/
theorem getNextBatchLoop_full (d : DataLoader Item) :
    ∀ (n : Nat) (q : List Item) (batch : List Item), n ≤ q.length →
      getNextBatchLoop n batch { d with processed_queue_ := q }
        = .returned (some (batch ++ q.take n)) { d with processed_queue_ := q.drop n }
  | 0, q, batch, _ => by simp [getNextBatchLoop]
  | n + 1, [], batch, hn => by simp at hn
  | n + 1, x :: q, batch, hn => by
    have ih := getNextBatchLoop_full d n q (batch ++ [x])
      (by simp only [List.length_cons] at hn; omega)
    simp only [getNextBatchLoop, getNextItem, List.isEmpty_cons, Bool.not_false, Bool.true_or,
      if_true]
    rw [ih, List.append_assoc]
    rfl

/-- With `done_loading_` set and fewer queued items than iterations left, the batch loop
pops every queued item, then `getNextItem` returns `nullopt` and the loop returns what it
holds, or `nullopt` if it holds nothing. -/
theorem getNextBatchLoop_done (d : DataLoader Item) (hd : d.done_loading_ = true) :
    ∀ (q : List Item) (n : Nat) (batch : List Item), q.length < n →
      getNextBatchLoop n batch { d with processed_queue_ := q }
        = .returned (if (batch ++ q).isEmpty then none else some (batch ++ q))
            { d with processed_queue_ := [] }
  | [], n, batch, hn => by
    obtain ⟨m, rfl⟩ : ∃ m, n = m + 1 := ⟨n - 1, by simp only [List.length_nil] at hn; omega⟩
    cases batch <;> simp [getNextBatchLoop, getNextItem, hd]
  | x :: q, n, batch, hn => by
    obtain ⟨m, rfl⟩ : ∃ m, n = m + 1 := ⟨n - 1, by omega⟩
    have ih := getNextBatchLoop_done d hd q m (batch ++ [x])
      (by simp only [List.length_cons] at hn; omega)
    simp only [getNextBatchLoop, getNextItem, List.isEmpty_cons, Bool.not_false, Bool.true_or,
      if_true]
    rw [List.append_assoc] at ih
    exact ih

theorem drain_eq_nil : ∀ (q : List Item), drain q = []
  | [] => rfl
  | _ :: rest => drain_eq_nil rest

/-- The first part of `loadData` changes nothing but the cache. -/
theorem loadData_frame {loader_fn_ : Option (String → Except String DataItem)} {path : String}
    {d : DataLoader DataItem} {o : LoadOutcome} (h : loadData loader_fn_ path d = some o) :
    ∃ c, (match o with
        | .threw _ d1 => d1
        | .reached _ _ d1 => d1) = { d with data_cache_ := c } := by
  unfold loadData at h
  cases loader_fn_ with
  | none =>
    simp only [Option.some.injEq] at h
    subst h
    exact ⟨d.data_cache_, rfl⟩
  | some loader =>
    simp only at h
    cases hc : d.data_cache_ with
    | none =>
      simp only [hc] at h
      cases hl : loader path with
      | error e =>
        simp only [hl, Option.some.injEq] at h
        subst h
        exact ⟨none, by simp [← hc]⟩
      | ok data =>
        simp only [hl, Option.some.injEq] at h
        subst h
        exact ⟨none, by simp [← hc]⟩
    | some cache =>
      simp only [hc] at h
      cases hg : cache.get path with
      | none => simp [hg] at h
      | some r =>
        obtain ⟨v, cache1⟩ := r
        cases v with
        | some cached =>
          simp only [hg, Option.some.injEq] at h
          subst h
          exact ⟨_, rfl⟩
        | none =>
          simp only [hg] at h
          cases hl : loader path with
          | error e =>
            simp only [hl, Option.some.injEq] at h
            subst h
            exact ⟨_, rfl⟩
          | ok data =>
            simp only [hl] at h
            cases hcc : DataItem.cacheCopy data with
            | none => simp [hcc] at h
            | some copy =>
              simp only [hcc] at h
              cases hp : cache1.putMove path copy with
              | none => simp [hp] at h
              | some cache2 =>
                simp only [hp, Option.some.injEq] at h
                subst h
                exact ⟨_, rfl⟩

theorem loadTask_stalled {loader_fn_ : Option (String → Except String DataItem)}
    {d d1 : DataLoader DataItem} (h : loadTask loader_fn_ d = some d1) (hs : Stalled d) :
    Stalled d1 := by
  unfold loadTask at h
  cases ht : d.load_tasks with
  | nil => simp [ht] at h
  | cons path rest =>
    simp only [ht] at h
    split at h
    · cases ho : loadData loader_fn_ path { d with load_tasks := rest } with
      | none => simp [ho] at h
      | some o =>
        obtain ⟨c, hc⟩ := loadData_frame ho
        cases o with
        | threw what d2 =>
          simp only [ho, Option.some.injEq] at h
          simp only at hc
          subst h
          subst hc
          exact hs
        | reached data calls d2 =>
          simp only [ho, Option.some.injEq] at h
          simp only at hc
          subst h
          subst hc
          exact hs
    · cases h

theorem loadPush_stalled {d d1 : DataLoader Item} {i : Nat} (h : loadPush d i = some d1)
    (hs : Stalled d) : Stalled d1 := by
  unfold loadPush at h
  rw [List.get?_eq_getElem?] at h
  cases hg : d.loading[i]? with
  | none => simp [hg] at h
  | some data =>
    simp only [hg] at h
    split at h
    · split at h
      · simp only [Option.some.injEq] at h
        subst h
        exact hs
      · simp only [Option.some.injEq] at h
        subst h
        exact hs
    · cases h

theorem processStep_none_of_stalled {E : Type} (processor_fn_ : Option (Item → Except E Item))
    {d : DataLoader Item} (hs : d.process_loops = 0) : processStep processor_fn_ d = none := by
  unfold processStep
  cases d.loaded_queue_ with
  | nil => rfl
  | cons data rest => simp [hs]

/-- Once no preprocess loop is left, no action other than `reset` ever puts an item into
the processed queue. -/
theorem act_stalled (d : DataLoader DataItem) (a : Action) (ha : a ≠ Action.reset)
    (hs : Stalled d) : Stalled (act d a) := by
  cases a with
  | loadTask loader_fn_ =>
    cases h : loadTask loader_fn_ d with
    | none =>
      have e : act d (.loadTask loader_fn_) = d := by simp [act, h]
      rw [e]
      exact hs
    | some d1 =>
      have e : act d (.loadTask loader_fn_) = d1 := by simp [act, h]
      rw [e]
      exact loadTask_stalled h hs
  | loadPush i =>
    cases h : loadPush d i with
    | none =>
      have e : act d (.loadPush i) = d := by simp [act, h]
      rw [e]
      exact hs
    | some d1 =>
      have e : act d (.loadPush i) = d1 := by simp [act, h]
      rw [e]
      exact loadPush_stalled h hs
  | processStep processor_fn_ =>
    have e : act d (.processStep processor_fn_) = d := by
      simp [act, processStep_none_of_stalled processor_fn_ hs.1]
    rw [e]
    exact hs
  | processPush i =>
    have e : act d (.processPush i) = d := by
      simp [act, processPush, hs.2.1]
    rw [e]
    exact hs
  | getNextItem =>
    have e : act d .getNextItem = d := by
      simp only [act, getNextItem, hs.2.2]
      cases d.done_loading_ <;> simp
    rw [e]
    exact hs
  | stop => exact hs
  | reset => exact absurd rfl ha

theorem runActions_stalled : ∀ (acts : List Action) (d : DataLoader DataItem),
    (∀ a ∈ acts, a ≠ Action.reset) → Stalled d → Stalled (runActions d acts)
  | [], _, _, hs => hs
  | a :: acts, d, ha, hs =>
    runActions_stalled acts (act d a) (fun b hb => ha b (List.mem_cons_of_mem _ hb))
      (act_stalled d a (ha a (List.mem_cons_self _ _)) hs)

end DataLoader

namespace ThreadPool

variable {Task : Type}

/-- With the stop flag set, a single worker runs the queued tasks from the front until the
queue is empty and then exits. -/
theorem workerLoop_drain : ∀ (tasks : List Task) (fuel : Nat) (ran : List Task)
    (p : ThreadPool Task), p.stop_ = true → p.tasks_ = tasks → tasks.length < fuel →
    workerLoop fuel p ran = (.exited, ran ++ tasks, { p with tasks_ := [] })
  | [], fuel, ran, p, hs, ht, hf => by
    obtain ⟨m, rfl⟩ : ∃ m, fuel = m + 1 := ⟨fuel - 1, by simp only [List.length_nil] at hf; omega⟩
    obtain ⟨w, t, st⟩ := p
    simp only at hs ht
    subst hs
    subst ht
    simp [workerLoop, workerStep]
  | task :: rest, fuel, ran, p, hs, ht, hf => by
    obtain ⟨m, rfl⟩ : ∃ m, fuel = m + 1 := ⟨fuel - 1, by omega⟩
    obtain ⟨w, t, st⟩ := p
    simp only at hs ht
    subst hs
    subst ht
    have ih := workerLoop_drain rest m (ran ++ [task])
      ({ workers_ := w, tasks_ := rest, stop_ := true } : ThreadPool Task) rfl rfl
      (by simp only [List.length_cons] at hf; omega)
    simp only [workerLoop, workerStep, List.isEmpty_cons, Bool.true_or, Bool.and_false,
      Bool.false_eq_true, if_true, if_false]
    rw [ih, List.append_assoc]
    rfl

end ThreadPool

namespace DataLoader

variable {Item : Type}

end DataLoader

namespace StorageFactory

theorem substr_zero (s : List Char) (n : Nat) : substr s 0 n = some (s.take n) := by
  simp [substr]

theorem findIdx_append_hit (c : Char) (r : List Char) : ∀ (h : List Char) (i : Nat), c ∉ h →
    findIdx c (h ++ c :: r) i = some (i + h.length)
  | [], i, _ => by simp [findIdx]
  | x :: h, i, hc => by
    have hx : x ≠ c := fun e => hc (by rw [e]; exact List.mem_cons_self _ _)
    have ih := findIdx_append_hit c r h (i + 1) (fun hm => hc (List.mem_cons_of_mem _ hm))
    have e : findIdx c (x :: (h ++ c :: r)) i = findIdx c (h ++ c :: r) (i + 1) := by
      simp [findIdx, hx]
    rw [List.cons_append, e, ih, List.length_cons, Nat.add_assoc, Nat.add_comm 1]

theorem findIdx_none (c : Char) : ∀ (h : List Char) (i : Nat), c ∉ h → findIdx c h i = none
  | [], _, _ => rfl
  | x :: h, i, hc => by
    have hx : x ≠ c := fun e => hc (by rw [e]; exact List.mem_cons_self _ _)
    simp only [findIdx, hx, if_false]
    exact findIdx_none c h (i + 1) (fun hm => hc (List.mem_cons_of_mem _ hm))

theorem take_s3Scheme (x : List Char) : (s3Scheme ++ x).take 5 = s3Scheme :=
  List.take_left' rfl

theorem drop_s3Scheme (x : List Char) : (s3Scheme ++ x).drop 5 = x :=
  List.drop_left' rfl

theorem take_hdfsScheme (x : List Char) : (hdfsScheme ++ x).take 7 = hdfsScheme :=
  List.take_left' rfl

theorem drop_hdfsScheme (x : List Char) : (hdfsScheme ++ x).drop 7 = x :=
  List.drop_left' rfl

/-- A path that has the s3 scheme, then a bucket without '/', then either nothing or a '/'
and anything: the bucket is cut out exactly. -/
theorem createStorageForPath_s3 (b : List Char) (hb : '/' ∉ b) :
    createStorageForPath (s3Scheme ++ b) = .ok (createS3Storage b) ∧
    ∀ r, createStorageForPath (s3Scheme ++ b ++ '/' :: r) = .ok (createS3Storage b) := by
  constructor
  · have e5 : substr (s3Scheme ++ b) 0 5 = some s3Scheme := by
      rw [substr_zero, take_s3Scheme]
    have ef : find (s3Scheme ++ b) '/' 5 = none := by
      unfold find
      rw [drop_s3Scheme]
      exact findIdx_none _ _ _ hb
    have es : substr (s3Scheme ++ b) 5 ((s3Scheme ++ b).length - 5) = some b := by
      unfold substr
      rw [drop_s3Scheme]
      simp [s3Scheme]
    simp only [createStorageForPath, e5, if_true, ef, es]
  · intro r
    have e5 : substr (s3Scheme ++ b ++ '/' :: r) 0 5 = some s3Scheme := by
      rw [substr_zero, List.append_assoc, take_s3Scheme]
    have ef : find (s3Scheme ++ b ++ '/' :: r) '/' 5 = some (5 + b.length) := by
      unfold find
      rw [List.append_assoc, drop_s3Scheme]
      exact findIdx_append_hit _ _ _ _ hb
    have es : substr (s3Scheme ++ b ++ '/' :: r) 5 (5 + b.length - 5) = some b := by
      unfold substr
      rw [List.append_assoc, drop_s3Scheme, Nat.add_sub_cancel_left, List.take_left]
      simp [s3Scheme]
    simp only [createStorageForPath, e5, if_true, ef, es]

/-- A path that has the hdfs scheme, then a name-node part without '/', then either nothing
or a '/' and anything: what the function returns when the part has no ':' and when it is a
host without ':' followed by ':' and a port text. -/
theorem createStorageForPath_hdfs (nn : List Char) (hs : '/' ∉ nn) (path : List Char)
    (hp : path = hdfsScheme ++ nn ∨ ∃ r, path = hdfsScheme ++ nn ++ '/' :: r) :
    (':' ∉ nn → createStorageForPath path = .ok (createHDFSStorage nn 9000)) ∧
    (∀ h ps, nn = h ++ ':' :: ps → ':' ∉ h →
      createStorageForPath path = .ok (createHDFSStorage h ((stoi ps).getD 9000))) := by
  have e5 : substr path 0 5 = some ['h', 'd', 'f', 's', ':'] := by
    rw [substr_zero]
    rcases hp with rfl | ⟨r, rfl⟩ <;> simp [hdfsScheme]
  have hne : (['h', 'd', 'f', 's', ':'] : List Char) ≠ s3Scheme := by decide
  have e7 : substr path 0 7 = some hdfsScheme := by
    rw [substr_zero]
    rcases hp with rfl | ⟨r, rfl⟩
    · rw [take_hdfsScheme]
    · rw [List.append_assoc, take_hdfsScheme]
  have es : substr path 7
      ((match find path '/' 7 with
        | some i => i
        | none => path.length) - 7) = some nn := by
    rcases hp with rfl | ⟨r, rfl⟩
    · have ef : find (hdfsScheme ++ nn) '/' 7 = none := by
        unfold find
        rw [drop_hdfsScheme]
        exact findIdx_none _ _ _ hs
      rw [ef]
      unfold substr
      rw [drop_hdfsScheme]
      simp [hdfsScheme]
    · have ef : find (hdfsScheme ++ nn ++ '/' :: r) '/' 7 = some (7 + nn.length) := by
        unfold find
        rw [List.append_assoc, drop_hdfsScheme]
        exact findIdx_append_hit _ _ _ _ hs
      rw [ef]
      unfold substr
      rw [List.append_assoc, drop_hdfsScheme]
      simp only [Nat.add_sub_cancel_left, List.take_left]
      simp [hdfsScheme]
  constructor
  · intro hc
    have ec : find nn ':' 0 = none := by
      unfold find
      exact findIdx_none _ _ _ hc
    simp only [createStorageForPath, e5, hne, if_false, e7, if_true, es, ec]
  · intro h ps hnn hc
    have ec : find nn ':' 0 = some h.length := by
      unfold find
      rw [hnn, List.drop_zero]
      simpa using findIdx_append_hit ':' ps h 0 hc
    have en : substr nn 0 h.length = some h := by
      rw [substr_zero, hnn, List.take_left]
    have ep : substrFrom nn (h.length + 1) = some ps := by
      unfold substrFrom
      rw [hnn]
      have : h.length + 1 ≤ (h ++ ':' :: ps).length := by simp
      rw [if_pos this]
      have : h ++ ':' :: ps = (h ++ [':']) ++ ps := by simp
      rw [this, List.drop_left' (by simp)]
    simp only [createStorageForPath, e5, hne, if_false, e7, if_true, es, ec, en, ep]
    cases stoi ps <;> rfl

end StorageFactory

namespace DataLoader

variable {Item : Type}

end DataLoader

namespace StorageFactory

theorem digitChar_digit (d : Nat) (hd : d < 10) :
    (Nat.digitChar d).isDigit = true ∧ (Nat.digitChar d).toNat - 48 = d := by
  interval_cases d <;> exact ⟨rfl, rfl⟩

/-- A decimal digit is no white space, no sign, no '/' and no ':'. -/
theorem isDigit_not_special {c : Char} (h : c.isDigit = true) :
    isSpace c = false ∧ c ≠ '-' ∧ c ≠ '+' ∧ c ≠ '/' ∧ c ≠ ':' := by
  refine ⟨?_, ?_, ?_, ?_, ?_⟩
  · cases hsp : isSpace c with
    | false => rfl
    | true =>
      simp only [isSpace, Bool.or_eq_true, decide_eq_true_eq] at hsp
      rcases hsp with ((((rfl | rfl) | rfl) | rfl) | rfl) | rfl <;> exact absurd h (by decide)
  · rintro rfl
    exact absurd h (by decide)
  · rintro rfl
    exact absurd h (by decide)
  · rintro rfl
    exact absurd h (by decide)
  · rintro rfl
    exact absurd h (by decide)

theorem toDigitsCore_mem : ∀ (fuel n : Nat) (acc : List Char) (c : Char),
    c ∈ Nat.toDigitsCore 10 fuel n acc → c ∈ acc ∨ c.isDigit = true
  | 0, _, _, _, h => Or.inl h
  | fuel + 1, n, acc, c, h => by
    have hd := (digitChar_digit (n % 10) (Nat.mod_lt _ (by decide))).1
    simp only [Nat.toDigitsCore] at h
    split at h
    · rcases List.mem_cons.mp h with rfl | h'
      · exact Or.inr hd
      · exact Or.inl h'
    · rcases toDigitsCore_mem fuel (n / 10) _ c h with h' | h'
      · rcases List.mem_cons.mp h' with rfl | h''
        · exact Or.inr hd
        · exact Or.inl h''
      · exact Or.inr h'

theorem toDigitsCore_ne_nil : ∀ (fuel n : Nat) (acc : List Char), acc ≠ [] →
    Nat.toDigitsCore 10 fuel n acc ≠ []
  | 0, _, _, h => h
  | fuel + 1, n, acc, _ => by
    simp only [Nat.toDigitsCore]
    split
    · exact List.cons_ne_nil _ _
    · exact toDigitsCore_ne_nil fuel (n / 10) _ (List.cons_ne_nil _ _)

theorem scanDigits_toDigitsCore : ∀ (fuel n : Nat) (acc : List Char), n < fuel →
    scanDigits 0 (Nat.toDigitsCore 10 fuel n acc) = scanDigits n acc
  | 0, _, _, h => absurd h (Nat.not_lt_zero _)
  | fuel + 1, n, acc, h => by
    obtain ⟨hd, hv⟩ := digitChar_digit (n % 10) (Nat.mod_lt _ (by decide))
    simp only [Nat.toDigitsCore]
    split
    · rename_i h0
      have hn : n % 10 = n := Nat.mod_eq_of_lt (by omega)
      rw [hn] at hd hv
      simp only [scanDigits, hn, hd, if_true, hv, Nat.zero_mul, Nat.zero_add]
    · rename_i h0
      rw [scanDigits_toDigitsCore fuel (n / 10) _ (by omega)]
      simp only [scanDigits, hd, if_true, hv]
      congr 1
      omega

/-- The decimal text of `n` is not empty and consists of decimal digits. -/
theorem toDigits_digits (n : Nat) :
    Nat.toDigits 10 n ≠ [] ∧ ∀ c ∈ Nat.toDigits 10 n, c.isDigit = true := by
  constructor
  · unfold Nat.toDigits
    simp only [Nat.toDigitsCore]
    split
    · exact List.cons_ne_nil _ _
    · exact toDigitsCore_ne_nil _ _ _ (List.cons_ne_nil _ _)
  · intro c hc
    rcases toDigitsCore_mem _ _ _ c hc with h | h
    · cases h
    · exact h

/-- `std::stoi` reads back the decimal text of every `n` that fits into `int`. -/
theorem stoi_toDigits (n : Nat) (hn : n ≤ 2147483647) :
    stoi (Nat.toDigits 10 n) = some (n : Int) := by
  obtain ⟨hne, hall⟩ := toDigits_digits n
  have hscan : scanDigits 0 (Nat.toDigits 10 n) = n := by
    unfold Nat.toDigits
    rw [scanDigits_toDigitsCore _ _ _ (Nat.lt_succ_self n)]
    rfl
  cases hl : Nat.toDigits 10 n with
  | nil => exact absurd hl hne
  | cons c cs =>
    rw [hl] at hall hscan
    have hc := hall c (List.mem_cons_self _ _)
    obtain ⟨hsp, hm, hp, _, _⟩ := isDigit_not_special hc
    have hdw : (c :: cs).dropWhile isSpace = c :: cs := by
      simp [List.dropWhile, hsp]
    have hlo : (-2147483648 : Int) ≤ (n : Int) := by omega
    have hhi : (n : Int) ≤ 2147483647 := by omega
    simp only [stoi, hdw, hm, hp, or_self, if_false, hc, if_true, hscan, hlo, hhi, and_self]

end StorageFactory

namespace DataLoader

variable {Item : Type}

end DataLoader

namespace StorageFactory

theorem take_eq_scheme_iff (scheme path : List Char) :
    path.take scheme.length = scheme ↔ ∃ rest, path = scheme ++ rest := by
  constructor
  · intro h
    exact ⟨path.drop scheme.length, by
      conv_lhs => rw [← List.take_append_drop scheme.length path]
      rw [h]⟩
  · rintro ⟨rest, rfl⟩
    exact List.take_left _ _

/-- The factory function never throws. -/
theorem createStorageForPath_total (path : List Char) :
    ∃ st, createStorageForPath path = .ok st := by
  unfold createStorageForPath
  rw [substr_zero]
  simp only
  by_cases h3 : path.take 5 = s3Scheme
  · rw [if_pos h3]
    have hlen : 5 ≤ path.length := by
      have := congrArg List.length h3
      simp only [List.length_take, s3Scheme, List.length_cons, List.length_nil] at this
      omega
    simp only [substr, hlen, if_true]
    exact ⟨_, rfl⟩
  · rw [if_neg h3, substr_zero]
    simp only
    by_cases h7 : path.take 7 = hdfsScheme
    · rw [if_pos h7]
      have hlen : 7 ≤ path.length := by
        have := congrArg List.length h7
        simp only [List.length_take, hdfsScheme, List.length_cons, List.length_nil] at this
        omega
      simp only [substr, hlen, if_true, Nat.zero_le]
      split
      · exact ⟨_, rfl⟩
      · exact ⟨_, rfl⟩
    · rw [if_neg h7]
      exact ⟨_, rfl⟩

/-- A path with neither scheme gets the local storage. -/
theorem createStorageForPath_local (path : List Char) (h3 : path.take 5 ≠ s3Scheme)
    (h7 : path.take 7 ≠ hdfsScheme) : createStorageForPath path = .ok .localStorage := by
  unfold createStorageForPath
  rw [substr_zero]
  simp only
  rw [if_neg h3, substr_zero]
  simp only
  rw [if_neg h7]
  rfl

end StorageFactory

namespace DataLoader

variable {Item : Type}

theorem loadTask_frame {loader_fn_ : Option (String → Except String DataItem)}
    {d d1 : DataLoader DataItem} (h : loadTask loader_fn_ d = some d1) :
    d1.done_loading_ = d.done_loading_ ∧ d1.loaded_queue_ = d.loaded_queue_ ∧
    d1.processed_queue_ = d.processed_queue_ := by
  unfold loadTask at h
  cases ht : d.load_tasks with
  | nil => simp [ht] at h
  | cons path rest =>
    simp only [ht] at h
    split at h
    · cases ho : loadData loader_fn_ path { d with load_tasks := rest } with
      | none => simp [ho] at h
      | some o =>
        obtain ⟨c, hc⟩ := loadData_frame ho
        cases o with
        | threw what d2 =>
          simp only [ho, Option.some.injEq] at h
          simp only at hc
          subst h
          subst hc
          exact ⟨rfl, rfl, rfl⟩
        | reached data calls d2 =>
          simp only [ho, Option.some.injEq] at h
          simp only at hc
          subst h
          subst hc
          exact ⟨rfl, rfl, rfl⟩
    · cases h

/-- With `done_loading_` set, the push block of a waiting load task drops its item. -/
theorem loadPush_done {d : DataLoader Item} (hd : d.done_loading_ = true) (i : Nat)
    {data : Item} (hg : d.loading.get? i = some data) :
    d.loadPush i = some { d with loading := d.loading.eraseIdx i } := by
  rw [List.get?_eq_getElem?] at hg
  simp [loadPush, hg, hd]

/-- With `done_loading_` set, the push block of a preprocess loop drops its item. -/
theorem processPush_done {d : DataLoader Item} (hd : d.done_loading_ = true) (i : Nat)
    {data : Item} (hg : d.processing.get? i = some data) :
    d.processPush i = some { d with processing := d.processing.eraseIdx i } := by
  rw [List.get?_eq_getElem?] at hg
  simp [processPush, hg, hd]

/-- With `done_loading_` set, an action other than `reset` leaves the flag set and can only
remove items from the front of the two queues. -/
theorem act_done (d : DataLoader DataItem) (a : Action) (ha : a ≠ Action.reset)
    (hd : d.done_loading_ = true) :
    (act d a).done_loading_ = true ∧
    (∃ k, (act d a).loaded_queue_ = d.loaded_queue_.drop k) ∧
    (∃ k, (act d a).processed_queue_ = d.processed_queue_.drop k) := by
  cases a with
  | loadTask loader_fn_ =>
    cases h : loadTask loader_fn_ d with
    | none =>
      have e : act d (.loadTask loader_fn_) = d := by simp [act, h]
      rw [e]
      exact ⟨hd, ⟨0, rfl⟩, ⟨0, rfl⟩⟩
    | some d1 =>
      have e : act d (.loadTask loader_fn_) = d1 := by simp [act, h]
      obtain ⟨h1, h2, h3⟩ := loadTask_frame h
      rw [e, h1, h2, h3]
      exact ⟨hd, ⟨0, rfl⟩, ⟨0, rfl⟩⟩
  | loadPush i =>
    cases hg : d.loading.get? i with
    | none =>
      have e : act d (.loadPush i) = d := by
        rw [List.get?_eq_getElem?] at hg
        simp [act, loadPush, hg]
      rw [e]
      exact ⟨hd, ⟨0, rfl⟩, ⟨0, rfl⟩⟩
    | some data =>
      have e : act d (.loadPush i) = { d with loading := d.loading.eraseIdx i } := by
        simp [act, loadPush_done hd i hg]
      rw [e]
      exact ⟨hd, ⟨0, rfl⟩, ⟨0, rfl⟩⟩
  | processStep processor_fn_ =>
    cases h : processStep processor_fn_ d with
    | none =>
      have e : act d (.processStep processor_fn_) = d := by simp [act, h]
      rw [e]
      exact ⟨hd, ⟨0, rfl⟩, ⟨0, rfl⟩⟩
    | some d1 =>
      have e : act d (.processStep processor_fn_) = d1 := by simp [act, h]
      rw [e]
      unfold processStep at h
      cases hq : d.loaded_queue_ with
      | nil => simp [hq] at h
      | cons data rest =>
        simp only [hq] at h
        split at h
        · cases processor_fn_ with
          | none =>
            simp only [Option.some.injEq] at h
            subst h
            exact ⟨hd, ⟨1, rfl⟩, ⟨0, rfl⟩⟩
          | some processor =>
            simp only at h
            cases hp : processor data with
            | ok out =>
              simp only [hp, Option.some.injEq] at h
              subst h
              exact ⟨hd, ⟨1, rfl⟩, ⟨0, rfl⟩⟩
            | error e =>
              simp only [hp, Option.some.injEq] at h
              subst h
              exact ⟨hd, ⟨1, rfl⟩, ⟨0, rfl⟩⟩
        · cases h
  | processPush i =>
    cases hg : d.processing.get? i with
    | none =>
      have e : act d (.processPush i) = d := by
        rw [List.get?_eq_getElem?] at hg
        simp [act, processPush, hg]
      rw [e]
      exact ⟨hd, ⟨0, rfl⟩, ⟨0, rfl⟩⟩
    | some data =>
      have e : act d (.processPush i) = { d with processing := d.processing.eraseIdx i } := by
        simp [act, processPush_done hd i hg]
      rw [e]
      exact ⟨hd, ⟨0, rfl⟩, ⟨0, rfl⟩⟩
  | getNextItem =>
    cases hq : d.processed_queue_ with
    | nil =>
      have e : act d .getNextItem = d := by simp [act, getNextItem, hq, hd]
      rw [e, hq]
      exact ⟨hd, ⟨0, rfl⟩, ⟨0, rfl⟩⟩
    | cons item rest =>
      have e : act d .getNextItem = { d with processed_queue_ := rest } := by
        simp [act, getNextItem, hq]
      rw [e]
      exact ⟨hd, ⟨0, rfl⟩, ⟨1, rfl⟩⟩
  | stop => exact ⟨rfl, ⟨0, rfl⟩, ⟨0, rfl⟩⟩
  | reset => exact absurd rfl ha

theorem runActions_done : ∀ (acts : List Action) (d : DataLoader DataItem),
    (∀ a ∈ acts, a ≠ Action.reset) → d.done_loading_ = true →
    (runActions d acts).done_loading_ = true ∧
    (∃ k, (runActions d acts).loaded_queue_ = d.loaded_queue_.drop k) ∧
    (∃ k, (runActions d acts).processed_queue_ = d.processed_queue_.drop k)
  | [], _, _, hd => ⟨hd, ⟨0, rfl⟩, ⟨0, rfl⟩⟩
  | a :: acts, d, ha, hd => by
    obtain ⟨h1, ⟨k1, h2⟩, ⟨k2, h3⟩⟩ := act_done d a (ha a (List.mem_cons_self _ _)) hd
    obtain ⟨h4, ⟨k3, h5⟩, ⟨k4, h6⟩⟩ :=
      runActions_done acts (act d a) (fun b hb => ha b (List.mem_cons_of_mem _ hb)) h1
    refine ⟨h4, ⟨k1 + k3, ?_⟩, ⟨k2 + k4, ?_⟩⟩
    · show (runActions (act d a) acts).loaded_queue_ = _
      rw [h5, h2, List.drop_drop, Nat.add_comm]
    · show (runActions (act d a) acts).processed_queue_ = _
      rw [h6, h3, List.drop_drop, Nat.add_comm]

end DataLoader

namespace LRUCache

variable {K V E : Type} [DecidableEq K]

/-- What the representation invariant says in terms of the map and the recency list. -/
theorem WF.agreement {s : LRUCache K V} (h : WF s) :
    (keys s).Nodup ∧
    (∀ k, k ∈ s.cache_.map Prod.fst ↔ k ∈ keys s) ∧
    (∀ k a, (k, a) ∈ s.cache_ → ∃ n ∈ s.list_, deref s.list_ a = some n ∧ n.key = k) ∧
    size s = s.list_.length := by
  refine ⟨h.key_nodup, fun k => ?_, fun k a hka => ?_, h.length_eq⟩
  · constructor
    · intro hk
      obtain ⟨⟨k1, a⟩, hm, hk1⟩ := List.mem_map.mp hk
      simp only at hk1
      subst hk1
      obtain ⟨n, hn, hnk, _⟩ := (h.agree k1 a).mp hm
      exact List.mem_map.mpr ⟨n, hn, hnk⟩
    · intro hk
      obtain ⟨n, hn, hnk⟩ := List.mem_map.mp hk
      exact List.mem_map.mpr ⟨(k, n.addr), (h.agree k n.addr).mpr ⟨n, hn, hnk, rfl⟩, rfl⟩
  · obtain ⟨n, hn, hnk, hna⟩ := (h.agree k a).mp hka
    refine ⟨n, hn, ?_, hnk⟩
    rw [← hna]
    exact deref_of_mem h.addr_nodup hn

end LRUCache

namespace DataLoader

variable {Item : Type}

end DataLoader

namespace Limits

theorem reserve_ok (r : Limits) (n : Nat) (h1 : n ≤ r.max_size)
    (h2 : n = 0 ∨ r.granted n = true) : r.reserve n = .ok () := by
  unfold reserve
  rw [if_neg (Nat.not_lt.mpr h1)]
  rcases h2 with h | h
  · rw [if_pos h]
  · by_cases h0 : n = 0
    · rw [if_pos h0]
    · rw [if_neg h0, if_pos h]

theorem reserve_length_error (r : Limits) (n : Nat) (h : r.max_size < n) :
    r.reserve n = .error "vector::reserve" := by
  unfold reserve
  rw [if_pos h]

theorem reserve_zero (r : Limits) : r.reserve 0 = .ok () :=
  reserve_ok r 0 (Nat.zero_le _) (Or.inl rfl)

end Limits

namespace ThreadPool

variable {Task : Type}

/-- A pool constructor that returns has started `max(num_threads, 1)` workers. -/
theorem construct_eq {r : Limits} {num_threads : Nat} {p : ThreadPool Task}
    (h : ThreadPool.construct r num_threads = .ok p) :
    p = { workers_ := DataLoader.poolSize num_threads, tasks_ := [], stop_ := false } := by
  unfold ThreadPool.construct at h
  simp only at h
  have hps : (if num_threads = 0 then 1 else num_threads) = DataLoader.poolSize num_threads :=
    rfl
  rw [hps] at h
  cases hr : r.reserve (DataLoader.poolSize num_threads) with
  | error e => rw [hr] at h; cases h
  | ok u =>
    rw [hr] at h
    simp only at h
    by_cases hs : r.started (DataLoader.poolSize num_threads) = true
    · rw [if_pos hs] at h
      injection h with h
      exact h.symm
    · rw [if_neg hs] at h
      cases h

/-- A count of threads within `max_size()` that the allocator and the system grant gives a
pool. -/
theorem construct_ok (r : Limits) (num_threads : Nat)
    (h1 : DataLoader.poolSize num_threads ≤ r.max_size)
    (h2 : r.granted (DataLoader.poolSize num_threads) = true)
    (h3 : r.started (DataLoader.poolSize num_threads) = true) :
    (ThreadPool.construct r num_threads : Except String (ThreadPool Task)) =
      .ok { workers_ := DataLoader.poolSize num_threads, tasks_ := [], stop_ := false } := by
  unfold ThreadPool.construct
  simp only
  have hps : (if num_threads = 0 then 1 else num_threads) = DataLoader.poolSize num_threads :=
    rfl
  rw [hps, Limits.reserve_ok r (DataLoader.poolSize num_threads) h1 (Or.inr h2)]
  simp only
  rw [if_pos h3]

/-- More threads than `max_size()`: `workers_.reserve` throws. -/
theorem construct_length_error (r : Limits) (num_threads : Nat)
    (h : r.max_size < DataLoader.poolSize num_threads) :
    (ThreadPool.construct r num_threads : Except String (ThreadPool Task)) =
      .error "vector::reserve" := by
  unfold ThreadPool.construct
  simp only
  have hps : (if num_threads = 0 then 1 else num_threads) = DataLoader.poolSize num_threads :=
    rfl
  rw [hps, Limits.reserve_length_error r (DataLoader.poolSize num_threads) h]

end ThreadPool

namespace DataLoader

variable {Item : Type}

/-- The constructor returns exactly when both pools can be built, and then it returns the
engine with the given values and the submitted tasks. -/
theorem construct_ok_iff (r : Limits) (data_paths : List String)
    (batch_size num_loader_threads num_processor_threads buffer_size cache_capacity : Nat)
    (d : DataLoader Item) :
    construct r data_paths batch_size num_loader_threads num_processor_threads buffer_size
        cache_capacity = .ok d ↔
      ((∃ p1 p2 : ThreadPool Unit, ThreadPool.construct r num_loader_threads = .ok p1 ∧
          ThreadPool.construct r num_processor_threads = .ok p2) ∧
        d = startLoading
          { data_paths_ := data_paths, batch_size_ := batch_size, current_index_ := 0,
            done_loading_ := false, buffer_size_ := buffer_size,
            loader_threads := poolSize num_loader_threads,
            processor_threads := poolSize num_processor_threads,
            loaded_queue_ := [], processed_queue_ := [],
            load_tasks := [], loading := [], processing := [],
            cache_capacity_ := cache_capacity,
            data_cache_ :=
              if cache_capacity > 0 then some (LRUCache.new cache_capacity) else none,
            process_loops := 0 }) := by
  unfold construct
  cases h1 : (ThreadPool.construct r num_loader_threads : Except String (ThreadPool Unit)) with
  | error e =>
    simp only
    constructor
    · intro h; cases h
    · rintro ⟨⟨p1, p2, hp1, _⟩, _⟩; cases hp1
  | ok p1 =>
    cases h2 : (ThreadPool.construct r num_processor_threads :
        Except String (ThreadPool Unit)) with
    | error e =>
      simp only
      constructor
      · intro h; cases h
      · rintro ⟨⟨q1, q2, _, hq2⟩, _⟩; cases hq2
    | ok p2 =>
      simp only
      have e1 := ThreadPool.construct_eq h1
      have e2 := ThreadPool.construct_eq h2
      subst e1
      subst e2
      constructor
      · intro h
        simp only [Except.ok.injEq] at h
        exact ⟨⟨_, _, rfl, rfl⟩, h.symm⟩
      · rintro ⟨_, hd⟩
        rw [hd]

theorem getNextBatch_eq_loop (d : DataLoader Item) (r : Limits)
    (h : r.reserve d.batch_size_ = .ok ()) :
    d.getNextBatch r = getNextBatchLoop d.batch_size_ [] d := by
  unfold getNextBatch
  rw [h]

theorem getNextBatch_length_error (d : DataLoader Item) (r : Limits)
    (h : r.max_size < d.batch_size_) :
    d.getNextBatch r = .threw "vector::reserve" d := by
  unfold getNextBatch
  rw [Limits.reserve_length_error r _ h]

/-- The push block run without a write of the flag in between is its two halves. -/
theorem loadPush_eq (d : DataLoader Item) (i : Nat) :
    d.loadPush i = (d.loadWait i).map (fun x => loadStore x.2 x.1) := by
  unfold loadPush loadWait loadStore
  cases d.loading.get? i with
  | none => rfl
  | some data =>
    simp only
    by_cases hc : (decide (d.loaded_queue_.length < d.buffer_size_) || d.done_loading_) = true
    · rw [if_pos hc, if_pos hc]
      cases hd : d.done_loading_ <;> simp [hd]
    · rw [if_neg hc, if_neg hc]
      rfl

theorem processPush_eq (d : DataLoader Item) (i : Nat) :
    d.processPush i = (d.processWait i).map (fun x => processStore x.2 x.1) := by
  unfold processPush processWait processStore
  cases d.processing.get? i with
  | none => rfl
  | some data =>
    simp only
    by_cases hc : (decide (d.processed_queue_.length < d.buffer_size_) || d.done_loading_) = true
    · rw [if_pos hc, if_pos hc]
      cases hd : d.done_loading_ <;> simp [hd]
    · rw [if_neg hc, if_neg hc]
      rfl

theorem loadTask_buffer {loader_fn_ : Option (String → Except String DataItem)}
    {d d1 : DataLoader DataItem} (h : loadTask loader_fn_ d = some d1) :
    d1.buffer_size_ = d.buffer_size_ := by
  unfold loadTask at h
  cases ht : d.load_tasks with
  | nil => simp [ht] at h
  | cons path rest =>
    simp only [ht] at h
    split at h
    · cases ho : loadData loader_fn_ path { d with load_tasks := rest } with
      | none => simp [ho] at h
      | some o =>
        obtain ⟨c, hc⟩ := loadData_frame ho
        cases o with
        | threw what d2 =>
          simp only [ho, Option.some.injEq] at h
          simp only at hc
          subst h
          subst hc
          rfl
        | reached data calls d2 =>
          simp only [ho, Option.some.injEq] at h
          simp only at hc
          subst h
          subst hc
          rfl
    · cases h

theorem processStep_frame {processor_fn_ : Option (DataItem → Except String DataItem)}
    {d d1 : DataLoader DataItem} (h : processStep processor_fn_ d = some d1) :
    d1.buffer_size_ = d.buffer_size_ ∧ d1.done_loading_ = d.done_loading_ ∧
    d1.processed_queue_ = d.processed_queue_ ∧
    d1.loaded_queue_.length < d.loaded_queue_.length := by
  unfold processStep at h
  cases hq : d.loaded_queue_ with
  | nil => simp [hq] at h
  | cons data rest =>
    simp only [hq] at h
    split at h
    · cases processor_fn_ with
      | none =>
        simp only [Option.some.injEq] at h
        subst h
        exact ⟨rfl, rfl, rfl, by simp⟩
      | some processor =>
        simp only at h
        cases hp : processor data with
        | ok out =>
          simp only [hp, Option.some.injEq] at h
          subst h
          exact ⟨rfl, rfl, rfl, by simp⟩
        | error e =>
          simp only [hp, Option.some.injEq] at h
          subst h
          exact ⟨rfl, rfl, rfl, by simp⟩
    · cases h

theorem loadWait_some {d d1 : DataLoader Item} {i : Nat} {data : Item}
    (h : d.loadWait i = some (data, d1)) :
    d1 = { d with loading := d.loading.eraseIdx i } ∧
    (d.loaded_queue_.length < d.buffer_size_ ∨ d.done_loading_ = true) := by
  unfold loadWait at h
  cases hg : d.loading.get? i with
  | none => rw [hg] at h; cases h
  | some x =>
    rw [hg] at h
    simp only at h
    split at h
    · rename_i hc
      simp only [Option.some.injEq, Prod.mk.injEq] at h
      refine ⟨h.2.symm, ?_⟩
      simpa using hc
    · cases h

theorem processWait_some {d d1 : DataLoader Item} {i : Nat} {data : Item}
    (h : d.processWait i = some (data, d1)) :
    d1 = { d with processing := d.processing.eraseIdx i } ∧
    (d.processed_queue_.length < d.buffer_size_ ∨ d.done_loading_ = true) := by
  unfold processWait at h
  cases hg : d.processing.get? i with
  | none => rw [hg] at h; cases h
  | some x =>
    rw [hg] at h
    simp only at h
    split at h
    · rename_i hc
      simp only [Option.some.injEq, Prod.mk.injEq] at h
      refine ⟨h.2.symm, ?_⟩
      simpa using hc
    · cases h

theorem getNextItem_returned {d d1 : DataLoader Item} {item : Option Item}
    (h : d.getNextItem = .returned item d1) :
    ∃ q, d1 = { d with processed_queue_ := q } ∧ q.length ≤ d.processed_queue_.length := by
  unfold getNextItem at h
  split at h
  · cases hq : d.processed_queue_ with
    | nil =>
      rw [hq] at h
      simp only [ItemCall.returned.injEq] at h
      refine ⟨[], ?_, Nat.zero_le _⟩
      rw [← h.2, ← hq]
    | cons x rest =>
      rw [hq] at h
      simp only [ItemCall.returned.injEq] at h
      exact ⟨rest, h.2.symm, by simp⟩
  · cases h

end DataLoader

namespace Pipeline

theorem start_safe (d : DataLoader DataItem) (hq : 1 ≤ d.buffer_size_)
    (hl : d.loaded_queue_ = []) (hp : d.processed_queue_ = []) : (start d).Safe := by
  refine Safe.mk hq ?_ ?_ ?_ ?_ ?_ ?_ ?_
  · show d.loaded_queue_.length ≤ d.buffer_size_
    rw [hl]; exact Nat.zero_le _
  · show d.processed_queue_.length ≤ d.buffer_size_
    rw [hp]; exact Nat.zero_le _
  · intro h; cases h
  · intro h; cases h
  · intro h; exact absurd h (Nat.lt_irrefl 0)
  · intro h; exact absurd h (Nat.lt_irrefl 0)
  · exact Nat.zero_le 1

/-- Every step keeps `Safe`, provided no second `reset()` call gets between its `stop()` and
its clearing of the flag. -/
theorem step_safe {e e1 : Pipeline} (s : Step) (h : e.Safe) (hs : e.step s = some e1)
    (hone : e1.reset_stopped + e1.reset_drained ≤ 1) : e1.Safe := by
  obtain ⟨d, lh, ph, rs, rd, rc⟩ := e
  obtain ⟨hbuf, hl, hp, hlr, hpr, hflag, hdr, h1⟩ := h
  simp only at hbuf hl hp hlr hpr hflag hdr h1
  cases s with
  | loadTask f =>
    simp only [step] at hs
    split at hs
    · cases ht : DataLoader.loadTask f d with
      | none => simp [ht] at hs
      | some d1 =>
        simp only [ht, Option.map_some', Option.some.injEq] at hs
        subst hs
        obtain ⟨f1, f2, f3⟩ := DataLoader.loadTask_frame ht
        have f4 := DataLoader.loadTask_buffer ht
        refine Safe.mk ?_ ?_ ?_ ?_ ?_ ?_ ?_ ?_ <;> simp only [f1, f2, f3, f4] <;> assumption
    · cases hs
  | loadWait i =>
    simp only [step] at hs
    cases lh with
    | some x => cases hs
    | none =>
      simp only at hs
      cases hw : DataLoader.loadWait d i with
      | none => simp [hw] at hs
      | some x =>
        obtain ⟨data, d2⟩ := x
        simp only [hw, Option.some.injEq] at hs
        subst hs
        obtain ⟨hd2, hc⟩ := DataLoader.loadWait_some hw
        subst hd2
        exact Safe.mk hbuf hl hp (fun _ => hc) hpr hflag hdr h1
  | loadStore =>
    simp only [step] at hs
    cases lh with
    | none => cases hs
    | some data =>
      simp only [Option.some.injEq] at hs
      subst hs
      have hroom := hlr rfl
      cases hd : d.done_loading_ with
      | true =>
        have e0 : DataLoader.loadStore d data = d := by simp [DataLoader.loadStore, hd]
        refine Safe.mk ?_ ?_ ?_ ?_ ?_ ?_ ?_ ?_ <;> simp only [e0]
        · exact hbuf
        · exact hl
        · exact hp
        · intro hx; cases hx
        · exact hpr
        · intro _; exact hd
        · exact hdr
        · exact h1
      | false =>
        have e0 : DataLoader.loadStore d data
            = { d with loaded_queue_ := d.loaded_queue_ ++ [data] } := by
          simp [DataLoader.loadStore, hd]
        have hlt : d.loaded_queue_.length < d.buffer_size_ := by
          rcases hroom with h | h
          · exact h
          · rw [hd] at h; cases h
        have hz : rs + rd = 0 := by
          by_contra hne
          have := hflag (Nat.pos_of_ne_zero hne)
          rw [hd] at this
          cases this
        refine Safe.mk ?_ ?_ ?_ ?_ ?_ ?_ ?_ ?_ <;> simp only [e0]
        · exact hbuf
        · rw [List.length_append, List.length_singleton]
          exact hlt
        · exact hp
        · intro hx; cases hx
        · exact hpr
        · intro hx; omega
        · intro hx; omega
        · exact h1
  | processStep g =>
    simp only [step] at hs
    cases lh with
    | some x => cases hs
    | none =>
      simp only at hs
      split at hs
      · cases ht : DataLoader.processStep g d with
        | none => simp [ht] at hs
        | some d1 =>
          simp only [ht, Option.map_some', Option.some.injEq] at hs
          subst hs
          obtain ⟨f1, f2, f3, f4⟩ := DataLoader.processStep_frame ht
          refine Safe.mk ?_ ?_ ?_ ?_ ?_ ?_ ?_ ?_ <;> simp only [f1, f2, f3]
          · exact hbuf
          · omega
          · exact hp
          · intro hx; cases hx
          · exact hpr
          · exact hflag
          · intro hx
            have := (hdr hx).1
            rw [this] at f4
            simp at f4
          · exact h1
      · cases hs
  | processWait i =>
    simp only [step] at hs
    cases ph with
    | some x => cases hs
    | none =>
      simp only at hs
      cases hw : DataLoader.processWait d i with
      | none => simp [hw] at hs
      | some x =>
        obtain ⟨data, d2⟩ := x
        simp only [hw, Option.some.injEq] at hs
        subst hs
        obtain ⟨hd2, hc⟩ := DataLoader.processWait_some hw
        subst hd2
        exact Safe.mk hbuf hl hp hlr (fun _ => hc) hflag hdr h1
  | processStore =>
    simp only [step] at hs
    cases ph with
    | none => cases hs
    | some data =>
      simp only [Option.some.injEq] at hs
      subst hs
      have hroom := hpr rfl
      cases hd : d.done_loading_ with
      | true =>
        have e0 : DataLoader.processStore d data = d := by simp [DataLoader.processStore, hd]
        refine Safe.mk ?_ ?_ ?_ ?_ ?_ ?_ ?_ ?_ <;> simp only [e0]
        · exact hbuf
        · exact hl
        · exact hp
        · exact hlr
        · intro hx; cases hx
        · intro _; exact hd
        · exact hdr
        · exact h1
      | false =>
        have e0 : DataLoader.processStore d data
            = { d with processed_queue_ := d.processed_queue_ ++ [data] } := by
          simp [DataLoader.processStore, hd]
        have hlt : d.processed_queue_.length < d.buffer_size_ := by
          rcases hroom with h | h
          · exact h
          · rw [hd] at h; cases h
        have hz : rs + rd = 0 := by
          by_contra hne
          have := hflag (Nat.pos_of_ne_zero hne)
          rw [hd] at this
          cases this
        refine Safe.mk ?_ ?_ ?_ ?_ ?_ ?_ ?_ ?_ <;> simp only [e0]
        · exact hbuf
        · exact hl
        · rw [List.length_append, List.length_singleton]
          exact hlt
        · exact hlr
        · intro hx; cases hx
        · intro hx; omega
        · intro hx; omega
        · exact h1
  | getNextItem =>
    simp only [step] at hs
    cases ph with
    | some x => cases hs
    | none =>
      simp only at hs
      cases hg : DataLoader.getNextItem d with
      | blocked => simp [hg] at hs
      | returned item d2 =>
        simp only [hg, Option.some.injEq] at hs
        subst hs
        obtain ⟨q, hd2, hq⟩ := DataLoader.getNextItem_returned hg
        subst hd2
        refine Safe.mk hbuf hl ?_ hlr (fun hx => by cases hx) hflag (fun hx => ?_) h1
        · show q.length ≤ d.buffer_size_
          omega
        · obtain ⟨hle, hpe⟩ := hdr hx
          refine ⟨hle, ?_⟩
          show q = []
          rw [hpe] at hq
          exact List.eq_nil_of_length_eq_zero (Nat.le_zero.mp hq)
  | stop =>
    simp only [step, Option.some.injEq] at hs
    subst hs
    exact Safe.mk hbuf hl hp (fun _ => Or.inr rfl) (fun _ => Or.inr rfl) (fun _ => rfl) hdr h1
  | resetStop =>
    simp only [step, Option.some.injEq] at hs
    subst hs
    exact Safe.mk hbuf hl hp (fun _ => Or.inr rfl) (fun _ => Or.inr rfl) (fun _ => rfl) hdr hone
  | resetDrain =>
    simp only [step] at hs
    cases lh with
    | some x => cases ph <;> cases hs
    | none =>
      cases ph with
      | some x => cases hs
      | none =>
        simp only at hs
        split at hs
        · rename_i hpos
          simp only [Option.some.injEq] at hs
          subst hs
          have hdone : d.done_loading_ = true := hflag (by omega)
          refine Safe.mk hbuf ?_ ?_ (fun hx => by cases hx) (fun hx => by cases hx)
            (fun _ => hdone)
            (fun _ => And.intro (DataLoader.drain_eq_nil _) (DataLoader.drain_eq_nil _)) hone
          · show (DataLoader.drain d.loaded_queue_).length ≤ d.buffer_size_
            rw [DataLoader.drain_eq_nil]; exact Nat.zero_le _
          · show (DataLoader.drain d.processed_queue_).length ≤ d.buffer_size_
            rw [DataLoader.drain_eq_nil]; exact Nat.zero_le _
        · cases hs
  | resetClear =>
    simp only [step] at hs
    split at hs
    · rename_i hpos
      simp only [Option.some.injEq] at hs
      subst hs
      obtain ⟨hle, hpe⟩ := hdr hpos
      refine Safe.mk hbuf hl hp (fun _ => Or.inl ?_) (fun _ => Or.inl ?_) (fun hx => ?_)
        (fun hx => ?_) hone
      · show d.loaded_queue_.length < d.buffer_size_
        rw [hle]; exact hbuf
      · show d.processed_queue_.length < d.buffer_size_
        rw [hpe]; exact hbuf
      · have hx2 : 0 < rs + (rd - 1) := hx
        omega
      · have hx2 : 0 < rd - 1 := hx
        omega
    · cases hs
  | resetStart =>
    simp only [step] at hs
    split at hs
    · simp only [Option.some.injEq] at hs
      subst hs
      exact Safe.mk hbuf hl hp hlr hpr hflag hdr h1
    · cases hs

/-- Along a run on which at most one `reset()` call at a time is between its `stop()` and
its clearing of the flag, `Safe` is kept. -/
theorem runSteps_safe : ∀ (steps : List Step) {e e1 : Pipeline}, e.Safe →
    runSteps e steps = some e1 →
    (∀ k e2, runSteps e (steps.take k) = some e2 → e2.reset_stopped + e2.reset_drained ≤ 1) →
    e1.Safe
  | [], e, e1, h, hr, _ => by
    simp only [runSteps, Option.some.injEq] at hr
    subst hr
    exact h
  | s :: rest, e, e1, h, hr, hone => by
    unfold runSteps at hr
    cases hs : e.step s with
    | none => rw [hs] at hr; cases hr
    | some e2 =>
      rw [hs] at hr
      simp only at hr
      have h2 : e2.Safe := step_safe s h hs (hone 1 e2 (by simp [runSteps, hs]))
      refine runSteps_safe rest h2 hr (fun k e3 hk => hone (k + 1) e3 ?_)
      simp only [List.take_succ_cons, runSteps, hs]
      exact hk

end Pipeline

namespace DataLoader

variable {Item : Type}

end DataLoader

namespace Pipeline

/-- No step changes the buffer size. -/
theorem step_buffer {e e1 : Pipeline} (s : Step) (hs : e.step s = some e1) :
    e1.engine.buffer_size_ = e.engine.buffer_size_ := by
  obtain ⟨d, lh, ph, rs, rd, rc⟩ := e
  cases s with
  | loadTask f =>
    simp only [step] at hs
    split at hs
    · cases ht : DataLoader.loadTask f d with
      | none => simp [ht] at hs
      | some d1 =>
        simp only [ht, Option.map_some', Option.some.injEq] at hs
        subst hs
        exact DataLoader.loadTask_buffer ht
    · cases hs
  | loadWait i =>
    simp only [step] at hs
    cases lh with
    | some x => cases hs
    | none =>
      simp only at hs
      cases hw : DataLoader.loadWait d i with
      | none => simp [hw] at hs
      | some x =>
        obtain ⟨data, d2⟩ := x
        simp only [hw, Option.some.injEq] at hs
        subst hs
        obtain ⟨hd2, _⟩ := DataLoader.loadWait_some hw
        subst hd2
        rfl
  | loadStore =>
    simp only [step] at hs
    cases lh with
    | none => cases hs
    | some data =>
      simp only [Option.some.injEq] at hs
      subst hs
      show (DataLoader.loadStore d data).buffer_size_ = d.buffer_size_
      unfold DataLoader.loadStore
      split <;> rfl
  | processStep g =>
    simp only [step] at hs
    cases lh with
    | some x => cases hs
    | none =>
      simp only at hs
      split at hs
      · cases ht : DataLoader.processStep g d with
        | none => simp [ht] at hs
        | some d1 =>
          simp only [ht, Option.map_some', Option.some.injEq] at hs
          subst hs
          exact (DataLoader.processStep_frame ht).1
      · cases hs
  | processWait i =>
    simp only [step] at hs
    cases ph with
    | some x => cases hs
    | none =>
      simp only at hs
      cases hw : DataLoader.processWait d i with
      | none => simp [hw] at hs
      | some x =>
        obtain ⟨data, d2⟩ := x
        simp only [hw, Option.some.injEq] at hs
        subst hs
        obtain ⟨hd2, _⟩ := DataLoader.processWait_some hw
        subst hd2
        rfl
  | processStore =>
    simp only [step] at hs
    cases ph with
    | none => cases hs
    | some data =>
      simp only [Option.some.injEq] at hs
      subst hs
      show (DataLoader.processStore d data).buffer_size_ = d.buffer_size_
      unfold DataLoader.processStore
      split <;> rfl
  | getNextItem =>
    simp only [step] at hs
    cases ph with
    | some x => cases hs
    | none =>
      simp only at hs
      cases hg : DataLoader.getNextItem d with
      | blocked => simp [hg] at hs
      | returned item d2 =>
        simp only [hg, Option.some.injEq] at hs
        subst hs
        obtain ⟨q, hd2, _⟩ := DataLoader.getNextItem_returned hg
        subst hd2
        rfl
  | stop =>
    simp only [step, Option.some.injEq] at hs
    subst hs
    rfl
  | resetStop =>
    simp only [step, Option.some.injEq] at hs
    subst hs
    rfl
  | resetDrain =>
    simp only [step] at hs
    cases lh with
    | some x => cases ph <;> cases hs
    | none =>
      cases ph with
      | some x => cases hs
      | none =>
        simp only at hs
        split at hs
        · simp only [Option.some.injEq] at hs
          subst hs
          rfl
        · cases hs
  | resetClear =>
    simp only [step] at hs
    split at hs
    · simp only [Option.some.injEq] at hs
      subst hs
      rfl
    · cases hs
  | resetStart =>
    simp only [step] at hs
    split at hs
    · simp only [Option.some.injEq] at hs
      subst hs
      rfl
    · cases hs

theorem runSteps_buffer : ∀ (steps : List Step) {e e1 : Pipeline},
    runSteps e steps = some e1 → e1.engine.buffer_size_ = e.engine.buffer_size_
  | [], e, e1, hr => by
    simp only [runSteps, Option.some.injEq] at hr
    subst hr
    rfl
  | s :: rest, e, e1, hr => by
    unfold runSteps at hr
    cases hs : e.step s with
    | none => rw [hs] at hr; cases hr
    | some e2 =>
      rw [hs] at hr
      simp only at hr
      rw [runSteps_buffer rest hr, step_buffer s hs]

end Pipeline

namespace DataLoader

variable {Item : Type}

end DataLoader

/-- The sample cache `cacheAB` is the state after the first three calls of `sampleCalls`,
hence satisfies the invariant. -/
theorem cacheAB_WF : cacheAB.WF :=
  (LRUCache.WF.run_inv (sampleCalls.take 3) (LRUCache.WF.new 2) (Nat.zero_le _)
    (show LRUCache.run (LRUCache.new 2) (sampleCalls.take 3) = some cacheAB from rfl)).1

/-! # The claims -/

/-- C1, as stated, fails: after `set_capacity(0)` on a cache constructed with capacity 1
(state: size 0, capacity 0), `put(A, 1)` takes the eviction branch because `0 >= 0` and
calls `list_.back()` and `list_.pop_back()` on the empty list, which is undefined
behaviour; no state with `size() <= capacity()` is produced. -/
theorem C1_counterexample :
    LRUCache.run (LRUCache.new 1 : LRUCache K3 Nat) [(LRUCache.Op.set_capacity 0 : LRUCache.Op K3 Nat Unit)]
        = some { capacity_ := 0, list_ := [], cache_ := [] } ∧
      LRUCache.put ({ capacity_ := 0, list_ := [], cache_ := [] } : LRUCache K3 Nat) K3.A 1 = none ∧
      ¬ ∃ s, LRUCache.run (LRUCache.new 1 : LRUCache K3 Nat)
          [(LRUCache.Op.set_capacity 0 : LRUCache.Op K3 Nat Unit), LRUCache.Op.put K3.A 1] = some s ∧
        s.size ≤ s.capacity := by
  refine ⟨rfl, rfl, ?_⟩
  rintro ⟨s, hs, _⟩
  have hnone : LRUCache.run (LRUCache.new 1 : LRUCache K3 Nat)
      [(LRUCache.Op.set_capacity 0 : LRUCache.Op K3 Nat Unit), LRUCache.Op.put K3.A 1] = none := rfl
  rw [hnone] at hs
  cases hs

/-- C1 (amended): for a cache constructed with capacity `c > 0` and every finite sequence
`ops` of calls (get, put, contains, remove, clear, size, capacity, set_capacity,
get_or_load with any loader), after each call of the sequence (every initial segment
`ops.take i`): whenever the calls have defined behaviour the state has
`size() <= capacity()`, and if every `set_capacity` argument in the sequence is positive
then all calls do have defined behaviour, so `size() <= capacity()` holds after each. -/
theorem C1_size_le_capacity {K V E : Type} [DecidableEq K] (c : Nat) (hc : 0 < c)
    (ops : List (LRUCache.Op K V E)) (i : Nat) :
    (∀ s, LRUCache.run (LRUCache.new c) (ops.take i) = some s → s.size ≤ s.capacity) ∧
    ((∀ n, LRUCache.Op.set_capacity n ∈ ops → 0 < n) →
      ∃ s, LRUCache.run (LRUCache.new c) (ops.take i) = some s ∧ s.size ≤ s.capacity) := by
  have h0 : (LRUCache.new c : LRUCache K V).size ≤ (LRUCache.new c : LRUCache K V).capacity :=
    Nat.zero_le _
  refine ⟨fun s hs => (LRUCache.WF.run_inv _ (LRUCache.WF.new c) h0 hs).2, fun hops => ?_⟩
  obtain ⟨s, hs⟩ := LRUCache.WF.run_defined (ops.take i) (LRUCache.WF.new c) hc
    (fun n hn => hops n (List.mem_of_mem_take hn))
  exact ⟨s, hs, (LRUCache.WF.run_inv _ (LRUCache.WF.new c) h0 hs).2⟩

/-- Witness of C1: capacity 2 and the six calls of `sampleCalls`; all of them return and
the bound holds at the end. -/
theorem C1_size_le_capacity_witness :
    0 < 2 ∧ ∃ s, LRUCache.run (LRUCache.new 2 : LRUCache K3 Nat) (sampleCalls.take 6) = some s ∧
      s.size ≤ s.capacity :=
  ⟨by decide, (C1_size_le_capacity 2 (by decide) sampleCalls 6).2 (by
    intro n hn
    simp only [sampleCalls, List.mem_cons, LRUCache.Op.set_capacity.injEq, List.mem_nil_iff,
      or_false, false_or, reduceCtorEq] at hn
    omega)⟩

/-- C2: on a cache with capacity at least 1 that satisfies the representation invariant,
`put(k, v)` of an absent key `k` returns; when the cache holds exactly `capacity` entries
the new recency list is `(k, v)` followed by the old list without its last (LRU) entry, so
exactly the tail entry is removed (its key is no longer contained), the other entries keep
values and order, and the size is unchanged; when it holds fewer, the new recency list is
`(k, v)` followed by the whole old list.  Scenario: capacity 2, put(A,1); put(B,2); get(A);
put(C,3) leaves the recency list C, A and get(B) returns none. -/
theorem C2_put_absent_evicts_tail {K V : Type} [DecidableEq K] :
    (∀ (s : LRUCache K V) (k : K) (v : V), s.WF → 1 ≤ s.capacity → s.contains k = false →
      (s.size = s.capacity →
        ∃ s', s.put k v = some s' ∧ s.entries ≠ [] ∧
          s'.entries = (k, v) :: s.entries.dropLast ∧
          (∀ e, s.entries.getLast? = some e → s'.contains e.1 = false) ∧
          s'.size = s.size ∧ s'.capacity = s.capacity) ∧
      (s.size < s.capacity →
        ∃ s', s.put k v = some s' ∧ s'.entries = (k, v) :: s.entries ∧
          s'.size = s.size + 1 ∧ s'.capacity = s.capacity)) ∧
    (∃ s1 s2 s3 s4 : LRUCache K3 Nat,
      (LRUCache.new 2 : LRUCache K3 Nat).put K3.A 1 = some s1 ∧ s1.put K3.B 2 = some s2 ∧
      s2.get K3.A = some (some 1, s3) ∧ s3.put K3.C 3 = some s4 ∧
      s4.keys = [K3.C, K3.A] ∧ s4.entries = [(K3.C, 3), (K3.A, 1)] ∧
      s4.get K3.B = some (none, s4)) := by
  refine ⟨fun s k v h hc hk => ?_, ⟨_, _, _, _, rfl, rfl, rfl, rfl, rfl, rfl, rfl⟩⟩
  have hk' : k ∉ s.keys := (h.contains_eq_false_iff k).mp hk
  have hsz : s.size = s.list_.length := h.length_eq
  constructor
  · intro hfull
    rcases h.put_miss_cases hk' v with ⟨hlt, _⟩ | ⟨_, hnil, _⟩ | ⟨_, init, last, hl, he⟩
    · omega
    · rw [hnil] at hsz
      simp only [List.length_nil] at hsz
      omega
    · have hwf := (h.popBack hl).insertFront (LRUCache.not_mem_keys_init hk' hl _) v
      have hent : s.entries = init.map (fun n => (n.key, n.value)) ++ [(last.key, last.value)] := by
        unfold LRUCache.entries
        rw [hl, List.map_append]
        rfl
      refine ⟨_, he, ?_, ?_, ?_, ?_, rfl⟩
      · rw [hent]
        simp
      · rw [LRUCache.entries_insertFront, hent, List.dropLast_concat]
        rfl
      · intro e hlast
        rw [hent, List.getLast?_concat, Option.some.injEq] at hlast
        subst hlast
        rw [hwf.contains_eq_false_iff]
        show last.key ∉ k :: init.map (fun n => n.key)
        have hkn := h.key_nodup
        rw [hl, List.map_append] at hkn
        have hdisj := (List.nodup_append.mp hkn).2.2
        intro hmem
        rcases List.mem_cons.mp hmem with hlk | hin
        · apply hk'
          rw [← hlk]
          unfold LRUCache.keys
          rw [hl]
          simp
        · exact hdisj hin (by simp)
      · rw [show LRUCache.size _ = _ from hwf.length_eq, hsz, hl]
        simp [LRUCache.insertFront]
  · intro hlt
    rcases h.put_miss_cases hk' v with ⟨_, he⟩ | ⟨hge, _, _⟩ | ⟨hge, _⟩
    · have hwf := h.insertFront hk' v
      refine ⟨_, he, rfl, ?_, rfl⟩
      rw [show LRUCache.size _ = _ from hwf.length_eq, hsz]
      simp [LRUCache.insertFront]
    · omega
    · omega

/-- Witness of C2: the full cache `cacheAB` (capacity 2, recency list A, B) and the absent
key C; the put evicts B. -/
theorem C2_put_absent_evicts_tail_witness :
    ∃ s', cacheAB.put K3.C 3 = some s' ∧ cacheAB.entries ≠ [] ∧
      s'.entries = (K3.C, 3) :: cacheAB.entries.dropLast ∧
      (∀ e, cacheAB.entries.getLast? = some e → s'.contains e.1 = false) ∧
      s'.size = cacheAB.size ∧ s'.capacity = cacheAB.capacity :=
  (C2_put_absent_evicts_tail.1 cacheAB K3.C 3 cacheAB_WF (by decide) (by decide)).1 (by decide)

/-- C3: on a state satisfying the representation invariant, `get(k)` of a present key
returns the value stored for `k`, which along every history of calls leading from a fresh
cache to this state is the value most recently stored for `k` by put or by a loading
get_or_load; the keys are permuted only, every key keeps its value and size and capacity
are unchanged.  `get(k)` of an absent key returns none and leaves the state unchanged. -/
theorem C3_get {K V E : Type} [DecidableEq K] (s : LRUCache K V) (h : s.WF) (k : K) :
    (s.contains k = true →
      ∃ v s', s.get k = some (some v, s') ∧ s.valueOf k = some v ∧
        (∀ (c : Nat) (ops : List (LRUCache.Op K V E)) (g : K → Option V),
          LRUCache.runLog (LRUCache.new c) (fun _ => none) ops = some (s, g) → g k = some v) ∧
        s'.keys.Perm s.keys ∧ (∀ k', s'.valueOf k' = s.valueOf k') ∧
        s'.size = s.size ∧ s'.capacity = s.capacity) ∧
    (s.contains k = false → s.get k = some (none, s)) := by
  constructor
  · intro hc
    obtain ⟨n, hn, rfl⟩ := LRUCache.mem_of_mem_keys ((h.contains_eq_true_iff k).mp hc)
    have hg := h.get_hit hn
    obtain ⟨hwf, hcap, hmap⟩ := h.get_inv hg
    have hperm := h.get_perm hg
    refine ⟨n.value, _, hg, h.valueOf_of_mem hn, ?_, hperm.map _, ?_, ?_, ?_⟩
    · intro c ops g hrun
      have ht := (LRUCache.WF.runLog_tracks ops (LRUCache.WF.new c)
        (fun m hm => by cases hm) hrun).2
      exact ht n hn
    · intro k'
      exact h.valueOf_congr hwf (fun m => hperm.mem_iff) k'
    · rfl
    · rfl
  · intro hc
    exact h.get_miss ((h.contains_eq_false_iff k).mp hc)

/-- Witness of C3: in `cacheAB` (recency list A, B, reached by the first three calls of
`sampleCalls`) get(A) returns 1, the value stored by put(A,1), and get(C) returns none. -/
theorem C3_get_witness :
    cacheAB.WF ∧
    (∃ s', cacheAB.get K3.A = some (some 1, s') ∧ s'.keys.Perm cacheAB.keys ∧
      s'.size = cacheAB.size) ∧
    cacheAB.get K3.C = some (none, cacheAB) := by
  have hC3 := C3_get (E := Unit) cacheAB cacheAB_WF
  refine ⟨cacheAB_WF, ?_, (hC3 K3.C).2 (by decide)⟩
  obtain ⟨v, s', hg, hv, hlog, hperm, _, hsz, _⟩ := (hC3 K3.A).1 (by decide)
  have h1 : v = 1 := by
    have := hlog 2 (sampleCalls.take 3) _ rfl
    simpa [LRUCache.record, LRUCache.stored, sampleCalls] using this.symm
  subst h1
  exact ⟨s', hg, hperm, hsz⟩

/-- C4: on a state satisfying the representation invariant (at capacity or not), `put(k, v)`
of a present key, in either overload, returns without evicting: the keys are permuted
only, size and capacity are unchanged, `k` now has value `v` and every other key keeps its
value. -/
theorem C4_put_present {K V : Type} [DecidableEq K] (s : LRUCache K V) (h : s.WF) (k : K)
    (v : V) (hk : s.contains k = true) :
    ∃ s', s.put k v = some s' ∧ s.putMove k v = some s' ∧ s'.keys.Perm s.keys ∧
      s'.size = s.size ∧ s'.capacity = s.capacity ∧ s'.valueOf k = some v ∧
      ∀ k', k' ≠ k → s'.valueOf k' = s.valueOf k' := by
  obtain ⟨n, hn, rfl⟩ := LRUCache.mem_of_mem_keys ((h.contains_eq_true_iff k).mp hk)
  have hp := h.put_hit hn v
  have hwf := (h.put_inv hp).1
  refine ⟨_, hp, hp, ?_, rfl, rfl, ?_, ?_⟩
  · exact (h.perm_promote hn).map (fun m => m.key)
  · exact hwf.valueOf_of_mem (n := { n with value := v }) (List.mem_cons_self _ _)
  · intro k' hne
    apply Option.ext
    intro w
    simp only [Option.mem_def, h.valueOf_eq_some_iff, hwf.valueOf_eq_some_iff]
    constructor
    · rintro ⟨m, hm, hmk, hmv⟩
      rcases List.mem_cons.mp hm with rfl | hf
      · exact absurd hmk.symm hne
      · exact ⟨m, (List.mem_filter.mp hf).1, hmk, hmv⟩
    · rintro ⟨m, hm, hmk, hmv⟩
      refine ⟨m, List.mem_cons_of_mem _ (List.mem_filter.mpr ⟨hm, ?_⟩), hmk, hmv⟩
      simp only [ne_eq, decide_not, Bool.not_eq_true', decide_eq_false_iff_not]
      rw [hmk]
      exact hne

/-- Witness of C4: `cacheAB` is exactly at capacity 2 and holds B; put(B, 9) keeps both
keys. -/
theorem C4_put_present_witness :
    cacheAB.size = cacheAB.capacity ∧
    ∃ s', cacheAB.put K3.B 9 = some s' ∧ cacheAB.putMove K3.B 9 = some s' ∧
      s'.keys.Perm cacheAB.keys ∧ s'.size = cacheAB.size ∧ s'.capacity = cacheAB.capacity ∧
      s'.valueOf K3.B = some 9 ∧ ∀ k', k' ≠ K3.B → s'.valueOf k' = cacheAB.valueOf k' :=
  ⟨by decide, C4_put_present cacheAB cacheAB_WF K3.B 9 (by decide)⟩

/-- C5: on a state satisfying the representation invariant with capacity at least 1, a
`get(k)` that hits returns and leaves the recency list as `k`'s entry followed by the old
list without it; every `put(k, v)` returns and leaves the recency list as `(k, v)` followed
by a sublist of the old list (same relative order) that has no entry for `k`. -/
theorem C5_touched_key_at_head {K V : Type} [DecidableEq K] (s : LRUCache K V) (h : s.WF)
    (hc : 1 ≤ s.capacity) (k : K) :
    (s.contains k = true →
      ∃ v s', s.get k = some (some v, s') ∧ s'.keys.head? = some k ∧
        s'.entries = (k, v) :: s.entries.filter (fun e => decide (e.1 ≠ k))) ∧
    (∀ v, ∃ s' rest, s.put k v = some s' ∧ s'.keys.head? = some k ∧
      s'.entries = (k, v) :: rest ∧ rest.Sublist s.entries ∧ ∀ e ∈ rest, e.1 ≠ k) := by
  constructor
  · intro hk
    obtain ⟨n, hn, rfl⟩ := LRUCache.mem_of_mem_keys ((h.contains_eq_true_iff k).mp hk)
    refine ⟨n.value, _, h.get_hit hn, rfl, ?_⟩
    show (n.key, n.value) :: _ = _
    rw [LRUCache.entries_promote]
    rfl
  · intro v
    obtain ⟨s', hp⟩ := h.put_defined k v hc
    obtain ⟨h1, h2, h3⟩ := h.put_entries hp
    have hhead : ∀ rest, s'.entries = (k, v) :: rest → s'.keys.head? = some k := by
      intro rest hr
      rw [LRUCache.keys_eq_map_entries, hr]
      rfl
    by_cases hk : k ∈ s.keys
    · refine ⟨s', _, hp, hhead _ (h1 hk), h1 hk, List.filter_sublist _, ?_⟩
      intro e he
      simpa using (List.mem_filter.mp he).2
    · have hne : ∀ e ∈ s.entries, e.1 ≠ k := by
        intro e he hek
        apply hk
        rw [LRUCache.keys_eq_map_entries]
        exact List.mem_map.mpr ⟨e, he, hek⟩
      by_cases hlt : s.size < s.capacity
      · exact ⟨s', _, hp, hhead _ (h2 hk hlt), h2 hk hlt, List.Sublist.refl _, hne⟩
      · have hge : s.capacity ≤ s.size := Nat.le_of_not_lt hlt
        exact ⟨s', _, hp, hhead _ (h3 hk hge), h3 hk hge, List.dropLast_sublist _,
          fun e he => hne e ((List.dropLast_sublist _).subset he)⟩

/-- Witness of C5: in `cacheAB` (recency list A, B) get(B) gives the list B, A and
put(C, 3) gives a list headed by C. -/
theorem C5_touched_key_at_head_witness :
    (∃ s', cacheAB.get K3.B = some (some 2, s') ∧ s'.entries = [(K3.B, 2), (K3.A, 1)]) ∧
    (∃ s' rest, cacheAB.put K3.C 3 = some s' ∧ s'.keys.head? = some K3.C ∧
      s'.entries = (K3.C, 3) :: rest ∧ rest.Sublist cacheAB.entries ∧ ∀ e ∈ rest, e.1 ≠ K3.C) := by
  have hC5 := C5_touched_key_at_head cacheAB cacheAB_WF (by decide)
  refine ⟨?_, (hC5 K3.C).2 3⟩
  obtain ⟨v, s', hg, _, he⟩ := (hC5 K3.B).1 (by decide)
  have hv : v = 2 := by
    have h2 : cacheAB.get K3.B = some (some 2, _) := rfl
    rw [h2] at hg
    simp only [Option.some.injEq, Prod.mk.injEq] at hg
    exact hg.1.symm
  subst hv
  exact ⟨s', hg, he⟩

/-- C6: on a state satisfying the representation invariant, `set_capacity(n)` returns with
`capacity() = n`; if `n < size()` the new recency list is the first `n` entries of the old
one (values and order kept), so exactly the `size() - n` entries nearest the LRU tail are
removed; if `n >= size()` the state changes in the capacity only. -/
theorem C6_set_capacity {K V : Type} [DecidableEq K] (s : LRUCache K V) (h : s.WF) (n : Nat) :
    ∃ s', s.set_capacity n = some s' ∧ s'.capacity = n ∧
      (n < s.size →
        s'.entries = s.entries.take n ∧ s.entries = s'.entries ++ s.entries.drop n ∧
        (s.entries.drop n).length = s.size - n ∧ s'.size = n) ∧
      (s.size ≤ n → s' = { s with capacity_ := n }) := by
  obtain ⟨s', he, hwf, hcap, hlist, hsame⟩ := h.set_capacity_eq n
  have hent : s'.entries = s.entries.take n := by
    unfold LRUCache.entries
    rw [hlist, List.map_take]
  have hsz : s.size = s.entries.length := h.size_eq
  refine ⟨s', he, hcap, fun hlt => ⟨hent, ?_, ?_, ?_⟩, fun hle => hsame ?_⟩
  · rw [hent, List.take_append_drop]
  · rw [List.length_drop, hsz]
  · rw [hwf.size_eq, hent, List.length_take]
    omega
  · rw [← h.length_eq]
    exact hle

/-- Witness of C6: `cacheAB` holds A, B; set_capacity(1) keeps exactly A. -/
theorem C6_set_capacity_witness :
    ∃ s', cacheAB.set_capacity 1 = some s' ∧ s'.capacity = 1 ∧
      (1 < cacheAB.size →
        s'.entries = cacheAB.entries.take 1 ∧
        cacheAB.entries = s'.entries ++ cacheAB.entries.drop 1 ∧
        (cacheAB.entries.drop 1).length = cacheAB.size - 1 ∧ s'.size = 1) ∧
      (cacheAB.size ≤ 1 → s' = { cacheAB with capacity_ := 1 }) :=
  C6_set_capacity cacheAB cacheAB_WF 1

/-- C7: on a state satisfying the representation invariant with capacity at least 1:
if `k` is present, `get_or_load(k, f)` returns the stored value with no loader invocation
and leaves the state `get(k)` leaves (`k` promoted to the head); if `k` is absent and the
loader returns `v`, it invokes the loader once, on `k`, returns `v`, and leaves exactly the
state of `put(k, v)`: `(k, v)` at the head, followed by the old list without its last entry
if the cache was at capacity and by the whole old list otherwise. -/
theorem C7_get_or_load {K V E : Type} [DecidableEq K] (s : LRUCache K V) (h : s.WF)
    (hc : 1 ≤ s.capacity) (k : K) (f : K → Except E V) :
    (s.contains k = true →
      ∃ v s', s.valueOf k = some v ∧ s.get k = some (some v, s') ∧
        s.get_or_load k f = some { calls := [], result := .ok v, state := s' } ∧
        s'.keys.head? = some k) ∧
    (∀ v, s.contains k = false → f k = .ok v →
      ∃ s', s.put k v = some s' ∧
        s.get_or_load k f = some { calls := [k], result := .ok v, state := s' } ∧
        s'.entries = (k, v) ::
          (if s.capacity ≤ s.size then s.entries.dropLast else s.entries)) := by
  constructor
  · intro hk
    obtain ⟨n, hn, rfl⟩ := LRUCache.mem_of_mem_keys ((h.contains_eq_true_iff k).mp hk)
    exact ⟨n.value, _, h.valueOf_of_mem hn, h.get_hit hn, h.get_or_load_hit hn f, rfl⟩
  · intro v hk hf
    have hk' := (h.contains_eq_false_iff k).mp hk
    obtain ⟨s', hp⟩ := h.put_defined k v hc
    refine ⟨s', hp, ?_, ?_⟩
    · rw [h.get_or_load_miss_ok hk' hf, hp]
      rfl
    · obtain ⟨_, h2, h3⟩ := h.put_entries hp
      by_cases hge : s.capacity ≤ s.size
      · rw [if_pos hge]
        exact h3 hk' hge
      · rw [if_neg hge]
        exact h2 hk' (Nat.lt_of_not_le hge)

/-- Witness of C7: on the full cache `cacheAB`, get_or_load(A, loader) returns the stored 1
and get_or_load(C, loader returning 7) loads 7 and evicts B. -/
theorem C7_get_or_load_witness :
    (∃ v s', cacheAB.valueOf K3.A = some v ∧ cacheAB.get K3.A = some (some v, s') ∧
        cacheAB.get_or_load K3.A (fun _ => (Except.ok 7 : Except Unit Nat)) =
          some { calls := [], result := .ok v, state := s' } ∧
        s'.keys.head? = some K3.A) ∧
    (∃ s', cacheAB.put K3.C 7 = some s' ∧
        cacheAB.get_or_load K3.C (fun _ => (Except.ok 7 : Except Unit Nat)) =
          some { calls := [K3.C], result := .ok 7, state := s' } ∧
        s'.entries = (K3.C, 7) ::
          (if cacheAB.capacity ≤ cacheAB.size then cacheAB.entries.dropLast
            else cacheAB.entries)) :=
  ⟨(C7_get_or_load cacheAB cacheAB_WF (by decide) K3.A _).1 (by decide),
   (C7_get_or_load cacheAB cacheAB_WF (by decide) K3.C _).2 7 (by decide) rfl⟩

/-- C8: on a state satisfying the representation invariant (any capacity), if `k` is absent
and the loader fails on `k` with error `e`, `get_or_load(k, f)` invokes the loader once,
leaves with the same error `e`, and the whole state (map, recency list, capacity) is
unchanged. -/
theorem C8_get_or_load_failure {K V E : Type} [DecidableEq K] (s : LRUCache K V) (h : s.WF)
    (k : K) (f : K → Except E V) (e : E) (hk : s.contains k = false) (hf : f k = .error e) :
    s.get_or_load k f = some { calls := [k], result := .error e, state := s } :=
  h.get_or_load_miss_error ((h.contains_eq_false_iff k).mp hk) hf

/-- Witness of C8: on `cacheAB` a loader failing with error 5 on the absent key C. -/
theorem C8_get_or_load_failure_witness :
    cacheAB.get_or_load K3.C (fun _ => (Except.error 5 : Except Nat Nat)) =
      some { calls := [K3.C], result := .error 5, state := cacheAB } :=
  C8_get_or_load_failure cacheAB cacheAB_WF K3.C _ 5 (by decide) rfl

/-- C9: on a state satisfying the representation invariant with capacity at least 1 that
does not contain `k`, `N >= 1` successive calls `get_or_load(k, loader)` (nothing in
between), with a loader returning `v` on `k`, all return; every call returns `v`, and over
all calls the loader is invoked exactly once, on `k`. -/
theorem C9_single_flight {K V E : Type} [DecidableEq K] (s : LRUCache K V) (h : s.WF)
    (hc : 1 ≤ s.capacity) (k : K) (f : K → Except E V) (v : V) (hk : s.contains k = false)
    (hf : f k = .ok v) (N : Nat) (hN : 1 ≤ N) :
    ∃ rs s', LRUCache.get_or_load_times k f N s = some (rs, s') ∧ rs.length = N ∧
      (∀ r ∈ rs, r.result = .ok v) ∧ (rs.map (fun r => r.calls)).flatten = [k] := by
  obtain ⟨M, rfl⟩ : ∃ M, N = M + 1 := ⟨N - 1, by omega⟩
  have hk' := (h.contains_eq_false_iff k).mp hk
  obtain ⟨s1, hp⟩ := h.put_defined k v hc
  have hwf1 := (h.put_inv hp).1
  have hg : s.get_or_load k f = some { calls := [k], result := .ok v, state := s1 } := by
    rw [h.get_or_load_miss_ok hk' hf, hp]
    rfl
  obtain ⟨rest, hent⟩ : ∃ rest, s1.entries = (k, v) :: rest := by
    obtain ⟨_, h2, h3⟩ := h.put_entries hp
    by_cases hge : s.capacity ≤ s.size
    · exact ⟨_, h3 hk' hge⟩
    · exact ⟨_, h2 hk' (Nat.lt_of_not_le hge)⟩
  obtain ⟨n, hn, hnk, hnv⟩ : ∃ n ∈ s1.list_, n.key = k ∧ n.value = v := by
    unfold LRUCache.entries at hent
    cases hl : s1.list_ with
    | nil => rw [hl] at hent; cases hent
    | cons n l =>
      rw [hl, List.map_cons, List.cons.injEq, Prod.mk.injEq] at hent
      exact ⟨n, List.mem_cons_self _ _, hent.1.1, hent.1.2⟩
  subst hnk
  subst hnv
  obtain ⟨rs, s', hrs, hlen, hall⟩ := LRUCache.WF.get_or_load_times_hit f M hwf1 hn
  refine ⟨LRUCache.Loaded.mk [n.key] (.ok n.value) s1 :: rs, s', ?_,
    by rw [List.length_cons, hlen], ?_, ?_⟩
  · unfold LRUCache.get_or_load_times
    simp only [hg, hrs]
  · intro r hr
    rcases List.mem_cons.mp hr with rfl | hr'
    · rfl
    · exact (hall r hr').1
  · have hnil : (rs.map (fun r => r.calls)).flatten = [] := by
      rw [List.flatten_eq_nil_iff]
      intro l hl
      obtain ⟨r, hr, rfl⟩ := List.mem_map.mp hl
      exact (hall r hr).2
    rw [List.map_cons, List.flatten_cons, hnil]
    rfl

/-- Witness of C9: eight calls get_or_load(C, loader returning 4) on `cacheAB`. -/
theorem C9_single_flight_witness :
    ∃ rs s', LRUCache.get_or_load_times K3.C (fun _ => (Except.ok 4 : Except Unit Nat)) 8
        cacheAB = some (rs, s') ∧ rs.length = 8 ∧
      (∀ r ∈ rs, r.result = .ok 4) ∧ (rs.map (fun r => r.calls)).flatten = [K3.C] :=
  C9_single_flight cacheAB cacheAB_WF (by decide) K3.C _ 4 (by decide) rfl 8 (by decide)

/-- C10, evaluated on the claim's own input (7 locators, batch size 3, loader and processor
succeed, `stop` never called; `sevenLoaded` is the engine the constructor returns, after
its producers have run).  Once the producers have finished, all 7 items are in the
processed queue; the first two `getNextBatch` calls return 3 items each; the third pops
the seventh item and then sleeps in `getNextItem`, in a state with an empty processed
queue, `done_loading_` clear and no producer left, so it never returns the partial batch.
In general: while `done_loading_` is clear and the reservation of the batch vector
succeeds, a call with at least `batch_size_` queued items returns the first `batch_size_`
of them, a call with fewer sleeps holding them, and in a state where the producers have
finished no producer step is enabled and `getNextItem` sleeps on an empty queue. -/
theorem C10_partial_batch_never_returned :
    (DataLoader.construct lp64 sevenPaths 3 4 4 100 0 : Except String (DataLoader String))
      = .ok (DataLoader.create sevenPaths 3 4 4 100) ∧
    (sevenLoaded.Quiescent ∧ sevenLoaded.done_loading_ = false ∧
      sevenLoaded.processed_queue_ = sevenPaths ∧
      ∃ d1 d2 d3 : DataLoader String,
        sevenLoaded.getNextBatch lp64 = .returned (some ["p1", "p2", "p3"]) d1 ∧
        d1.getNextBatch lp64 = .returned (some ["p4", "p5", "p6"]) d2 ∧
        d2.getNextBatch lp64 = .blocked ["p7"] d3 ∧
        d3.Quiescent ∧ d3.done_loading_ = false ∧ d3.processed_queue_ = []) ∧
    (∀ (r : Limits) (d : DataLoader String), d.done_loading_ = false →
      (r.reserve d.batch_size_ = .ok () → d.batch_size_ ≤ d.processed_queue_.length →
        d.getNextBatch r = .returned (some (d.processed_queue_.take d.batch_size_))
          { d with processed_queue_ := d.processed_queue_.drop d.batch_size_ }) ∧
      (r.reserve d.batch_size_ = .ok () → d.processed_queue_.length < d.batch_size_ →
        d.getNextBatch r = .blocked d.processed_queue_ { d with processed_queue_ := [] }) ∧
      (d.Quiescent → d.processed_queue_ = [] →
        d.getNextItem = .blocked ∧
        ∀ (loader_fn_ : String → String) (processor_fn_ : String → String) (i : Nat),
          d.loadStart loader_fn_ = none ∧ d.loadPush i = none ∧
          d.processPop processor_fn_ = none ∧ d.processPush i = none)) := by
  refine ⟨rfl, ⟨⟨rfl, rfl, rfl, rfl⟩, rfl, rfl, _, _, _, rfl, rfl, rfl, ⟨rfl, rfl, rfl, rfl⟩,
    rfl, rfl⟩, fun r d hd => ⟨fun hr hge => ?_, fun hr hlt => ?_, fun hq he => ?_⟩⟩
  · have := DataLoader.getNextBatchLoop_full d d.batch_size_ d.processed_queue_ [] hge
    rw [DataLoader.getNextBatch_eq_loop d r hr]
    simpa using this
  · have := DataLoader.getNextBatchLoop_blocked d hd d.processed_queue_ d.batch_size_ [] hlt
    rw [DataLoader.getNextBatch_eq_loop d r hr]
    simpa using this
  · obtain ⟨h1, h2, h3, h4⟩ := hq
    refine ⟨by simp [DataLoader.getNextItem, he, hd], fun f g i => ?_⟩
    simp [DataLoader.loadStart, DataLoader.loadPush, DataLoader.processPop,
      DataLoader.processPush, h1, h2, h3, h4]

/-- C11, as stated, fails: on an LP64 implementation an engine over the seven locators is
constructed with batch size `2^61`; once its producers have finished and `stop()` has set
the flag, seven items are in the processed queue and no task is running, but
`getNextBatch` throws `std::length_error` out of `batch.reserve(batch_size_)`, because
`2^61` exceeds `max_size()`, and returns no batch; no item is removed.  The same happens
on every implementation for every batch size above its `max_size()`. -/
theorem C11_counterexample :
    (DataLoader.construct lp64 sevenPaths 2305843009213693952 4 4 100 0 :
        Except String (DataLoader String))
      = .ok (DataLoader.create sevenPaths 2305843009213693952 4 4 100) ∧
    ∃ d : DataLoader String,
      d = (DataLoader.runProducers id id 100
        (DataLoader.create sevenPaths 2305843009213693952 4 4 100)).stop ∧
      d.done_loading_ = true ∧ d.Quiescent ∧ 1 ≤ d.batch_size_ ∧
      d.processed_queue_ = sevenPaths ∧
      d.getNextBatch lp64 = .threw "vector::reserve" d ∧
      ∀ (r : Limits) (e : DataLoader String), r.max_size < e.batch_size_ →
        e.getNextBatch r = .threw "vector::reserve" e := by
  refine ⟨rfl, _, rfl, rfl, ⟨rfl, rfl, rfl, rfl⟩, by decide, rfl, ?_, ?_⟩
  · exact DataLoader.getNextBatch_length_error _ lp64 (by decide)
  · intro r e h
    exact DataLoader.getNextBatch_length_error e r h

/-- C11 (amended): in an engine whose `done_loading_` flag is set, with batch size `B` such
that `1 <= B <= max_size()` and storage for `B` item pointers is granted, and `m` items in
the processed queue, a `getNextBatch` call during which no other thread takes a step
returns; it returns none exactly when the queue is empty, otherwise the first `min B m`
items of the queue in queue order; those items, and only those, are removed from the queue
(the queue was the returned items followed by what is left), so a later call cannot return
them again; nothing else in the state changes. -/
theorem C11_getNextBatch_when_done {Item : Type} (r : Limits) (d : DataLoader Item)
    (hd : d.done_loading_ = true) (hB : 1 ≤ d.batch_size_)
    (hmax : d.batch_size_ ≤ r.max_size) (hg : r.granted d.batch_size_ = true) :
    ∃ batch, d.getNextBatch r = .returned batch
        { d with processed_queue_ := d.processed_queue_.drop d.batch_size_ } ∧
      (batch = none ↔ d.processed_queue_ = []) ∧
      (d.processed_queue_ ≠ [] →
        batch = some (d.processed_queue_.take d.batch_size_) ∧
        (d.processed_queue_.take d.batch_size_).length
          = min d.batch_size_ d.processed_queue_.length ∧
        d.processed_queue_
          = d.processed_queue_.take d.batch_size_ ++ d.processed_queue_.drop d.batch_size_) := by
  rw [DataLoader.getNextBatch_eq_loop d r (Limits.reserve_ok r _ hmax (Or.inr hg))]
  by_cases hlen : d.batch_size_ ≤ d.processed_queue_.length
  · have h := DataLoader.getNextBatchLoop_full d d.batch_size_ d.processed_queue_ [] hlen
    have hne : d.processed_queue_ ≠ [] := by
      intro he
      rw [he] at hlen
      simp only [List.length_nil] at hlen
      omega
    refine ⟨some (d.processed_queue_.take d.batch_size_), ?_, ?_, ?_⟩
    · simpa using h
    · simp [hne]
    · intro _
      exact ⟨rfl, List.length_take _ _, (List.take_append_drop _ _).symm⟩
  · have hlt : d.processed_queue_.length < d.batch_size_ := Nat.lt_of_not_le hlen
    have h := DataLoader.getNextBatchLoop_done d hd d.processed_queue_ d.batch_size_ [] hlt
    have hdrop : d.processed_queue_.drop d.batch_size_ = [] :=
      List.drop_of_length_le (Nat.le_of_lt hlt)
    have htake : d.processed_queue_.take d.batch_size_ = d.processed_queue_ :=
      List.take_of_length_le (Nat.le_of_lt hlt)
    refine ⟨if d.processed_queue_.isEmpty then none else some d.processed_queue_, ?_, ?_, ?_⟩
    · rw [hdrop]
      simpa using h
    · cases hq : d.processed_queue_ <;> simp
    · intro hne
      refine ⟨?_, List.length_take _ _, (List.take_append_drop _ _).symm⟩
      rw [htake]
      cases hq : d.processed_queue_ with
      | nil => exact absurd hq hne
      | cons x q => simp

/-- Witness of C11: the engine of the seven locators after `stop()`, batch size 3, on the
LP64 implementation: the first call returns the first three items and leaves the other
four. -/
theorem C11_getNextBatch_when_done_witness :
    ∃ batch, sevenLoaded.stop.getNextBatch lp64 = .returned batch
        { sevenLoaded.stop with
          processed_queue_ := sevenLoaded.stop.processed_queue_.drop sevenLoaded.stop.batch_size_ } ∧
      (batch = none ↔ sevenLoaded.stop.processed_queue_ = []) ∧
      (sevenLoaded.stop.processed_queue_ ≠ [] →
        batch = some (sevenLoaded.stop.processed_queue_.take sevenLoaded.stop.batch_size_) ∧
        (sevenLoaded.stop.processed_queue_.take sevenLoaded.stop.batch_size_).length
          = min sevenLoaded.stop.batch_size_ sevenLoaded.stop.processed_queue_.length ∧
        sevenLoaded.stop.processed_queue_
          = sevenLoaded.stop.processed_queue_.take sevenLoaded.stop.batch_size_ ++
            sevenLoaded.stop.processed_queue_.drop sevenLoaded.stop.batch_size_) :=
  C11_getNextBatch_when_done lp64 sevenLoaded.stop rfl (by decide) (by decide) (by decide)

/-- C12, evaluated: an engine constructed over an empty locator list with batch size 1 has
no load task, an empty processed queue and `done_loading_` clear, so the first
`getNextBatch` call sleeps in `getNextItem` instead of returning none; no producer step is
enabled in that state, and the same holds on every implementation for every batch size
`B >= 1` whose reservation succeeds in the engine that the constructor returns for any
thread counts and buffer size. -/
theorem C12_empty_locators_block :
    (DataLoader.construct lp64 [] 1 4 4 100 0 : Except String (DataLoader String)) =
        .ok (DataLoader.create [] 1 4 4 100) ∧
    (DataLoader.create [] 1 4 4 100 : DataLoader String).getNextBatch lp64 =
        .blocked [] (DataLoader.create [] 1 4 4 100) ∧
    (DataLoader.create [] 1 4 4 100 : DataLoader String).Quiescent ∧
    (∀ (loader_fn_ : String → String) (processor_fn_ : String → String) (i : Nat),
      (DataLoader.create [] 1 4 4 100 : DataLoader String).loadStart loader_fn_ = none ∧
      (DataLoader.create [] 1 4 4 100 : DataLoader String).loadPush i = none ∧
      (DataLoader.create [] 1 4 4 100 : DataLoader String).processPop processor_fn_ = none ∧
      (DataLoader.create [] 1 4 4 100 : DataLoader String).processPush i = none) ∧
    (∀ (r : Limits) (B L P Q : Nat), 1 ≤ B → r.reserve B = .ok () →
      (DataLoader.create [] B L P Q : DataLoader String).getNextBatch r =
        .blocked [] (DataLoader.create [] B L P Q)) ∧
    (∀ (r : Limits) (B L P Q : Nat) (d : DataLoader String),
      DataLoader.construct r [] B L P Q 0 = .ok d → d = DataLoader.create [] B L P Q) := by
  refine ⟨rfl, rfl, ⟨rfl, rfl, rfl, rfl⟩, fun f g i => ?_, fun r B L P Q hB hr => ?_,
    fun r B L P Q d hc => ?_⟩
  · simp [DataLoader.loadStart, DataLoader.loadPush, DataLoader.processPop,
      DataLoader.processPush, DataLoader.create]
  · rw [DataLoader.getNextBatch_eq_loop _ r hr]
    obtain ⟨m, rfl⟩ : ∃ m, B = m + 1 := ⟨B - 1, by omega⟩
    rfl
  · rw [((DataLoader.construct_ok_iff r [] B L P Q 0 d).mp hc).2]
    simp [DataLoader.startLoading, DataLoader.create]

/-- C13, as stated, fails: the constructor has no validation, so with `batch_size = 0` and
with `buffer_size = 0` it returns an engine and has submitted one load task per locator
and the preprocess tasks. -/
theorem C13_counterexample :
    (∃ d : DataLoader DataItem, DataLoader.construct lp64 ["a", "b"] 0 4 4 100 100 = .ok d ∧
      d.batch_size_ = 0 ∧ d.load_tasks = ["a", "b"] ∧ d.process_loops = 4) ∧
    (∃ d : DataLoader DataItem, DataLoader.construct lp64 ["a", "b"] 3 4 4 0 100 = .ok d ∧
      d.buffer_size_ = 0 ∧ d.load_tasks = ["a", "b"] ∧ d.process_loops = 4) :=
  ⟨⟨_, rfl, rfl, rfl, rfl⟩, ⟨_, rfl, rfl, rfl, rfl⟩⟩

/-- C13 (amended): the constructor validates neither `batch_size` nor `buffer_size`, zero
included: whether it returns an engine depends only on whether its two worker pools can be
built (it returns exactly when both pool constructors return), and the engine it returns
holds the given values, one submitted load task per locator and `processor_pool_.size()`
submitted preprocess tasks.  With `batch_size = 0` a `getNextBatch` call returns an empty
batch at once and changes nothing; with `buffer_size = 0` the wait of a push block of a
load task or of a preprocess loop does not pass while `done_loading_` is clear.  Thread
counts above `max_size()` make the constructor throw; thread counts within `max_size()`
that the allocator and the system grant make it return. -/
theorem C13_constructor_accepts_zero {Item : Type} (r : Limits) (data_paths : List String)
    (batch_size num_loader_threads num_processor_threads buffer_size cache_capacity : Nat) :
    ((∃ d : DataLoader Item, DataLoader.construct r data_paths batch_size num_loader_threads
        num_processor_threads buffer_size cache_capacity = .ok d) ↔
      ∃ p1 p2 : ThreadPool Unit, ThreadPool.construct r num_loader_threads = .ok p1 ∧
        ThreadPool.construct r num_processor_threads = .ok p2) ∧
    (∀ d : DataLoader Item, DataLoader.construct r data_paths batch_size num_loader_threads
        num_processor_threads buffer_size cache_capacity = .ok d →
      d.batch_size_ = batch_size ∧ d.buffer_size_ = buffer_size ∧ d.data_paths_ = data_paths ∧
      d.load_tasks = data_paths ∧
      d.process_loops = DataLoader.poolSize num_processor_threads ∧
      d.done_loading_ = false ∧
      (batch_size = 0 → d.getNextBatch r = .returned (some []) d) ∧
      (buffer_size = 0 → ∀ d1 : DataLoader Item, d1.buffer_size_ = 0 →
        d1.done_loading_ = false → ∀ i, d1.loadWait i = none ∧ d1.processWait i = none)) ∧
    (r.max_size < DataLoader.poolSize num_loader_threads ∨
        r.max_size < DataLoader.poolSize num_processor_threads →
      ∃ what, (DataLoader.construct r data_paths batch_size num_loader_threads
        num_processor_threads buffer_size cache_capacity : Except String (DataLoader Item))
          = .error what) ∧
    (DataLoader.poolSize num_loader_threads ≤ r.max_size →
      r.granted (DataLoader.poolSize num_loader_threads) = true →
      r.started (DataLoader.poolSize num_loader_threads) = true →
      DataLoader.poolSize num_processor_threads ≤ r.max_size →
      r.granted (DataLoader.poolSize num_processor_threads) = true →
      r.started (DataLoader.poolSize num_processor_threads) = true →
      ∃ d : DataLoader Item, DataLoader.construct r data_paths batch_size num_loader_threads
        num_processor_threads buffer_size cache_capacity = .ok d) := by
  refine ⟨⟨?_, ?_⟩, ?_, ?_, fun a1 a2 a3 b1 b2 b3 =>
    ⟨_, (DataLoader.construct_ok_iff r data_paths batch_size num_loader_threads
      num_processor_threads buffer_size cache_capacity _).mpr
      ⟨⟨_, _, ThreadPool.construct_ok r num_loader_threads a1 a2 a3,
        ThreadPool.construct_ok r num_processor_threads b1 b2 b3⟩, rfl⟩⟩⟩
  · rintro ⟨d, hd⟩
    exact ((DataLoader.construct_ok_iff r data_paths batch_size num_loader_threads
      num_processor_threads buffer_size cache_capacity d).mp hd).1
  · intro hp
    exact ⟨_, (DataLoader.construct_ok_iff r data_paths batch_size num_loader_threads
      num_processor_threads buffer_size cache_capacity _).mpr ⟨hp, rfl⟩⟩
  · intro d hd
    have he := ((DataLoader.construct_ok_iff r data_paths batch_size num_loader_threads
      num_processor_threads buffer_size cache_capacity d).mp hd).2
    subst he
    refine ⟨rfl, rfl, rfl, by simp [DataLoader.startLoading],
      by simp [DataLoader.startLoading], rfl, ?_, ?_⟩
    · intro hB
      subst hB
      rw [DataLoader.getNextBatch_eq_loop _ r (Limits.reserve_zero r)]
      rfl
    · intro _ d1 hq hd1 i
      constructor
      · unfold DataLoader.loadWait
        cases d1.loading.get? i <;> simp [hq, hd1]
      · unfold DataLoader.processWait
        cases d1.processing.get? i <;> simp [hq, hd1]
  · intro h
    unfold DataLoader.construct
    rcases h with h | h
    · rw [ThreadPool.construct_length_error r num_loader_threads h]
      exact ⟨_, rfl⟩
    · cases h1 : (ThreadPool.construct r num_loader_threads :
          Except String (ThreadPool Unit)) with
      | error e => exact ⟨_, rfl⟩
      | ok p1 =>
        simp only
        rw [ThreadPool.construct_length_error r num_processor_threads h]
        exact ⟨_, rfl⟩

/-- Witness of C13: on the LP64 implementation the constructor returns for two locators,
batch size 0, buffer size 0 and four threads per pool; `getNextBatch` on the engine returns
an empty batch; with `2^61` loader threads the constructor throws. -/
theorem C13_constructor_accepts_zero_witness :
    (∃ d : DataLoader DataItem,
      DataLoader.construct lp64 ["a", "b"] 0 4 4 0 0 = .ok d ∧
        d.getNextBatch lp64 = .returned (some []) d) ∧
    ∃ what, (DataLoader.construct lp64 ["a", "b"] 0 2305843009213693952 4 0 0 :
      Except String (DataLoader DataItem)) = .error what :=
  ⟨⟨_, rfl, ((C13_constructor_accepts_zero lp64 ["a", "b"] 0 4 4 0 0).2.1 _ rfl).2.2.2.2.2.2.1
      rfl⟩,
    (C13_constructor_accepts_zero lp64 ["a", "b"] 0 2305843009213693952 4 0 0).2.2.1
      (Or.inl (by decide))⟩

/-- C14, evaluated at the grain of the source, where a push block reads `done_loading_`
once in the predicate of its wait and once more before the push, and `reset()` clears the
flag after it has released the locks.  (1) Buffer size 0, one locator: the load task has
called the loader and sleeps at its push block (its wait does not pass); `reset()` sets
the flag and drains; the task wakes, passes the wait on the set flag and holds the lock;
`reset()` clears the flag; the task reads the flag again and pushes: the loaded queue holds
1 item, more than the buffer size 0.  (2) Buffer size 1, two locators, two `reset()` calls
that overlap and one `stop()`: the loaded queue ends with 2 items.  (3) The bound does
hold for every buffer size of at least 1 along every run on which at most one `reset()`
call at a time is between its `stop()` and its clearing of the flag.  (4) The four stages
of `reset()` run with no step of another thread in between give the state of `reset`. -/
theorem C14_push_after_flag_cleared :
    (∃ (d0 : DataLoader DataItem) (e1 e : Pipeline),
      DataLoader.construct lp64 ["a"] 1 1 1 0 0 = .ok d0 ∧
      d0.loaded_queue_ = [] ∧ d0.processed_queue_ = [] ∧ d0.buffer_size_ = 0 ∧
      (Pipeline.start d0).runSteps [.loadTask (some textLoader)] = some e1 ∧
      e1.step (.loadWait 0) = none ∧
      e1.runSteps [.resetStop, .resetDrain, .loadWait 0, .resetClear, .loadStore] = some e ∧
      e.engine.buffer_size_ = 0 ∧ e.engine.loaded_queue_ = [DataItem.text "a"] ∧
      e.engine.done_loading_ = false) ∧
    (∃ (d0 : DataLoader DataItem) (e : Pipeline),
      DataLoader.construct lp64 ["a", "b"] 1 2 1 1 0 = .ok d0 ∧
      d0.loaded_queue_ = [] ∧ d0.processed_queue_ = [] ∧ d0.buffer_size_ = 1 ∧
      (Pipeline.start d0).runSteps
        [.loadTask (some textLoader), .loadTask (some textLoader), .loadWait 0, .loadStore,
         .resetStop, .resetDrain, .resetStop, .resetDrain, .resetClear, .resetStart,
         .loadTask (some textLoader), .loadWait 1, .loadStore, .stop, .loadWait 0,
         .resetClear, .loadStore] = some e ∧
      e.engine.buffer_size_ = 1 ∧
      e.engine.loaded_queue_ = [DataItem.text "a", DataItem.text "b"]) ∧
    (∀ (r : Limits) (data_paths : List String)
        (batch_size num_loader_threads num_processor_threads buffer_size cache_capacity : Nat)
        (d0 : DataLoader DataItem) (steps : List Pipeline.Step) (e : Pipeline),
      1 ≤ buffer_size →
      DataLoader.construct r data_paths batch_size num_loader_threads num_processor_threads
        buffer_size cache_capacity = .ok d0 →
      (Pipeline.start d0).runSteps steps = some e →
      (∀ k e2, (Pipeline.start d0).runSteps (steps.take k) = some e2 →
        e2.reset_stopped + e2.reset_drained ≤ 1) →
      e.engine.loaded_queue_.length ≤ buffer_size ∧
      e.engine.processed_queue_.length ≤ buffer_size) ∧
    (∀ d : DataLoader DataItem,
      (Pipeline.start d).runSteps [.resetStop, .resetDrain, .resetClear, .resetStart]
        = some (Pipeline.start d.reset)) := by
  refine ⟨⟨_, _, _, rfl, rfl, rfl, rfl, rfl, rfl, rfl, rfl, rfl, rfl⟩,
    ⟨_, _, rfl, rfl, rfl, rfl, rfl, rfl, rfl⟩, ?_, fun d => rfl⟩
  intro r data_paths batch_size L P Q C d0 steps e hQ h0 hr hone
  have hd0 := ((DataLoader.construct_ok_iff r data_paths batch_size L P Q C d0).mp h0).2
  have hb0 : d0.buffer_size_ = Q := by rw [hd0]; rfl
  have hs0 : (Pipeline.start d0).Safe :=
    Pipeline.start_safe d0 (by rw [hb0]; exact hQ) (by rw [hd0]; rfl) (by rw [hd0]; rfl)
  have hsafe := Pipeline.runSteps_safe steps hs0 hr hone
  have hbuf : e.engine.buffer_size_ = Q := by
    rw [Pipeline.runSteps_buffer steps hr]
    exact hb0
  have h1 := hsafe.loaded
  have h2 := hsafe.processed
  rw [hbuf] at h1 h2
  exact ⟨h1, h2⟩

/-- C15, evaluated: with "a.txt" cached as the text item "hello", the load task for
"a.txt" does not invoke the loader, but the item it takes to the push block is built by
`std::make_unique<DataItem>(**cached_data)`, an object of the base class only, not the
text "hello".  In general a cache hit always yields such a base object, while the miss
path of the same function copies images and texts with their contents. -/
theorem C15_cache_hit_yields_base_item :
    cachedText.get "a.txt" = some (some (DataItem.text "hello"), cachedText) ∧
    DataLoader.loadData (some textLoader) "a.txt" engineCached =
      some (.reached DataItem.base [] engineCached) ∧
    DataItem.base ≠ DataItem.text "hello" ∧
    (∀ (d : DataLoader DataItem) (loader : String → Except String DataItem) (path : String)
        (cache cache1 : LRUCache String DataItem) (v : DataItem),
      d.data_cache_ = some cache → cache.get path = some (some v, cache1) →
      DataLoader.loadData (some loader) path d =
        some (.reached DataItem.base [] { d with data_cache_ := some cache1 })) ∧
    DataItem.cacheCopy (DataItem.text "hello") = some (DataItem.text "hello") ∧
    DataItem.cacheCopy (DataItem.image 1 2 1 [7, 8]) = some (DataItem.image 1 2 1 [7, 8]) := by
  refine ⟨by decide, by decide, by decide, ?_, rfl, rfl⟩
  intro d loader path cache cache1 v hc hg
  simp only [DataLoader.loadData, hc, hg, DataItem.copyAsBase]

/-- C17, as stated, fails: with a single preprocess loop and the loaded queue "bad", "good",
the processor failing on "bad" ends the loop; "good", on which the processor succeeds,
stays in the loaded queue, no preprocess step is enabled any more, and whatever the other
threads do (short of `reset`) the processed queue stays empty. -/
theorem C17_counterexample :
    pickyProcessor (DataItem.text "good") = .ok (DataItem.text "good") ∧
    ∃ d1 : DataLoader DataItem,
      engineBadGood.processStep (some pickyProcessor) = some d1 ∧
      d1.loaded_queue_ = [DataItem.text "good"] ∧ d1.process_loops = 0 ∧
      d1.processStep (some pickyProcessor) = none ∧
      ∀ acts : List DataLoader.Action, (∀ a ∈ acts, a ≠ DataLoader.Action.reset) →
        (d1.runActions acts).processed_queue_ = [] := by
  refine ⟨rfl, { engineBadGood with loaded_queue_ := [DataItem.text "good"], process_loops := 0 },
    rfl, rfl, rfl, rfl, fun acts ha => ?_⟩
  exact (DataLoader.runActions_stalled acts _ ha ⟨rfl, rfl, rfl⟩).2.2

/-- C17 (amended): if `processor_fn_` fails on the item a preprocess loop has popped, that
item is not pushed (the processed queue and the items held by other loops are unchanged)
and that loop ends: the exception leaves `processData`.  Later items are handled by the
loops still running: if one holds no item, it pops the next loaded item, and when the
processor succeeds on it the result is pushed to the processed queue as soon as there is
room; if no loop is left, no preprocess step is enabled. -/
theorem C17_processor_failure_ends_loop {Item E : Type} (d : DataLoader Item)
    (processor_fn_ : Item → Except E Item) (data : Item) (rest : List Item) (e : E)
    (hq : d.loaded_queue_ = data :: rest)
    (hidle : d.processing.length < min d.process_loops d.processor_threads)
    (hf : processor_fn_ data = .error e) :
    ∃ d1, d.processStep (some processor_fn_) = some d1 ∧
      d1 = { d with loaded_queue_ := rest, process_loops := d.process_loops - 1 } ∧
      d1.processed_queue_ = d.processed_queue_ ∧ d1.processing = d.processing ∧
      (∀ next rest1 out, rest = next :: rest1 → processor_fn_ next = .ok out →
        d1.processing.length < min d1.process_loops d1.processor_threads →
        ∃ d2, d1.processStep (some processor_fn_) = some d2 ∧
          d2.processing = d1.processing ++ [out] ∧
          (d2.done_loading_ = false → d2.processed_queue_.length < d2.buffer_size_ →
            ∃ d3, d2.processPush d1.processing.length = some d3 ∧
              d3.processed_queue_ = d2.processed_queue_ ++ [out])) ∧
      (d1.process_loops = 0 → d1.processStep (some processor_fn_) = none) := by
  refine ⟨_, ?_, rfl, rfl, rfl, ?_, ?_⟩
  · simp only [DataLoader.processStep, hq, hidle, if_true, hf]
  · intro next rest1 out hr hok hidle1
    refine ⟨{ d with loaded_queue_ := rest1, process_loops := d.process_loops - 1,
                     processing := d.processing ++ [out] }, ?_, rfl, ?_⟩
    · simp only [DataLoader.processStep, hr]
      simp only at hidle1
      simp only [hidle1, if_true, hok]
    · intro hd hroom
      simp only at hd hroom
      refine ⟨{ d with loaded_queue_ := rest1, process_loops := d.process_loops - 1,
                       processing := d.processing,
                       processed_queue_ := d.processed_queue_ ++ [out] }, ?_, rfl⟩
      have he : (d.processing ++ [out]).eraseIdx d.processing.length = d.processing := by
        rw [List.eraseIdx_append_of_length_le (Nat.le_refl _)]
        simp
      simp [DataLoader.processPush, hd, hroom, he]
  · intro h0
    exact DataLoader.processStep_none_of_stalled _ h0

/-- Witness of C17: the engine `engineBadGood` and the processor failing on "bad". -/
theorem C17_processor_failure_ends_loop_witness :
    ∃ d1, engineBadGood.processStep (some pickyProcessor) = some d1 ∧
      d1.processed_queue_ = engineBadGood.processed_queue_ ∧
      d1.process_loops = engineBadGood.process_loops - 1 := by
  obtain ⟨d1, h1, heq, h2, _, _, _⟩ := C17_processor_failure_ends_loop engineBadGood
    pickyProcessor (DataItem.text "bad") [DataItem.text "good"] "bad item" rfl (by decide)
    rfl
  exact ⟨d1, h1, h2, by rw [heq]⟩

/-- C18: a `loadData(path)` call that runs while no loader function is set throws
`std::runtime_error("Loader function not set")` before touching anything: both queues, the
cache and every other member are exactly as before.  As a step of the loader pool, the
task is gone and the tasks for the other locators are still queued in their order, and a
later task for which a loader is set runs as usual. -/
theorem C18_loader_unset (d : DataLoader DataItem) (path : String) (rest : List String)
    (ht : d.load_tasks = path :: rest) (hfree : d.loading.length < d.loader_threads) :
    d.loadData none path = some (.threw "Loader function not set" d) ∧
    ∃ d1, d.loadTask none = some d1 ∧ d1 = { d with load_tasks := rest } ∧
      d1.loaded_queue_ = d.loaded_queue_ ∧ d1.processed_queue_ = d.processed_queue_ ∧
      d1.data_cache_ = d.data_cache_ ∧ d1.loading = d.loading ∧
      ∀ (loader : String → Except String DataItem),
        d1.loadTask (some loader) =
          ({ d with load_tasks := rest } : DataLoader DataItem).loadTask (some loader) := by
  refine ⟨rfl, _, ?_, rfl, rfl, rfl, rfl, rfl, fun _ => rfl⟩
  simp only [DataLoader.loadTask, ht, hfree, if_true, DataLoader.loadData]

/-- Witness of C18: the engine `engineCached`, whose only queued load task is "a.txt". -/
theorem C18_loader_unset_witness :
    engineCached.loadData none "a.txt" = some (.threw "Loader function not set" engineCached) ∧
    ∃ d1, engineCached.loadTask none = some d1 ∧ d1 = { engineCached with load_tasks := [] } ∧
      d1.loaded_queue_ = engineCached.loaded_queue_ ∧
      d1.processed_queue_ = engineCached.processed_queue_ ∧
      d1.data_cache_ = engineCached.data_cache_ ∧ d1.loading = engineCached.loading ∧
      ∀ (loader : String → Except String DataItem),
        d1.loadTask (some loader) =
          ({ engineCached with load_tasks := [] } : DataLoader DataItem).loadTask (some loader) :=
  C18_loader_unset engineCached "a.txt" [] rfl (by decide)

/-- C19: for every engine state, right after `reset()` has drained the queues and cleared
the flag, and also after it has resubmitted the tasks: both queues are empty,
`current_index_` is 0 and `done_loading_` is false, while the cache (contents, recency
order, capacity), `cache_capacity_`, the locator list, the batch size and the buffer size
are unchanged; the resubmission adds one load task per locator behind those still
queued. -/
theorem C19_reset_state {Item : Type} (d : DataLoader Item) :
    (d.resetFlags.loaded_queue_ = [] ∧ d.resetFlags.processed_queue_ = [] ∧
      d.resetFlags.current_index_ = 0 ∧ d.resetFlags.done_loading_ = false ∧
      d.resetFlags.data_cache_ = d.data_cache_ ∧
      d.resetFlags.cache_capacity_ = d.cache_capacity_ ∧
      d.resetFlags.data_paths_ = d.data_paths_ ∧ d.resetFlags.batch_size_ = d.batch_size_ ∧
      d.resetFlags.buffer_size_ = d.buffer_size_ ∧ d.resetFlags.load_tasks = d.load_tasks) ∧
    (d.reset.loaded_queue_ = [] ∧ d.reset.processed_queue_ = [] ∧
      d.reset.current_index_ = 0 ∧ d.reset.done_loading_ = false ∧
      d.reset.data_cache_ = d.data_cache_ ∧ d.reset.cache_capacity_ = d.cache_capacity_ ∧
      d.reset.data_paths_ = d.data_paths_ ∧ d.reset.batch_size_ = d.batch_size_ ∧
      d.reset.buffer_size_ = d.buffer_size_ ∧
      d.reset.load_tasks = d.load_tasks ++ d.data_paths_) :=
  ⟨⟨DataLoader.drain_eq_nil _, DataLoader.drain_eq_nil _, rfl, rfl, rfl, rfl, rfl, rfl, rfl, rfl⟩,
   ⟨DataLoader.drain_eq_nil _, DataLoader.drain_eq_nil _, rfl, rfl, rfl, rfl, rfl, rfl, rfl, rfl⟩⟩

/-- C20: `enqueue` on a pool whose stop flag is set throws "Cannot enqueue task into
stopped ThreadPool" and leaves the pool, its task queue included, unchanged; `enqueue` on a
pool whose stop flag is clear returns and the task queue is the old queue followed by the
new task, nothing else changed. -/
theorem C20_enqueue {Task : Type} (p : ThreadPool Task) (task : Task) :
    (p.stop_ = true →
      p.enqueue task = (.error "Cannot enqueue task into stopped ThreadPool", p)) ∧
    (p.stop_ = false →
      p.enqueue task = (.ok (), { p with tasks_ := p.tasks_ ++ [task] }) ∧
      (p.enqueue task).2.tasks_ = p.tasks_ ++ [task] ∧
      (p.enqueue task).2.tasks_.length = p.tasks_.length + 1 ∧
      (p.enqueue task).2.tasks_.take p.tasks_.length = p.tasks_) := by
  constructor
  · intro hs
    simp [ThreadPool.enqueue, hs]
  · intro hs
    simp [ThreadPool.enqueue, hs]

/-- Witness of C20: a stopped pool holding the tasks 1, 2 rejects task 3, and the same pool
not stopped queues it last. -/
theorem C20_enqueue_witness :
    ({ workers_ := 2, tasks_ := [1, 2], stop_ := true } : ThreadPool Nat).enqueue 3 =
      (.error "Cannot enqueue task into stopped ThreadPool",
        { workers_ := 2, tasks_ := [1, 2], stop_ := true }) ∧
    (({ workers_ := 2, tasks_ := [1, 2], stop_ := false } : ThreadPool Nat).enqueue 3).2.tasks_
      = [1, 2, 3] :=
  ⟨(C20_enqueue { workers_ := 2, tasks_ := [1, 2], stop_ := true } 3).1 rfl,
   ((C20_enqueue { workers_ := 2, tasks_ := [1, 2], stop_ := false } 3).2 rfl).2.1⟩

/-- C21: in one iteration of the worker loop a worker exits exactly when the stop flag is
set and the task queue is empty; it stays asleep exactly when the flag is clear and the
queue is empty; otherwise it removes the task at the head of the queue and runs it (the
`front()` call never meets an empty queue).  Hence with the stop flag set, also right
after the destructor has set it, a single worker runs all queued tasks in queue order, each
once, and then exits, within `k + 1` iterations for `k` queued tasks. -/
theorem C21_worker_drains_then_exits {Task : Type} (p : ThreadPool Task) :
    (p.workerStep = .exits ↔ p.stop_ = true ∧ p.tasks_ = []) ∧
    (p.workerStep = .sleeps ↔ p.stop_ = false ∧ p.tasks_ = []) ∧
    (∀ task rest, p.tasks_ = task :: rest →
      p.workerStep = .runs task { p with tasks_ := rest }) ∧
    p.workerStep ≠ .undefined ∧
    (p.stop_ = true → ∀ fuel, p.tasks_.length < fuel →
      ThreadPool.workerLoop fuel p [] = (.exited, p.tasks_, { p with tasks_ := [] })) ∧
    (∀ fuel, p.tasks_.length < fuel →
      ThreadPool.workerLoop fuel p.shutdown [] =
        (.exited, p.tasks_, { p with stop_ := true, tasks_ := [] })) := by
  refine ⟨?_, ?_, ?_, ?_, ?_, ?_⟩
  · cases hs : p.stop_ <;> cases ht : p.tasks_ <;> simp [ThreadPool.workerStep, hs, ht]
  · cases hs : p.stop_ <;> cases ht : p.tasks_ <;> simp [ThreadPool.workerStep, hs, ht]
  · intro task rest ht
    cases hs : p.stop_ <;> simp [ThreadPool.workerStep, hs, ht]
  · cases hs : p.stop_ <;> cases ht : p.tasks_ <;> simp [ThreadPool.workerStep, hs, ht]
  · intro hs fuel hf
    have := ThreadPool.workerLoop_drain p.tasks_ fuel [] p hs rfl hf
    simpa using this
  · intro fuel hf
    have := ThreadPool.workerLoop_drain p.tasks_ fuel [] p.shutdown rfl rfl hf
    simpa [ThreadPool.shutdown] using this

/-- Witness of C21: a pool of one worker with the stop flag set and the queued tasks 1, 2,
3: the worker runs 1, 2, 3 in this order and exits, leaving the queue empty. -/
theorem C21_worker_drains_then_exits_witness :
    ThreadPool.workerLoop 4 ({ workers_ := 1, tasks_ := [1, 2, 3], stop_ := true } : ThreadPool Nat) []
      = (.exited, [1, 2, 3], { workers_ := 1, tasks_ := [], stop_ := true }) :=
  (C21_worker_drains_then_exits
    ({ workers_ := 1, tasks_ := [1, 2, 3], stop_ := true } : ThreadPool Nat)).2.2.2.2.1 rfl 4
    (by decide)

/-- C22: for every host text `h` without '/' and without ':' (empty or not), every port
`p` with `0 <= p <= 65535` written in decimal, and every suffix `r`:
`createStorageForPath("hdfs://" + h + ":" + decimal(p) + "/" + r)` returns an HDFS storage
with name node `h` and port `p`, and `createStorageForPath("hdfs://" + h + "/" + r)`
returns an HDFS storage with name node `h` and port 9000 (neither is connected). -/
theorem C22_hdfs_host_and_port (h : List Char) (hs : '/' ∉ h) (hc : ':' ∉ h) (p : Nat)
    (hp : p ≤ 65535) (r : List Char) :
    StorageFactory.createStorageForPath
        (StorageFactory.hdfsScheme ++ (h ++ ':' :: Nat.toDigits 10 p) ++ '/' :: r)
      = .ok (Storage.hdfs h p false) ∧
    StorageFactory.createStorageForPath (StorageFactory.hdfsScheme ++ h ++ '/' :: r)
      = .ok (Storage.hdfs h 9000 false) := by
  constructor
  · have hdig := (StorageFactory.toDigits_digits p).2
    have hs' : '/' ∉ h ++ ':' :: Nat.toDigits 10 p := by
      intro hm
      rcases List.mem_append.mp hm with h1 | h1
      · exact hs h1
      · rcases List.mem_cons.mp h1 with h2 | h2
        · exact absurd h2 (by decide)
        · exact absurd (hdig _ h2) (by decide)
    have := (StorageFactory.createStorageForPath_hdfs _ hs' _ (Or.inr ⟨r, rfl⟩)).2 h
      (Nat.toDigits 10 p) rfl hc
    rw [this, StorageFactory.stoi_toDigits p (by omega)]
    rfl
  · exact (StorageFactory.createStorageForPath_hdfs h hs _ (Or.inr ⟨r, rfl⟩)).1 hc

/-- Witness of C22: host "nn", port 8020, suffix "x": the paths "hdfs://nn:8020/x" and
"hdfs://nn/x". -/
theorem C22_hdfs_host_and_port_witness :
    StorageFactory.createStorageForPath "hdfs://nn:8020/x".toList
      = .ok (Storage.hdfs ['n', 'n'] 8020 false) ∧
    StorageFactory.createStorageForPath "hdfs://nn/x".toList
      = .ok (Storage.hdfs ['n', 'n'] 9000 false) :=
  C22_hdfs_host_and_port ['n', 'n'] (by decide) (by decide) 8020 (by decide) ['x']

/-- C23: for every bucket text `b` without '/' and every suffix `r`, both
`createStorageForPath("s3://" + b + "/" + r)` and `createStorageForPath("s3://" + b)`
return an S3 storage with bucket `b`, empty access key and secret key, region
"us-east-1", not connected. -/
theorem C23_s3_bucket (b : List Char) (hb : '/' ∉ b) (r : List Char) :
    StorageFactory.createStorageForPath (StorageFactory.s3Scheme ++ b ++ '/' :: r)
      = .ok (Storage.s3 b [] [] "us-east-1".toList false) ∧
    StorageFactory.createStorageForPath (StorageFactory.s3Scheme ++ b)
      = .ok (Storage.s3 b [] [] "us-east-1".toList false) :=
  ⟨(StorageFactory.createStorageForPath_s3 b hb).2 r,
   (StorageFactory.createStorageForPath_s3 b hb).1⟩

/-- Witness of C23: the paths "s3://my-bucket/images/a.jpg" and "s3://my-bucket". -/
theorem C23_s3_bucket_witness :
    StorageFactory.createStorageForPath "s3://my-bucket/images/a.jpg".toList
      = .ok (Storage.s3 "my-bucket".toList [] [] "us-east-1".toList false) ∧
    StorageFactory.createStorageForPath "s3://my-bucket".toList
      = .ok (Storage.s3 "my-bucket".toList [] [] "us-east-1".toList false) :=
  C23_s3_bucket "my-bucket".toList (by decide) "images/a.jpg".toList

/-- C24: `createStorageForPath` returns a storage for every path, the empty one and those
shorter than a scheme included (no `substr` call is out of range and a failing `stoi` is
caught); every path that starts with neither "s3://" nor "hdfs://" gets the local storage;
the storage the `DataLoader` constructor creates for an empty locator list, that of the
path "", is the local storage. -/
theorem C24_storage_total_default_local (path : List Char) :
    (∃ st, StorageFactory.createStorageForPath path = .ok st) ∧
    ((¬ ∃ rest, path = StorageFactory.s3Scheme ++ rest) →
      (¬ ∃ rest, path = StorageFactory.hdfsScheme ++ rest) →
      StorageFactory.createStorageForPath path = .ok Storage.localStorage) ∧
    StorageFactory.createStorageForPath [] = .ok Storage.localStorage ∧
    StorageFactory.createStorageForPath ['s', '3'] = .ok Storage.localStorage ∧
    StorageFactory.storageForPaths [] = .ok Storage.localStorage := by
  refine ⟨StorageFactory.createStorageForPath_total path, fun h3 h7 => ?_, rfl, rfl, rfl⟩
  apply StorageFactory.createStorageForPath_local
  · intro h
    exact h3 ((StorageFactory.take_eq_scheme_iff StorageFactory.s3Scheme path).mp h)
  · intro h
    exact h7 ((StorageFactory.take_eq_scheme_iff StorageFactory.hdfsScheme path).mp h)

/-- Witness of C24: the path "data/train/a.jpg" starts with neither scheme and gets the
local storage. -/
theorem C24_storage_total_default_local_witness :
    StorageFactory.createStorageForPath "data/train/a.jpg".toList = .ok Storage.localStorage :=
  (C24_storage_total_default_local "data/train/a.jpg".toList).2.1
    (by rintro ⟨rest, h⟩; cases h) (by rintro ⟨rest, h⟩; cases h)

/-- C25: with the item cache disabled (`data_cache_` empty) every cache member function
returns: `getCacheSize()` is 0, `clearCache()` leaves the engine as it is, `loadData`
with a loader set calls the loader on the locator exactly once and hands on its item or
its exception without touching the state, and `setCacheCapacity(n)` with `n > 0` installs
a new, empty cache of capacity `n`.  The disabled state is the one a constructor call
with `cache_capacity = 0` produces whenever it returns (it returns when both worker pools
can be built), and `setCacheCapacity(0)` returns on every engine,
recording capacity 0 and discarding the cache with all its entries, so that
`getCacheSize()` is 0 afterwards. -/
theorem C25_cache_disabled (d : DataLoader DataItem) (hd : d.data_cache_ = none) :
    d.getCacheSize = 0 ∧ d.clearCache = d ∧
    (∀ (loader : String → Except String DataItem) (path : String) (data : DataItem),
      loader path = .ok data →
      DataLoader.loadData (some loader) path d = some (.reached data [path] d)) ∧
    (∀ (loader : String → Except String DataItem) (path what : String),
      loader path = .error what →
      DataLoader.loadData (some loader) path d = some (.threw what d)) ∧
    (∀ n, 0 < n →
      d.setCacheCapacity n
          = some { d with cache_capacity_ := n, data_cache_ := some (LRUCache.new n) } ∧
        (LRUCache.new n : LRUCache String DataItem).entries = [] ∧
        (LRUCache.new n : LRUCache String DataItem).size = 0 ∧
        (LRUCache.new n : LRUCache String DataItem).capacity = n) ∧
    (∀ (r : Limits) (paths : List String) (b l p q : Nat),
      ((∃ p1 p2 : ThreadPool Unit, ThreadPool.construct r l = .ok p1 ∧
          ThreadPool.construct r p = .ok p2) →
        ∃ d0 : DataLoader DataItem, DataLoader.construct r paths b l p q 0 = .ok d0) ∧
      ∀ d0 : DataLoader DataItem, DataLoader.construct r paths b l p q 0 = .ok d0 →
        d0.data_cache_ = none ∧ d0.cache_capacity_ = 0) ∧
    (∀ e : DataLoader DataItem,
      ∃ e1, e.setCacheCapacity 0 = some e1 ∧
        e1 = { e with cache_capacity_ := 0, data_cache_ := none } ∧ e1.getCacheSize = 0) := by
  refine ⟨?_, ?_, ?_, ?_, ?_, ?_, ?_⟩
  · simp [DataLoader.getCacheSize, hd]
  · simp [DataLoader.clearCache, hd]
  · intro loader path data hl
    simp [DataLoader.loadData, hd, hl]
  · intro loader path what hl
    simp [DataLoader.loadData, hd, hl]
  · intro n hn
    refine ⟨?_, rfl, rfl, rfl⟩
    simp [DataLoader.setCacheCapacity, hd, hn]
  · intro r paths b l p q
    refine ⟨fun hp => ⟨_, (DataLoader.construct_ok_iff r paths b l p q 0 _).mpr ⟨hp, rfl⟩⟩,
      fun d0 h0 => ?_⟩
    rw [((DataLoader.construct_ok_iff r paths b l p q 0 d0).mp h0).2]
    exact ⟨rfl, rfl⟩
  · intro e
    exact ⟨_, rfl, rfl, rfl⟩

/-- Witness of C25: the engine `engineBadGood` has no cache; its cache size is 0,
`clearCache()` leaves it unchanged and `setCacheCapacity(3)` returns. -/
theorem C25_cache_disabled_witness :
    engineBadGood.data_cache_ = none ∧ engineBadGood.getCacheSize = 0 ∧
      engineBadGood.clearCache = engineBadGood ∧
      engineBadGood.setCacheCapacity 3
        = some { engineBadGood with cache_capacity_ := 3, data_cache_ := some (LRUCache.new 3) } :=
  ⟨rfl, (C25_cache_disabled engineBadGood rfl).1, (C25_cache_disabled engineBadGood rfl).2.1,
    ((C25_cache_disabled engineBadGood rfl).2.2.2.2.1 3 (by decide)).1⟩

/-- C26, as stated, fails: on a cache constructed with capacity 2, after `put(A, 1)` and
`set_capacity(0)` (state: empty, capacity 0) the call `get_or_load(B, loader)` with a
loader that returns 7 misses, and its insertion takes the eviction branch because
`0 >= 0`, calling `list_.back()` and `list_.pop_back()` on the empty list, which is
undefined behaviour; the sequence produces no state in which map and list agree. -/
theorem C26_counterexample :
    LRUCache.run (LRUCache.new 2 : LRUCache K3 Nat)
        [(LRUCache.Op.put K3.A 1 : LRUCache.Op K3 Nat Unit), LRUCache.Op.set_capacity 0]
        = some { capacity_ := 0, list_ := [], cache_ := [] } ∧
      LRUCache.get_or_load ({ capacity_ := 0, list_ := [], cache_ := [] } : LRUCache K3 Nat)
        K3.B (fun _ => (Except.ok 7 : Except Unit Nat)) = none ∧
      ¬ ∃ s, LRUCache.run (LRUCache.new 2 : LRUCache K3 Nat)
          [(LRUCache.Op.put K3.A 1 : LRUCache.Op K3 Nat Unit), LRUCache.Op.set_capacity 0,
           LRUCache.Op.get_or_load K3.B (fun _ => Except.ok 7)] = some s ∧
        s.size = s.list_.length := by
  refine ⟨rfl, rfl, ?_⟩
  rintro ⟨s, hs, _⟩
  have hnone : LRUCache.run (LRUCache.new 2 : LRUCache K3 Nat)
      [(LRUCache.Op.put K3.A 1 : LRUCache.Op K3 Nat Unit), LRUCache.Op.set_capacity 0,
       LRUCache.Op.get_or_load K3.B (fun _ => Except.ok 7)] = none := rfl
  rw [hnone] at hs
  cases hs

/-- C26 (amended): for a cache constructed with capacity `c > 0` and every finite sequence
`ops` of calls, after each call of the sequence (every initial segment `ops.take i`):
whenever the calls have defined behaviour, the keys of the recency list are pairwise
distinct, a key is in the map exactly when it is in the list, every map entry refers to a
node of the list that carries the same key, and `size()` equals the list length; and if
every `set_capacity` argument in the sequence is positive then all calls do have defined
behaviour, so the agreement holds after each. -/
theorem C26_map_list_agree {K V E : Type} [DecidableEq K] (c : Nat) (hc : 0 < c)
    (ops : List (LRUCache.Op K V E)) (i : Nat) :
    (∀ s, LRUCache.run (LRUCache.new c) (ops.take i) = some s →
      s.keys.Nodup ∧ (∀ k, k ∈ s.cache_.map Prod.fst ↔ k ∈ s.keys) ∧
      (∀ k a, (k, a) ∈ s.cache_ →
        ∃ n ∈ s.list_, LRUCache.deref s.list_ a = some n ∧ n.key = k) ∧
      s.size = s.list_.length) ∧
    ((∀ n, LRUCache.Op.set_capacity n ∈ ops → 0 < n) →
      ∃ s, LRUCache.run (LRUCache.new c) (ops.take i) = some s ∧
        s.keys.Nodup ∧ (∀ k, k ∈ s.cache_.map Prod.fst ↔ k ∈ s.keys) ∧
        (∀ k a, (k, a) ∈ s.cache_ →
          ∃ n ∈ s.list_, LRUCache.deref s.list_ a = some n ∧ n.key = k) ∧
        s.size = s.list_.length) := by
  have h0 : (LRUCache.new c : LRUCache K V).size ≤ (LRUCache.new c : LRUCache K V).capacity :=
    Nat.zero_le _
  refine ⟨fun s hs => (LRUCache.WF.run_inv _ (LRUCache.WF.new c) h0 hs).1.agreement,
    fun hops => ?_⟩
  obtain ⟨s, hs⟩ := LRUCache.WF.run_defined (ops.take i) (LRUCache.WF.new c) hc
    (fun n hn => hops n (List.mem_of_mem_take hn))
  exact ⟨s, hs, (LRUCache.WF.run_inv _ (LRUCache.WF.new c) h0 hs).1.agreement⟩

/-- Witness of C26: capacity 2 and the first five calls of `sampleCalls` (two puts, a get,
an evicting put, `set_capacity(1)`); they all return and leave a state whose size equals
its list length. -/
theorem C26_map_list_agree_witness :
    0 < 2 ∧ ∃ s, LRUCache.run (LRUCache.new 2 : LRUCache K3 Nat) (sampleCalls.take 5) = some s ∧
      s.keys.Nodup ∧ s.size = s.list_.length :=
  ⟨by decide,
    match (C26_map_list_agree 2 (by decide) sampleCalls 5).2 (by
      intro n hn
      simp only [sampleCalls, List.mem_cons, LRUCache.Op.set_capacity.injEq, List.mem_nil_iff,
        or_false, false_or, reduceCtorEq] at hn
      omega) with
    | ⟨s, hs, hk, _, _, hl⟩ => ⟨s, hs, hk, hl⟩⟩

/-- C27: in a state with `done_loading_` set, the push block of a waiting `loadData` call
proceeds and drops its item, leaving the loaded queue as it is; the push block of a
waiting preprocess iteration proceeds and drops its item, leaving the processed queue as it
is; after any sequence of steps of the threads in which no `reset()` occurs (load tasks,
push blocks, preprocess steps, `getNextItem`, `stop`) the flag is still set and each queue
is what is left of the old queue after removing some items from its front, so neither has
grown; `getNextItem()` returns the front of a non-empty processed queue and removes it, and
an empty optional on an empty one; and `stop()` after `stop()` gives the state of a single
`stop()`, on every engine. -/
theorem C27_done_stops_producers (d : DataLoader DataItem) (hd : d.done_loading_ = true) :
    (∀ i data, d.loading.get? i = some data →
      d.loadPush i = some { d with loading := d.loading.eraseIdx i }) ∧
    (∀ i data, d.processing.get? i = some data →
      d.processPush i = some { d with processing := d.processing.eraseIdx i }) ∧
    (∀ acts : List DataLoader.Action, (∀ a ∈ acts, a ≠ DataLoader.Action.reset) →
      (d.runActions acts).done_loading_ = true ∧
      (∃ k, (d.runActions acts).loaded_queue_ = d.loaded_queue_.drop k) ∧
      (∃ k, (d.runActions acts).processed_queue_ = d.processed_queue_.drop k) ∧
      (d.runActions acts).loaded_queue_.length ≤ d.loaded_queue_.length ∧
      (d.runActions acts).processed_queue_.length ≤ d.processed_queue_.length) ∧
    (∀ item rest, d.processed_queue_ = item :: rest →
      d.getNextItem = .returned (some item) { d with processed_queue_ := rest }) ∧
    (d.processed_queue_ = [] → d.getNextItem = .returned none d) ∧
    d.stop = d ∧
    (∀ e : DataLoader DataItem, e.stop.done_loading_ = true ∧ e.stop.stop = e.stop) := by
  refine ⟨fun i data hg => DataLoader.loadPush_done hd i hg,
    fun i data hg => DataLoader.processPush_done hd i hg, fun acts ha => ?_,
    fun item rest hq => ?_, fun hq => ?_, ?_, fun e => ⟨rfl, rfl⟩⟩
  · obtain ⟨h1, ⟨k1, h2⟩, ⟨k2, h3⟩⟩ := DataLoader.runActions_done acts d ha hd
    refine ⟨h1, ⟨k1, h2⟩, ⟨k2, h3⟩, ?_, ?_⟩
    · rw [h2, List.length_drop]
      exact Nat.sub_le _ _
    · rw [h3, List.length_drop]
      exact Nat.sub_le _ _
  · simp [DataLoader.getNextItem, hq]
  · simp [DataLoader.getNextItem, hq, hd]
  · obtain ⟨⟩ := d
    simp only at hd
    subst hd
    rfl

/-- Witness of C27: `engineBadGood` after `stop()`, whose loaded queue holds two items; a
preprocess step, its push block, a load task and a `getNextItem` leave the flag set and
the processed queue empty. -/
theorem C27_done_stops_producers_witness :
    (DataLoader.stop engineBadGood).done_loading_ = true ∧
      ((DataLoader.stop engineBadGood).runActions
        [.processStep (some pickyProcessor), .processStep (some pickyProcessor), .processPush 0,
         .loadTask (some textLoader), .getNextItem]).processed_queue_.length
        ≤ (DataLoader.stop engineBadGood).processed_queue_.length :=
  ⟨rfl, ((C27_done_stops_producers (DataLoader.stop engineBadGood) rfl).2.2.1 _ (by
    intro a ha
    simp only [List.mem_cons, List.mem_nil_iff, or_false] at ha
    rcases ha with h | h | h | h | h <;> rw [h] <;> exact fun hc => by cases hc)).2.2.2.2⟩
